/-
Verification of the sheriff struct-marshalling library.

The Go source (package sheriff) is shallowly embedded below:
  * `groupSet` with `incrementGroups` / `decrementGroups` / `contains` /
    `containsAny` embeds group_set.go.  A Go `map[string]int` is modelled as an
    association list with unique keys; decrementing never removes a key, and
    `len` of the map is the number of keys (including keys whose count is 0),
    exactly as in Go.
  * `Options`, `Marshal`, `marshalObject` and `marshalValue` embed the
    marshalling file.  The per-field loop body of `marshalObject` is the
    function `marshalFields`; the post-pointer-dereference dispatch of
    `marshalValue` (its lines from `k == reflect.Interface` on) is
    `marshalValueDeref`; the slice and map loops are `marshalSlice` and
    `marshalMap`.  Go's mutation of the shared `parents` map is modelled by
    threading the `groupSet` state through every call and returning it.
  * Go panics (e.g. calling a method on a nil `*version.Version`, or
    `reflect.Value.Interface` on the zero `Value`) are modelled by the
    `Res.panic` outcome, which propagates without running the deferred-style
    pop of the parents set (a Go panic unwinds past those lines).

Input values are the inductive `Value`:
  * `vStruct` carries a list of fields (tag metadata plus a value); the json
    tag is stored pre-parsed (name and option list), standing for the
    `parseTag` helper that sheriff vendors from encoding/json.
  * a nil pointer is `vPtr vNil` (the pointee of a nil pointer is the invalid
    reflect value `vNil`).
  * `vMap` is a Go map; all keys of a Go map share one `Kind`, stored once.
  * `vOutMap` is specifically a Go `map[string]interface{}` value — the type
    the walker builds and the type tested by the `v.(map[string]interface{})`
    assertion in `marshalObject`.
  * `vMarshaller` is a (non-struct-kind) value implementing the sheriff
    `Marshaller` interface; its `Marshal` method returns the stored result.
  * `vSelfDescribing` is a value implementing json.Marshaler,
    encoding.TextMarshaler or fmt.Stringer: the walker returns it unchanged.
-/
import Mathlib

namespace Sheriff

/-- Go reflect.Kind, as far as the walker inspects it. -/
inductive Kind where
  | kString | kInt | kBool | kFloat | kStruct | kSlice | kMap | kPtr | kOther
  deriving DecidableEq, Repr

/-- A scalar Go value (base types are returned unchanged by the walker). -/
inductive Scal where
  | s (v : String)
  | i (v : Int)
  | b (v : Bool)
  deriving DecidableEq, Repr

/-- Per-field metadata: the struct tag data and reflect facts the walker reads.
The json tag is stored pre-parsed into its name and its comma-separated
options, standing for sheriff's vendored `parseTag`. `canInterface` is false
for unexported fields. -/
structure FieldMeta where
  name : String
  jsonName : String
  jsonOpts : List String
  groupsTag : String
  sinceTag : String
  untilTag : String
  anonymous : Bool
  canInterface : Bool
  deriving DecidableEq, Repr

mutual
/-- A Go value as seen through reflect by the walker. -/
inductive Value where
  | vNil : Value
  | vScalar : Scal → Value
  | vSelfDescribing : String → Value
  | vMarshaller : Bool → String → Value → Value
  | vPtr : Value → Value
  | vStruct : Fields → Value
  | vSlice : Values → Value
  | vMap : Kind → Entries → Value
  | vOutMap : Entries → Value
  deriving DecidableEq, Repr

/-- The field list of a struct value. -/
inductive Fields where
  | nil : Fields
  | cons : FieldMeta → Value → Fields → Fields
  deriving DecidableEq, Repr

/-- The element list of a slice value. -/
inductive Values where
  | nil : Values
  | cons : Value → Values → Values
  deriving DecidableEq, Repr

/-- The entry list of a map value (keys rendered as strings). -/
inductive Entries where
  | nil : Entries
  | cons : String → Value → Entries → Entries
  deriving DecidableEq, Repr
end

/-- group_set.go: `type groupSet map[string]int`, as an association list with
unique keys.  Keys are never removed, mirroring a Go map in which decremented
entries stay present with count 0. -/
abbrev groupSet : Type := List (String × Int)

/-- Reading `s[g]` from the Go map (0 when absent). -/
def groupSet.get (s : groupSet) (g : String) : Int :=
  match s with
  | [] => 0
  | (k, n) :: t => if k = g then n else groupSet.get t g

/-- `s[g] += d`: update in place when present, otherwise insert the key. -/
def groupSet.bump (s : groupSet) (g : String) (d : Int) : groupSet :=
  match s with
  | [] => [(g, d)]
  | (k, n) :: t => if k = g then (k, n + d) :: t else (k, n) :: groupSet.bump t g d

/-- group_set.go `incrementGroups`. -/
def groupSet.incrementGroups (s : groupSet) (groups : List String) : groupSet :=
  groups.foldl (fun acc g => acc.bump g 1) s

/-- group_set.go `decrementGroups`. -/
def groupSet.decrementGroups (s : groupSet) (groups : List String) : groupSet :=
  groups.foldl (fun acc g => acc.bump g (-1)) s

/-- group_set.go `contains`: `s[group] > 0`. -/
def groupSet.containsG (s : groupSet) (g : String) : Bool :=
  decide (0 < s.get g)

/-- group_set.go `containsAny`. -/
def groupSet.containsAny (s : groupSet) (groups : List String) : Bool :=
  groups.any s.containsG

/-- Go `len` of the map: the number of keys (keys with count 0 included). -/
def groupSet.size (s : groupSet) : Nat := s.length

/-- Modelled from the spec: the external semantic-version comparison
capability (hashicorp go-version) is out of scope of the source; a version is
its list of numeric segments. -/
abbrev Version : Type := List Nat

/-- Split a string at every occurrence of one separator character
(Go `strings.Split` for a one-character separator). -/
def splitOnChar (sep : Char) (s : String) : List String :=
  (s.toList.foldr
    (fun c acc =>
      match acc with
      | [] => if c = sep then [[], []] else [[c]]
      | h :: t => if c = sep then [] :: h :: t else (c :: h) :: t)
    [[]]).map String.mk

/-- Digits-only string to number. -/
def digitsToNat (s : String) : Nat :=
  s.toList.foldl (fun n c => n * 10 + (c.toNat - 48)) 0

/-- Modelled from the spec: `version.NewVersion` — parse dotted numeric
segments, failing on anything else. -/
def parseVersion (s : String) : Option Version :=
  let parts := splitOnChar '.' s
  if parts.all (fun p => p ≠ "" && p.toList.all Char.isDigit) then
    some (parts.map digitsToNat)
  else
    none

/-- All remaining segments zero (the shorter version is padded with zeros). -/
def allZero : List Nat → Bool
  | [] => true
  | a :: as => a = 0 && allZero as

/-- Modelled from the spec: segment comparison of two versions, missing
segments counting as zero. -/
def segCmp : List Nat → List Nat → Ordering
  | [], bs => if allZero bs then .eq else .lt
  | a :: as, [] => if a = 0 then segCmp as [] else .gt
  | a :: as, b :: bs =>
    if a < b then .lt else if b < a then .gt else segCmp as bs

/-- Modelled from the spec: `Version.LessThan`. -/
def Version.lessThan (a b : Version) : Bool := segCmp a b = Ordering.lt

/-- Modelled from the spec: `Version.GreaterThan`. -/
def Version.greaterThan (a b : Version) : Bool := segCmp a b = Ordering.gt

/-- The sheriff `Options` struct.  `ApiVersion` is a possibly-nil pointer. -/
structure Options where
  Groups : List String
  ApiVersion : Option Version
  OutputFieldsWithNoGroup : Bool
  InheritGroups : Bool
  deriving DecidableEq, Repr

/-- The errors the walker can return: `MarshalInvalidTypeError` (carrying the
offending kind and the original value), the go-version parse error, and an
error returned by a custom `Marshaller`. -/
inductive Err where
  | marshalInvalidType (t : Kind) (data : Value)
  | versionParse (tag : String)
  | marshallerErr (msg : String)
  deriving DecidableEq, Repr

/-- Outcome of a walker call: a returned value, a returned error, or a Go
panic (no defined result). -/
inductive Res where
  | ok (v : Value)
  | err (e : Err)
  | panic
  deriving DecidableEq, Repr

/-- Outcome of one since/until tag check: a visibility boolean, a returned
parse error, or a panic (nil `ApiVersion` dereference). -/
inductive VCheck where
  | pass (b : Bool)
  | verr (e : Err)
  | vpanic
  deriving DecidableEq, Repr

/-- reflect.Value.IsValid: only the zero Value is invalid. -/
def Value.isValid : Value → Bool
  | .vNil => false
  | _ => true

/-- Whether the value's reflect kind is Struct.  `vMarshaller` and
`vSelfDescribing` model non-struct-kind implementations of those
interfaces. -/
def Value.isStructKind : Value → Bool
  | .vStruct _ => true
  | _ => false

/-- Following one level of pointer indirection (`reflect.Value.Elem`);
dereferencing a nil pointer yields the invalid value. -/
def deref1 : Value → Value
  | .vPtr inner => inner
  | v => v

/-- Modelled from the spec: `isEmptyValue`, vendored from encoding/json and
absent from src — the zero/empty value test used by `omitempty` (empty
sequence/mapping/string, zero number, false, nil reference). -/
def isEmptyValue : Value → Bool
  | .vScalar (.s st) => st = ""
  | .vScalar (.i n) => n = 0
  | .vScalar (.b b) => !b
  | .vSlice .nil => true
  | .vMap _ .nil => true
  | .vOutMap .nil => true
  | .vPtr inner => !inner.isValid
  | _ => false

/-- Insertion into a Go `map[string]interface{}` (`dest[k] = v`): overwrite in
place when the key exists, append otherwise. -/
def entInsert : Entries → String → Value → Entries
  | .nil, k, v => .cons k v .nil
  | .cons k' v' rest, k, v =>
    if k' = k then .cons k' v rest else .cons k' v' (entInsert rest k v)

/-- `for k, v := range nested { dest[k] = v }`: merge `nested` into `dest`,
overwriting on key collision. -/
def entMerge (dest : Entries) : Entries → Entries
  | .nil => dest
  | .cons k v rest => entMerge (entInsert dest k v) rest

mutual
/-- Size of a value (termination measure for the walker). -/
def sizeV : Value → Nat
  | .vNil | .vScalar _ | .vSelfDescribing _ => 1
  | .vMarshaller _ _ r => sizeV r + 1
  | .vPtr inner => sizeV inner + 1
  | .vStruct fs => sizeF fs + 1
  | .vSlice es => sizeVs es + 1
  | .vMap _ es => sizeE es + 1
  | .vOutMap es => sizeE es + 1

/-- Size of a field list. -/
def sizeF : Fields → Nat
  | .nil => 0
  | .cons _ v rest => sizeV v + sizeF rest + 1

/-- Size of a value list. -/
def sizeVs : Values → Nat
  | .nil => 0
  | .cons v rest => sizeV v + sizeVs rest + 1

/-- Size of an entry list. -/
def sizeE : Entries → Nat
  | .nil => 0
  | .cons _ v rest => sizeV v + sizeE rest + 1
end

theorem sizeV_pos (v : Value) : 1 ≤ sizeV v := by
  cases v <;> simp [sizeV]

theorem sizeV_deref1_le (v : Value) : sizeV (deref1 v) ≤ sizeV v := by
  cases v <;> simp [deref1, sizeV]

/-- `t.Kind() == reflect.Struct` together with the field list. -/
def structFieldsOf : Value → Option Fields
  | .vStruct fs => some fs
  | _ => none

theorem structFieldsOf_size {v : Value} {fs : Fields}
    (h : structFieldsOf v = some fs) : sizeF fs < sizeV v := by
  cases v <;> simp_all [structFieldsOf, sizeV]

theorem deref1_field_measure (v : Value) (n : Nat) :
    4 * sizeV (deref1 v) + 3 < 4 * (sizeV v + n + 1) + 4 := by
  have := sizeV_deref1_le v
  omega

/-- Lines 119: `checkGroups := len(options.Groups) > 0 ||
(options.InheritGroups && len(parents) > 0) || options.OutputFieldsWithNoGroup`. -/
def checkGroupsFlag (o : Options) (parents : groupSet) : Bool :=
  decide (0 < o.Groups.length) ||
    (o.InheritGroups && decide (0 < parents.size)) ||
    o.OutputFieldsWithNoGroup

/-- Lines 118–124: the `groupNames` variable — non-empty only when
`checkGroups` holds and the field has a `groups` tag. -/
def fieldGroupNames (o : Options) (parents : groupSet) (groupsTag : String) :
    List String :=
  if checkGroupsFlag o parents && groupsTag ≠ "" then splitOnChar ',' groupsTag
  else []

/-- Lines 117–134: `shouldShowFromGroup`. -/
def groupVisibility (o : Options) (groups parents : groupSet)
    (embeddedParents : Bool) (groupsTag : String) (isEmbeddedField : Bool) :
    Bool :=
  if checkGroupsFlag o parents then
    let groupNames :=
      if groupsTag ≠ "" then splitOnChar ',' groupsTag else []
    let hasExactMatch := groups.containsAny groupNames
    let hasParentMatch :=
      if o.InheritGroups then parents.containsAny o.Groups
      else if embeddedParents && groupNames.isEmpty then
        parents.containsAny o.Groups
      else false
    let hasNoGroup := groupNames.isEmpty
    hasExactMatch || hasParentMatch ||
      (hasNoGroup && o.OutputFieldsWithNoGroup) || isEmbeddedField
  else true

/-- Lines 168–177: keep a visible field's recursed value — flatten it into
`dest` when the field is embedded and the value is a `map[string]interface{}`
(overwriting on key collision), otherwise store it under the output key. -/
def storeField (dest : Entries) (key : String) (rv : Value) (isEmb : Bool) :
    Entries :=
  match rv, isEmb with
  | .vOutMap nested, true => entMerge dest nested
  | _, _ => entInsert dest key rv

/-- Prepend a freshly marshalled element to an already-built slice result
(the recursive slice walk always returns a slice when it succeeds). -/
def slicePrepend (d : Value) : Value → Value
  | .vSlice ds => .vSlice (.cons d ds)
  | other => other

/-- The derived output key of a field (lines 91–96): the json tag name, or
the field identifier when there is none. -/
def fieldJsonTag (meta : FieldMeta) : String :=
  if meta.jsonName = "" then meta.name else meta.jsonName

/-- The embedded-record test of line 117, on the dereferenced field value. -/
def fieldIsEmbedded (meta : FieldMeta) (fval : Value) : Bool :=
  meta.anonymous && (deref1 fval).isStructKind

/-- Lines 136–145: the `since` tag check.  A missing tag passes; a malformed
tag is a returned error; a well-formed tag compares against `ApiVersion`,
panicking when that pointer is nil. -/
def sinceCheck (api : Option Version) (tag : String) : VCheck :=
  if tag = "" then .pass true
  else
    match parseVersion tag with
    | none => .verr (.versionParse tag)
    | some sinceVersion =>
      match api with
      | none => .vpanic
      | some av => .pass (!av.lessThan sinceVersion)

/-- Lines 147–156: the `until` tag check. -/
def untilCheck (api : Option Version) (tag : String) : VCheck :=
  if tag = "" then .pass true
  else
    match parseVersion tag with
    | none => .verr (.versionParse tag)
    | some untilVersion =>
      match api with
      | none => .vpanic
      | some av => .pass (!av.greaterThan untilVersion)

mutual
/-- Lines 68–83 of `marshalObject`: dereference one pointer level; walk the
fields when struct-shaped, else fall through to `marshalValue` (with
`embeddedParents := false`).  `v.Type()` on the zero reflect value (a nil
`data` interface) panics. -/
def marshalObject (o : Options) (data : Value) (groups parents : groupSet)
    (embeddedParents : Bool) : groupSet × Res :=
  if data = .vNil then (parents, .panic)
  else
    match h : structFieldsOf (deref1 data) with
    | some fs => marshalFields o fs groups parents embeddedParents .nil
    | none => marshalValue o (deref1 data) groups parents false
termination_by
  4 * sizeV data +
    (match structFieldsOf (deref1 data) with | some _ => 1 | none => 4)
decreasing_by
  all_goals
    simp only [h]
    first
    | (have h1 := structFieldsOf_size h
       have h2 := sizeV_deref1_le data
       omega)
    | (have h1 := sizeV_deref1_le data
       omega)

/-- Lines 85–180: the per-field loop of `marshalObject`, accumulating `dest`. -/
def marshalFields (o : Options) (fs : Fields) (groups parents : groupSet)
    (embeddedParents : Bool) (dest : Entries) : groupSet × Res :=
  match fs with
  | .nil => (parents, .ok (.vOutMap dest))
  | .cons meta fval rest =>
    let jsonTag := fieldJsonTag meta
    if jsonTag = "-" then
      marshalFields o rest groups parents embeddedParents dest
    else if meta.jsonOpts.contains "omitempty" && isEmptyValue fval then
      marshalFields o rest groups parents embeddedParents dest
    else if !fval.isValid || !meta.canInterface then
      marshalFields o rest groups parents embeddedParents dest
    else
      let val := deref1 fval
      let isEmbeddedField := fieldIsEmbedded meta fval
      let groupNames := fieldGroupNames o parents meta.groupsTag
      let shouldShowFromGroup :=
        groupVisibility o groups parents embeddedParents meta.groupsTag
          isEmbeddedField
      match sinceCheck o.ApiVersion meta.sinceTag with
      | .verr e => (parents, .err e)
      | .vpanic => (parents, .panic)
      | .pass shouldShowFromSince =>
        match untilCheck o.ApiVersion meta.untilTag with
        | .verr e => (parents, .err e)
        | .vpanic => (parents, .panic)
        | .pass shouldShowFromUntil =>
          let doPush := o.InheritGroups || isEmbeddedField
          let parents1 :=
            if doPush then parents.incrementGroups groupNames else parents
          match marshalValue o val groups parents1 isEmbeddedField with
          | (parents2, .panic) => (parents2, .panic)
          | (parents2, .err e) =>
            ((if doPush then parents2.decrementGroups groupNames else parents2),
              .err e)
          | (parents2, .ok rv) =>
            let parents3 :=
              if doPush then parents2.decrementGroups groupNames else parents2
            let dest' :=
              if shouldShowFromGroup && shouldShowFromSince &&
                  shouldShowFromUntil then
                storeField dest jsonTag rv isEmbeddedField
              else dest
            marshalFields o rest groups parents3 embeddedParents dest'
termination_by 4 * sizeF fs + 4
decreasing_by
  all_goals
    simp only [sizeF]
    first
    | omega
    | exact deref1_field_measure _ _

/-- Lines 186–244 of `marshalValue` up to the pointer dereference: the invalid
value returns nil; a `Marshaller` delegates; a self-describing value is
returned unchanged; a pointer is dereferenced (panicking on the nil pointer,
where `v.Interface()` hits the zero value); everything else falls through to
the kind dispatch. -/
def marshalValue (o : Options) (v : Value) (groups parents : groupSet)
    (embeddedParents : Bool) : groupSet × Res :=
  match v with
  | .vNil => (parents, .ok .vNil)
  | .vMarshaller isErr msg res =>
    (parents, if isErr then .err (.marshallerErr msg) else .ok res)
  | .vSelfDescribing s => (parents, .ok (.vSelfDescribing s))
  | .vPtr inner =>
    if inner = .vNil then (parents, .panic)
    else marshalValueDeref o inner groups parents embeddedParents
  | .vScalar s => marshalValueDeref o (.vScalar s) groups parents embeddedParents
  | .vStruct fs => marshalValueDeref o (.vStruct fs) groups parents embeddedParents
  | .vSlice es => marshalValueDeref o (.vSlice es) groups parents embeddedParents
  | .vMap kk es => marshalValueDeref o (.vMap kk es) groups parents embeddedParents
  | .vOutMap es => marshalValueDeref o (.vOutMap es) groups parents embeddedParents
termination_by 4 * sizeV v + 3
decreasing_by
  all_goals simp only [sizeV] <;> omega

/-- Lines 211–244 of `marshalValue`: dispatch on the (dereferenced) kind —
struct recurses through `marshalObject`, slices and maps recurse elementwise,
an empty map yields nil, a map whose first key is not string-kinded is an
`InvalidInputType` error, anything else is returned unchanged. -/
def marshalValueDeref (o : Options) (v : Value) (groups parents : groupSet)
    (embeddedParents : Bool) : groupSet × Res :=
  match v with
  | .vStruct fs => marshalObject o (.vStruct fs) groups parents embeddedParents
  | .vSlice es => marshalSlice o es groups parents embeddedParents
  | .vMap keyKind es =>
    match es with
    | .nil => (parents, .ok .vNil)
    | .cons k0 v0 r0 =>
      if keyKind ≠ .kString then
        (parents,
          .err (.marshalInvalidType keyKind (.vMap keyKind (.cons k0 v0 r0))))
      else marshalMap o (.cons k0 v0 r0) groups parents embeddedParents .nil
  | .vOutMap es =>
    match es with
    | .nil => (parents, .ok .vNil)
    | .cons k0 v0 r0 =>
      marshalMap o (.cons k0 v0 r0) groups parents embeddedParents .nil
  | _ => (parents, .ok v)
termination_by 4 * sizeV v + 2
decreasing_by
  all_goals simp only [sizeV, deref1, structFieldsOf] <;> omega

/-- Lines 214–224: the slice loop, preserving element order. -/
def marshalSlice (o : Options) (es : Values) (groups parents : groupSet)
    (embeddedParents : Bool) : groupSet × Res :=
  match es with
  | .nil => (parents, .ok (.vSlice .nil))
  | .cons head rest =>
    match marshalValue o head groups parents embeddedParents with
    | (p2, .err e) => (p2, .err e)
    | (p2, .panic) => (p2, .panic)
    | (p2, .ok d) =>
      match marshalSlice o rest groups p2 embeddedParents with
      | (p3, .err e) => (p3, .err e)
      | (p3, .panic) => (p3, .panic)
      | (p3, .ok ds) => (p3, .ok (slicePrepend d ds))
termination_by 4 * sizeVs es + 4
decreasing_by
  all_goals simp only [sizeVs] <;> omega

/-- Lines 234–242: the map loop, building the output map entry by entry. -/
def marshalMap (o : Options) (es : Entries) (groups parents : groupSet)
    (embeddedParents : Bool) (dest : Entries) : groupSet × Res :=
  match es with
  | .nil => (parents, .ok (.vOutMap dest))
  | .cons k v rest =>
    match marshalValue o v groups parents embeddedParents with
    | (p2, .err e) => (p2, .err e)
    | (p2, .panic) => (p2, .panic)
    | (p2, .ok d) => marshalMap o rest groups p2 embeddedParents (entInsert dest k d)
termination_by 4 * sizeE es + 4
decreasing_by
  all_goals simp only [sizeE] <;> omega
end

/-- Lines 61–66: `Marshal` seeds the activation set from `options.Groups`, an
empty parents set, and starts the object walker. -/
def Marshal (o : Options) (data : Value) : Res :=
  (marshalObject o data (groupSet.incrementGroups [] o.Groups) [] false).2

/-- Whether a key is present in the Go map (count 0 keys included). -/
def groupSet.hasKey (s : groupSet) (g : String) : Bool :=
  match s with
  | [] => false
  | (k, _) :: t => k = g || groupSet.hasKey t g

/-- Lookup in an output map. -/
def entLookup : Entries → String → Option Value
  | .nil, _ => none
  | .cons k v t, k' => if k = k' then some v else entLookup t k'

/-- Key membership in an output map. -/
def entHasKey : Entries → String → Bool
  | .nil, _ => false
  | .cons k _ t, k' => k = k' || entHasKey t k'

/-- Pairwise-distinct keys (every Go map has them). -/
def entKeysNodup : Entries → Bool
  | .nil => true
  | .cons k _ t => !entHasKey t k && entKeysNodup t

/-- Remove the (first) entry with the given key. -/
def entErase : Entries → String → Entries
  | .nil, _ => .nil
  | .cons k v t, k' => if k = k' then t else .cons k v (entErase t k')

/-- Number of entries. -/
def entLen : Entries → Nat
  | .nil => 0
  | .cons _ _ t => entLen t + 1

/-- The value found under a key is smaller than the whole entry list. -/
theorem entLookup_size : ∀ (xs : Entries) (k : String) (v : Value),
    entLookup xs k = some v → sizeV v < sizeE xs
  | .nil, _, _, h => by simp [entLookup] at h
  | .cons k0 v0 r, k, v, h => by
    simp only [entLookup] at h
    by_cases hk : k0 = k
    · rw [if_pos hk] at h
      cases h
      simp [sizeE]
      omega
    · rw [if_neg hk] at h
      have := entLookup_size r k v h
      simp [sizeE]
      omega
termination_by xs _ _ _ => sizeE xs
decreasing_by simp [sizeE]; omega

mutual
/-- Two values denote the same Go value: identical except that the entry
lists of keyed mappings may be enumerated in any order.  A Go map has no
entry order, so one map value is modelled by any of its enumeration orders;
this relation identifies them (and, at every mapping, also records that keys
are pairwise distinct, which every Go map guarantees). -/
def VEqv : Value → Value → Prop
  | .vNil, .vNil => True
  | .vScalar s, .vScalar s2 => s = s2
  | .vSelfDescribing s, .vSelfDescribing s2 => s = s2
  | .vMarshaller e m r, .vMarshaller e2 m2 r2 => e = e2 ∧ m = m2 ∧ VEqv r r2
  | .vPtr a, .vPtr b => VEqv a b
  | .vStruct fs, .vStruct gs => FEqv fs gs
  | .vSlice xs, .vSlice ys => VsEqv xs ys
  | .vMap kk xs, .vMap kk2 ys =>
    kk = kk2 ∧ entKeysNodup xs = true ∧ entKeysNodup ys = true ∧
      (∀ k, entHasKey xs k = entHasKey ys k) ∧
      (∀ k v v2, entLookup xs k = some v → entLookup ys k = some v2 →
        VEqv v v2)
  | .vOutMap xs, .vOutMap ys =>
    entKeysNodup xs = true ∧ entKeysNodup ys = true ∧
      (∀ k, entHasKey xs k = entHasKey ys k) ∧
      (∀ k v v2, entLookup xs k = some v → entLookup ys k = some v2 →
        VEqv v v2)
  | _, _ => False
termination_by a _ => sizeV a
decreasing_by
  all_goals simp only [sizeV, sizeF, sizeVs, sizeE]
  all_goals first
    | omega
    | (rename_i hlk _
       have := entLookup_size _ _ _ hlk
       omega)

/-- Fields of two equal struct values: same metadata and order, equal
values. -/
def FEqv : Fields → Fields → Prop
  | .nil, .nil => True
  | .cons m v fs, .cons m2 v2 gs => m = m2 ∧ VEqv v v2 ∧ FEqv fs gs
  | _, _ => False
termination_by a _ => sizeF a
decreasing_by
  all_goals simp only [sizeV, sizeF, sizeVs, sizeE]
  all_goals omega

/-- Elements of two equal slice values: same order, equal elements. -/
def VsEqv : Values → Values → Prop
  | .nil, .nil => True
  | .cons v xs, .cons v2 ys => VEqv v v2 ∧ VsEqv xs ys
  | _, _ => False
termination_by a _ => sizeVs a
decreasing_by
  all_goals simp only [sizeV, sizeF, sizeVs, sizeE]
  all_goals omega
end

/-- Entry lists of two equal keyed mappings: distinct keys, the same key set,
and equal values at every key — entry order is immaterial. -/
def EntRel (xs ys : Entries) : Prop :=
  entKeysNodup xs = true ∧ entKeysNodup ys = true ∧
    (∀ k, entHasKey xs k = entHasKey ys k) ∧
    (∀ k v v2, entLookup xs k = some v → entLookup ys k = some v2 →
      VEqv v v2)

/-- An abnormal outcome: a returned error or a panic. -/
def Res.isAbnormal : Res → Prop
  | .ok _ => False
  | _ => True

/-- Same outcome up to mapping-entry order: both calls produce equal trees, or
both fail to produce one. -/
def RRel (r1 r2 : Res) : Prop :=
  (∃ v1 v2, r1 = .ok v1 ∧ r2 = .ok v2 ∧ VEqv v1 v2) ∨
    (r1.isAbnormal ∧ r2.isAbnormal)

/-- Two parents states that the walker cannot distinguish: equal counts for
every group, and the same `checkGroups` policy outcome. -/
def StateRel (o : Options) (p1 p2 : groupSet) : Prop :=
  (∀ g, p1.get g = p2.get g) ∧ checkGroupsFlag o p1 = checkGroupsFlag o p2

/-- Relating the full outcome of two walker calls: both abnormal, or both
values equal up to mapping-entry order with indistinguishable final states. -/
def CallRel (o : Options) (a b : groupSet × Res) : Prop :=
  (∃ v1 v2, a.2 = .ok v1 ∧ b.2 = .ok v2 ∧ VEqv v1 v2 ∧ StateRel o a.1 b.1) ∨
    (a.2.isAbnormal ∧ b.2.isAbnormal)

/-! ### Measures mirroring the walker termination order, and the two-run
congruence statements -/

def measO (v : Value) : Nat :=
  4 * sizeV v +
    (match structFieldsOf (deref1 v) with | some _ => 1 | none => 4)

def measV (v : Value) : Nat := 4 * sizeV v + 3

def measD (v : Value) : Nat := 4 * sizeV v + 2

def measM (es : Entries) : Nat := 4 * sizeE es + 4

def measS (vs : Values) : Nat := 4 * sizeVs vs + 4

def measF (fs : Fields) : Nat := 4 * sizeF fs + 4

/-- Object-walker congruence up to size `n`: on equal-up-to-mapping-order
inputs and indistinguishable states, both runs fail or both produce
equal-up-to-mapping-order trees. -/
def CongO (o : Options) (n : Nat) : Prop :=
  ∀ (d1 d2 : Value) (groups p1 p2 : groupSet) (emb : Bool), measO d1 ≤ n →
    VEqv d1 d2 → StateRel o p1 p2 →
    CallRel o (marshalObject o d1 groups p1 emb)
      (marshalObject o d2 groups p2 emb)

/-- Value-walker congruence up to size `n`. -/
def CongV (o : Options) (n : Nat) : Prop :=
  ∀ (v1 v2 : Value) (groups p1 p2 : groupSet) (emb : Bool), measV v1 ≤ n →
    VEqv v1 v2 → StateRel o p1 p2 →
    CallRel o (marshalValue o v1 groups p1 emb)
      (marshalValue o v2 groups p2 emb)

/-- Kind-dispatch congruence up to size `n`. -/
def CongD (o : Options) (n : Nat) : Prop :=
  ∀ (v1 v2 : Value) (groups p1 p2 : groupSet) (emb : Bool), measD v1 ≤ n →
    VEqv v1 v2 → StateRel o p1 p2 →
    CallRel o (marshalValueDeref o v1 groups p1 emb)
      (marshalValueDeref o v2 groups p2 emb)

/-- Map-loop congruence up to size `n`: the two entry lists enumerate the
same Go map. -/
def CongM (o : Options) (n : Nat) : Prop :=
  ∀ (es1 es2 : Entries) (groups p1 p2 : groupSet) (emb : Bool)
    (dest1 dest2 : Entries), measM es1 ≤ n →
    EntRel es1 es2 → StateRel o p1 p2 → EntRel dest1 dest2 →
    CallRel o (marshalMap o es1 groups p1 emb dest1)
      (marshalMap o es2 groups p2 emb dest2)

/-- Slice-loop congruence up to size `n`. -/
def CongS (o : Options) (n : Nat) : Prop :=
  ∀ (vs1 vs2 : Values) (groups p1 p2 : groupSet) (emb : Bool), measS vs1 ≤ n →
    VsEqv vs1 vs2 → StateRel o p1 p2 →
    CallRel o (marshalSlice o vs1 groups p1 emb)
      (marshalSlice o vs2 groups p2 emb)

/-- Field-loop congruence up to size `n`. -/
def CongF (o : Options) (n : Nat) : Prop :=
  ∀ (fs1 fs2 : Fields) (groups p1 p2 : groupSet) (emb : Bool)
    (dest1 dest2 : Entries), measF fs1 ≤ n →
    FEqv fs1 fs2 → StateRel o p1 p2 → EntRel dest1 dest2 →
    CallRel o (marshalFields o fs1 groups p1 emb dest1)
      (marshalFields o fs2 groups p2 emb dest2)

/-- All six congruences up to size `n`. -/
def CongAll (o : Options) (n : Nat) : Prop :=
  CongO o n ∧ CongV o n ∧ CongD o n ∧ CongM o n ∧ CongS o n ∧ CongF o n

/-- Swapping the two leading entries of the map loop (distinct keys,
self-related inputs) gives related outcomes. -/
def SWprop (o : Options) (n : Nat) : Prop :=
  ∀ (k1 k2 : String) (v1 v2 : Value) (t : Entries) (groups p : groupSet)
    (emb : Bool) (dest : Entries),
    measM (.cons k1 v1 (.cons k2 v2 t)) ≤ n →
    k1 ≠ k2 → VEqv v1 v1 → VEqv v2 v2 → EntRel t t → EntRel dest dest →
    CallRel o
      (marshalMap o (.cons k1 v1 (.cons k2 v2 t)) groups p emb dest)
      (marshalMap o (.cons k2 v2 (.cons k1 v1 t)) groups p emb dest)

/-- Moving any entry of the map loop to the front (self-related inputs)
gives related outcomes. -/
def MFprop (o : Options) (n : Nat) : Prop :=
  ∀ (bs : Entries) (k : String) (v' : Value) (groups p : groupSet)
    (emb : Bool) (dest : Entries),
    measM bs ≤ n →
    EntRel bs bs → EntRel dest dest → entLookup bs k = some v' →
    CallRel o (marshalMap o bs groups p emb dest)
      (marshalMap o (.cons k v' (entErase bs k)) groups p emb dest)

/-! ### Sample inputs used by concrete witnesses and counterexamples -/

/-- Options: activation `admin`, no version, no extra flags. -/
def oAdmin : Options :=
  { Groups := ["admin"], ApiVersion := none,
    OutputFieldsWithNoGroup := false, InheritGroups := false }

/-- A field tagged `groups:"secret"`, invisible under activation `admin`. -/
def metaSecret : FieldMeta :=
  { name := "A", jsonName := "", jsonOpts := [], groupsTag := "secret",
    sinceTag := "", untilTag := "", anonymous := false, canInterface := true }

/-- Options with no groups, no version and no flags. -/
def oEmpty : Options :=
  { Groups := [], ApiVersion := none,
    OutputFieldsWithNoGroup := false, InheritGroups := false }

/-- An embedded (anonymous) struct-typed field. -/
def metaInner : FieldMeta :=
  { name := "Inner", jsonName := "", jsonOpts := [], groupsTag := "",
    sinceTag := "", untilTag := "", anonymous := true, canInterface := true }

/-- A plain exported field named X with no tags. -/
def metaX : FieldMeta :=
  { name := "X", jsonName := "", jsonOpts := [], groupsTag := "",
    sinceTag := "", untilTag := "", anonymous := false, canInterface := true }


/-- A field with an unparseable since tag. -/
def metaSinceX : FieldMeta :=
  { name := "A", jsonName := "", jsonOpts := [], groupsTag := "",
    sinceTag := "x", untilTag := "", anonymous := false, canInterface := true }

/-- A field with the parseable since tag 1.0.0. -/
def metaSinceV : FieldMeta :=
  { name := "A", jsonName := "", jsonOpts := [], groupsTag := "",
    sinceTag := "1.0.0", untilTag := "", anonymous := false,
    canInterface := true }

/-- Options with activation `admin` and group inheritance on. -/
def oInherit : Options :=
  { Groups := ["admin"], ApiVersion := none,
    OutputFieldsWithNoGroup := false, InheritGroups := true }

/-- An inner struct value with the single field X. -/
def innerX : Value := .vStruct (.cons metaX (.vScalar (.i 1)) .nil)

/-- One enumeration order of a two-entry Go map whose values are failing
custom marshallers. -/
def mapsA : Value :=
  .vMap .kString (.cons "a" (.vMarshaller true "e1" .vNil)
    (.cons "b" (.vMarshaller true "e2" .vNil) .nil))

/-- The other enumeration order of the same Go map. -/
def mapsB : Value :=
  .vMap .kString (.cons "b" (.vMarshaller true "e2" .vNil)
    (.cons "a" (.vMarshaller true "e1" .vNil) .nil))

/-! ### Counting lemmas for the group multiset -/

theorem groupSet.get_bump_self (s : groupSet) (g : String) (d : Int) :
    (s.bump g d).get g = s.get g + d := by
  induction s with
  | nil => simp [groupSet.bump, groupSet.get]
  | cons p t ih =>
    obtain ⟨k, n⟩ := p
    by_cases hk : k = g
    · simp [groupSet.bump, groupSet.get, hk]
    · simp [groupSet.bump, groupSet.get, hk, ih]

theorem groupSet.get_bump_other (s : groupSet) {g g' : String} (d : Int)
    (h : g' ≠ g) : (s.bump g d).get g' = s.get g' := by
  induction s with
  | nil => simp [groupSet.bump, groupSet.get, Ne.symm h]
  | cons p t ih =>
    obtain ⟨k, n⟩ := p
    by_cases hk : k = g
    · subst hk
      have hne : ¬k = g' := fun hh => h hh.symm
      simp [groupSet.bump, groupSet.get, hne]
    · by_cases hk' : k = g'
      · subst hk'
        simp [groupSet.bump, groupSet.get, hk]
      · simp [groupSet.bump, groupSet.get, hk, hk', ih]

theorem groupSet.get_incrementGroups (L : List String) (s : groupSet)
    (g : String) :
    (s.incrementGroups L).get g = s.get g + L.count g := by
  induction L generalizing s with
  | nil => simp [groupSet.incrementGroups]
  | cons a t ih =>
    show ((s.bump a 1).incrementGroups t).get g = _
    rw [ih]
    by_cases ha : a = g
    · subst ha
      rw [groupSet.get_bump_self]
      simp [List.count_cons]
      push_cast
      ring
    · rw [groupSet.get_bump_other s 1 (fun hh => ha hh.symm)]
      simp [List.count_cons, ha]

theorem groupSet.get_decrementGroups (L : List String) (s : groupSet)
    (g : String) :
    (s.decrementGroups L).get g = s.get g - L.count g := by
  induction L generalizing s with
  | nil => simp [groupSet.decrementGroups]
  | cons a t ih =>
    show ((s.bump a (-1)).decrementGroups t).get g = _
    rw [ih]
    by_cases ha : a = g
    · subst ha
      rw [groupSet.get_bump_self]
      simp [List.count_cons]
      push_cast
      ring
    · rw [groupSet.get_bump_other s (-1) (fun hh => ha hh.symm)]
      simp [List.count_cons, ha]

/-- Push-then-pop of the same name list restores every count. -/
theorem groupSet.get_inc_dec (L : List String) (s1 s2 : groupSet)
    (g : String) (h : ∀ x, (s1.incrementGroups L).get x = s2.get x) :
    (s2.decrementGroups L).get g = s1.get g := by
  rw [groupSet.get_decrementGroups, ← h g, groupSet.get_incrementGroups]
  ring

/-- A count in the activation set seeded from the options is positive exactly
for listed group names. -/
theorem groupSet.get_seed_pos (L : List String) (g : String) :
    0 < (groupSet.incrementGroups [] L).get g ↔ g ∈ L := by
  rw [groupSet.get_incrementGroups]
  show 0 < groupSet.get [] g + (L.count g : Int) ↔ _
  simp only [groupSet.get, Int.zero_add]
  constructor
  · intro h
    exact List.count_pos_iff.mp (by exact_mod_cast h)
  · intro h
    exact_mod_cast List.count_pos_iff.mpr h

theorem groupSet.containsAny_iff (s : groupSet) (names : List String) :
    s.containsAny names = true ↔ ∃ n ∈ names, 0 < s.get n := by
  simp [groupSet.containsAny, groupSet.containsG, List.any_eq_true]

/-- The `checkGroups` policy trigger, spelled as a proposition. -/
theorem checkGroupsFlag_iff (o : Options) (parents : groupSet) :
    checkGroupsFlag o parents = true ↔
      (o.Groups ≠ [] ∨ (o.InheritGroups = true ∧ 0 < parents.size) ∨
        o.OutputFieldsWithNoGroup = true) := by
  simp [checkGroupsFlag, groupSet.size, List.length_pos]
  tauto

/-! ### The claims -/

/-- C1: group visibility is evaluated at all only when the activation set is
non-empty, or inheritGroups mode is on and the parents set is non-empty, or
includeUngrouped is set; when evaluated, the field is group-visible iff its
declared groups intersect the activation set, or inheritGroups is on and the
parents set intersects the activation set, or the caller is an embedded
context and the field declares no groups and the parents set intersects the
activation set, or the field declares no groups and includeUngrouped is set,
or the field is an embedded record field; otherwise group visibility defaults
to true. -/
theorem claim1_group_visibility (o : Options) (groups parents : groupSet)
    (embeddedParents : Bool) (groupsTag : String) (isEmbeddedField : Bool)
    (hg : groups = groupSet.incrementGroups [] o.Groups) :
    (groupVisibility o groups parents embeddedParents groupsTag isEmbeddedField
        = true) ↔
      (let declared : List String :=
        if groupsTag = "" then [] else splitOnChar ',' groupsTag
       if o.Groups ≠ [] ∨ (o.InheritGroups = true ∧ 0 < parents.size) ∨
            o.OutputFieldsWithNoGroup = true then
         (∃ n ∈ declared, n ∈ o.Groups) ∨
           (o.InheritGroups = true ∧ ∃ n ∈ o.Groups, 0 < parents.get n) ∨
           (embeddedParents = true ∧ declared = [] ∧
             ∃ n ∈ o.Groups, 0 < parents.get n) ∨
           (declared = [] ∧ o.OutputFieldsWithNoGroup = true) ∨
           isEmbeddedField = true
       else True) := by
  subst hg
  simp only [groupVisibility]
  by_cases hcf : checkGroupsFlag o parents = true
  · rw [if_pos hcf]
    rw [checkGroupsFlag_iff] at hcf
    simp only [hcf, if_pos]
    by_cases ht : groupsTag = ""
    · cases hIG : o.InheritGroups <;> cases hEP : embeddedParents <;>
        cases hNG : o.OutputFieldsWithNoGroup <;> cases hEF : isEmbeddedField <;>
        (simp [ht, groupSet.containsAny_iff, groupSet.get_seed_pos] <;>
          (try (try generalize (∃ n ∈ splitOnChar ',' groupsTag, n ∈ o.Groups) = EM
                try generalize (∃ n ∈ o.Groups, 0 < parents.get n) = PM
                try generalize (splitOnChar ',' groupsTag = []) = DE
                tauto)))
    · cases hIG : o.InheritGroups <;> cases hEP : embeddedParents <;>
        cases hNG : o.OutputFieldsWithNoGroup <;> cases hEF : isEmbeddedField <;>
        (simp [ht, groupSet.containsAny_iff, groupSet.get_seed_pos] <;>
          (try (try generalize (∃ n ∈ splitOnChar ',' groupsTag, n ∈ o.Groups) = EM
                try generalize (∃ n ∈ o.Groups, 0 < parents.get n) = PM
                try generalize (splitOnChar ',' groupsTag = []) = DE
                tauto)))
  · rw [if_neg hcf]
    have hnc : ¬(o.Groups ≠ [] ∨ (o.InheritGroups = true ∧ 0 < parents.size) ∨
        o.OutputFieldsWithNoGroup = true) := by
      rw [← checkGroupsFlag_iff o parents]
      simpa using hcf
    simp [hnc]

/-- Witness for C1 at a concrete input: a field tagged `groups:"admin,user"`
is visible under activation `["admin"]`. -/
theorem claim1_witness :
    groupVisibility
      { Groups := ["admin"], ApiVersion := none,
        OutputFieldsWithNoGroup := false, InheritGroups := false }
      (groupSet.incrementGroups [] ["admin"]) [] false "admin,user" false
      = true := by
  have h := claim1_group_visibility
    { Groups := ["admin"], ApiVersion := none,
      OutputFieldsWithNoGroup := false, InheritGroups := false }
    (groupSet.incrementGroups [] ["admin"]) [] false "admin,user" false rfl
  exact h.mpr (by decide)

/-- C10: a keyed mapping with zero entries marshals to null with no error,
regardless of its key type, string or not: the key-kind check only happens
when at least one key exists. -/
theorem claim10_empty_map (o : Options) (kk : Kind)
    (groups parents : groupSet) (embeddedParents : Bool) :
    marshalValue o (.vMap kk .nil) groups parents embeddedParents =
      (parents, .ok .vNil) := by
  simp [marshalValue, marshalValueDeref]

/-- C7: a keyed mapping with at least one entry and a non-string key type
makes `marshalValue` return the `InvalidInputType` error carrying the
offending key kind and the original value — and no partial mapping. -/
theorem claim7_invalid_map_key (o : Options) (kk : Kind)
    (k0 : String) (v0 : Value) (r0 : Entries)
    (groups parents : groupSet) (embeddedParents : Bool)
    (hkk : kk ≠ .kString) :
    marshalValue o (.vMap kk (.cons k0 v0 r0)) groups parents embeddedParents =
      (parents,
        .err (.marshalInvalidType kk (.vMap kk (.cons k0 v0 r0)))) := by
  simp [marshalValue, marshalValueDeref, hkk]

/-- Witness for C7: an integer-keyed map with one entry errors. -/
theorem claim7_witness :
    marshalValue
      { Groups := [], ApiVersion := none,
        OutputFieldsWithNoGroup := false, InheritGroups := false }
      (.vMap .kInt (.cons "1" (.vScalar (.i 5)) .nil)) [] [] false =
      ([],
        .err (.marshalInvalidType .kInt
          (.vMap .kInt (.cons "1" (.vScalar (.i 5)) .nil)))) :=
  claim7_invalid_map_key _ _ _ _ _ _ _ _ (by decide)

/-- C5: a parsing since tag `S` makes the field version-visible iff the target
version is not less than `S`; a parsing until tag `U` iff the target is not
greater than `U`; on a marshalled field, with `V < S` the field is excluded
regardless of group match, and with `V ≥ S` inclusion depends only on the
group (and until) checks. -/
theorem claim5_version_range (o : Options) (V : Version) :
    (∀ (tag : String) (S : Version), o.ApiVersion = some V →
       parseVersion tag = some S →
       sinceCheck o.ApiVersion tag = .pass (!V.lessThan S)) ∧
    (∀ (tag : String) (U : Version), o.ApiVersion = some V →
       parseVersion tag = some U →
       untilCheck o.ApiVersion tag = .pass (!V.greaterThan U)) ∧
    (∀ (gT sT : String) (S : Version) (sc : Scal),
       o.ApiVersion = some V → parseVersion sT = some S →
       Marshal o (.vStruct (.cons
           { name := "A", jsonName := "", jsonOpts := [], groupsTag := gT,
             sinceTag := sT, untilTag := "", anonymous := false,
             canInterface := true }
           (.vScalar sc) .nil)) =
         .ok (.vOutMap
           (if (groupVisibility o (groupSet.incrementGroups [] o.Groups) []
                  false gT false && !V.lessThan S) = true then
              .cons "A" (.vScalar sc) .nil
            else .nil))) := by
  have hempty : ∀ S : Version, parseVersion "" ≠ some S := by
    intro S
    simp [parseVersion, splitOnChar]
  refine ⟨?_, ?_, ?_⟩
  · intro tag S hapi hparse
    have htag : tag ≠ "" := by
      intro h
      exact hempty S (h ▸ hparse)
    simp [sinceCheck, htag, hparse, hapi]
  · intro tag U hapi hparse
    have htag : tag ≠ "" := by
      intro h
      exact hempty U (h ▸ hparse)
    simp [untilCheck, htag, hparse, hapi]
  · intro gT sT S sc hapi hparse
    have htag : sT ≠ "" := by
      intro h
      exact hempty S (h ▸ hparse)
    simp only [Marshal, marshalObject, marshalFields, structFieldsOf, deref1]
    simp [marshalFields, sinceCheck, untilCheck, htag, hparse, hapi,
          isEmptyValue, Value.isValid, Value.isStructKind, fieldJsonTag,
          fieldIsEmbedded, deref1, marshalValue, marshalValueDeref, entInsert,
          storeField]

/-- Witness for C5: target version 1.0.0 against `since:"2"` hides the field
even though the group policy would show it. -/
theorem claim5_witness :
    Marshal
      { Groups := [], ApiVersion := some [1, 0, 0],
        OutputFieldsWithNoGroup := true, InheritGroups := false }
      (.vStruct (.cons
        { name := "A", jsonName := "", jsonOpts := [], groupsTag := "",
          sinceTag := "2", untilTag := "", anonymous := false,
          canInterface := true }
        (.vScalar (.i 7)) .nil)) = .ok (.vOutMap .nil) := by
  have h := (claim5_version_range
    { Groups := [], ApiVersion := some [1, 0, 0],
      OutputFieldsWithNoGroup := true, InheritGroups := false }
    [1, 0, 0]).2.2 "" "2" [2] (.i 7) rfl (by decide)
  rw [h]
  rfl

/-- C6 counterexample: an input *containing* a field with an unparseable
`since` tag need not make `Marshal` fail — the `json:"-"` sentinel skips the
field before the tag is ever parsed, and the call succeeds. -/
theorem claim6_counterexample :
    parseVersion "x" = none ∧
    Marshal
      { Groups := [], ApiVersion := none,
        OutputFieldsWithNoGroup := false, InheritGroups := false }
      (.vStruct (.cons
        { name := "B", jsonName := "-", jsonOpts := [],
          groupsTag := "", sinceTag := "x", untilTag := "",
          anonymous := false, canInterface := true }
        (.vScalar (.i 0)) .nil)) = .ok (.vOutMap .nil) := by
  constructor
  · decide
  · simp [Marshal, marshalObject, marshalFields, structFieldsOf, deref1,
          fieldJsonTag]

/-- C6 (amended): a field that is actually processed (not skipped by the
`-` sentinel, the omit-empty check, or the unexported check) has its version
tags examined in order, since first: a non-empty since tag that does not
parse aborts the whole call right there with the parse error; when the since
check passes (empty since tag, or a parseable one compared against a
non-null target version) a non-empty until tag that does not parse aborts
the call with its parse error.  Either way no remaining fields are
processed, no partial output is returned, the parents set is handed back
untouched, and Marshal returns that error.  (A malformed until tag behind a
parseable since tag with a null target version is never reached: the since
comparison panics first.) -/
theorem claim6_amended :
    (∀ (o : Options) (meta : FieldMeta) (fval : Value) (rest : Fields)
       (groups parents : groupSet) (emb : Bool) (dest : Entries),
       fieldJsonTag meta ≠ "-" →
       (meta.jsonOpts.contains "omitempty" && isEmptyValue fval) = false →
       fval.isValid = true → meta.canInterface = true →
       meta.sinceTag ≠ "" → parseVersion meta.sinceTag = none →
       marshalFields o (.cons meta fval rest) groups parents emb dest =
         (parents, .err (.versionParse meta.sinceTag))) ∧
    (∀ (o : Options) (meta : FieldMeta) (fval : Value) (rest : Fields)
       (groups parents : groupSet) (emb : Bool) (dest : Entries),
       fieldJsonTag meta ≠ "-" →
       (meta.jsonOpts.contains "omitempty" && isEmptyValue fval) = false →
       fval.isValid = true → meta.canInterface = true →
       (meta.sinceTag = "" ∨
         (parseVersion meta.sinceTag ≠ none ∧ o.ApiVersion ≠ none)) →
       meta.untilTag ≠ "" → parseVersion meta.untilTag = none →
       marshalFields o (.cons meta fval rest) groups parents emb dest =
         (parents, .err (.versionParse meta.untilTag))) ∧
    (∀ (o : Options) (meta : FieldMeta) (fval : Value) (rest : Fields),
       fieldJsonTag meta ≠ "-" →
       (meta.jsonOpts.contains "omitempty" && isEmptyValue fval) = false →
       fval.isValid = true → meta.canInterface = true →
       meta.sinceTag ≠ "" → parseVersion meta.sinceTag = none →
       Marshal o (.vStruct (.cons meta fval rest)) =
         .err (.versionParse meta.sinceTag)) ∧
    (∀ (o : Options) (meta : FieldMeta) (fval : Value) (rest : Fields),
       fieldJsonTag meta ≠ "-" →
       (meta.jsonOpts.contains "omitempty" && isEmptyValue fval) = false →
       fval.isValid = true → meta.canInterface = true →
       (meta.sinceTag = "" ∨
         (parseVersion meta.sinceTag ≠ none ∧ o.ApiVersion ≠ none)) →
       meta.untilTag ≠ "" → parseVersion meta.untilTag = none →
       Marshal o (.vStruct (.cons meta fval rest)) =
         .err (.versionParse meta.untilTag)) := by
  have step : ∀ (o : Options) (meta : FieldMeta) (fval : Value) (rest : Fields)
       (groups parents : groupSet) (emb : Bool) (dest : Entries),
       fieldJsonTag meta ≠ "-" →
       (meta.jsonOpts.contains "omitempty" && isEmptyValue fval) = false →
       fval.isValid = true → meta.canInterface = true →
       meta.sinceTag ≠ "" → parseVersion meta.sinceTag = none →
       marshalFields o (.cons meta fval rest) groups parents emb dest =
         (parents, .err (.versionParse meta.sinceTag)) := by
    intro o meta fval rest groups parents emb dest hjt hoe hval hci hst hparse
    simp only [marshalFields]
    rw [if_neg hjt,
       if_neg (show ¬((meta.jsonOpts.contains "omitempty" && isEmptyValue fval)
         = true) by rw [hoe]; exact Bool.false_ne_true),
       if_neg (by simp [hval, hci])]
    simp [sinceCheck, hst, hparse]
  have stepU : ∀ (o : Options) (meta : FieldMeta) (fval : Value)
       (rest : Fields) (groups parents : groupSet) (emb : Bool)
       (dest : Entries),
       fieldJsonTag meta ≠ "-" →
       (meta.jsonOpts.contains "omitempty" && isEmptyValue fval) = false →
       fval.isValid = true → meta.canInterface = true →
       (meta.sinceTag = "" ∨
         (parseVersion meta.sinceTag ≠ none ∧ o.ApiVersion ≠ none)) →
       meta.untilTag ≠ "" → parseVersion meta.untilTag = none →
       marshalFields o (.cons meta fval rest) groups parents emb dest =
         (parents, .err (.versionParse meta.untilTag)) := by
    intro o meta fval rest groups parents emb dest hjt hoe hval hci hpass hut
      hparse
    have hsince : ∃ b, sinceCheck o.ApiVersion meta.sinceTag = .pass b := by
      rcases hpass with hempty | ⟨hsp, hav⟩
      · exact ⟨true, by simp [sinceCheck, hempty]⟩
      · by_cases hse : meta.sinceTag = ""
        · exact ⟨true, by simp [sinceCheck, hse]⟩
        · cases hps : parseVersion meta.sinceTag with
          | none => exact absurd hps hsp
          | some sv =>
            cases hao : o.ApiVersion with
            | none => exact absurd hao hav
            | some av =>
              exact ⟨!av.lessThan sv, by simp [sinceCheck, hse, hps, hao]⟩
    obtain ⟨b1, hb1⟩ := hsince
    have huc : untilCheck o.ApiVersion meta.untilTag =
        .verr (.versionParse meta.untilTag) := by
      simp [untilCheck, hut, hparse]
    simp only [marshalFields]
    rw [if_neg hjt,
       if_neg (show ¬((meta.jsonOpts.contains "omitempty" && isEmptyValue fval)
         = true) by rw [hoe]; exact Bool.false_ne_true),
       if_neg (by simp [hval, hci])]
    simp only [hb1, huc]
  refine ⟨step, stepU, ?_, ?_⟩
  · intro o meta fval rest hjt hoe hval hci hst hparse
    have h := step o meta fval rest (groupSet.incrementGroups [] o.Groups) []
      false .nil hjt hoe hval hci hst hparse
    simp [Marshal, marshalObject, structFieldsOf, deref1, h]
  · intro o meta fval rest hjt hoe hval hci hpass hut hparse
    have h := stepU o meta fval rest (groupSet.incrementGroups [] o.Groups) []
      false .nil hjt hoe hval hci hpass hut hparse
    simp [Marshal, marshalObject, structFieldsOf, deref1, h]

/-- Witness for the amended C6: a reached field with `since:"x"` aborts the
call with the version-parse error, despite a later field that would have
been output; and a reached field with a parseable `since:"1.0.0"` compared
against target version 1 but a malformed `until:"x"` aborts with the until
parse error. -/
theorem claim6_witness :
    (Marshal
      { Groups := [], ApiVersion := none,
        OutputFieldsWithNoGroup := true, InheritGroups := false }
      (.vStruct (.cons
        { name := "A", jsonName := "", jsonOpts := [],
          groupsTag := "", sinceTag := "x", untilTag := "",
          anonymous := false, canInterface := true }
        (.vScalar (.i 1))
        (.cons
          { name := "C", jsonName := "", jsonOpts := [],
            groupsTag := "", sinceTag := "", untilTag := "",
            anonymous := false, canInterface := true }
          (.vScalar (.s "y")) .nil))) =
      .err (.versionParse "x")) ∧
    (Marshal
      { Groups := [], ApiVersion := some [1],
        OutputFieldsWithNoGroup := true, InheritGroups := false }
      (.vStruct (.cons
        { name := "A", jsonName := "", jsonOpts := [],
          groupsTag := "", sinceTag := "1.0.0", untilTag := "x",
          anonymous := false, canInterface := true }
        (.vScalar (.i 1))
        (.cons
          { name := "C", jsonName := "", jsonOpts := [],
            groupsTag := "", sinceTag := "", untilTag := "",
            anonymous := false, canInterface := true }
          (.vScalar (.s "y")) .nil))) =
      .err (.versionParse "x")) :=
  ⟨claim6_amended.2.2.1
    { Groups := [], ApiVersion := none,
      OutputFieldsWithNoGroup := true, InheritGroups := false }
    { name := "A", jsonName := "", jsonOpts := [],
      groupsTag := "", sinceTag := "x", untilTag := "",
      anonymous := false, canInterface := true }
    (.vScalar (.i 1)) _
    (by decide) (by decide) (by decide) (by decide) (by decide) (by decide),
   claim6_amended.2.2.2
    { Groups := [], ApiVersion := some [1],
      OutputFieldsWithNoGroup := true, InheritGroups := false }
    { name := "A", jsonName := "", jsonOpts := [],
      groupsTag := "", sinceTag := "1.0.0", untilTag := "x",
      anonymous := false, canInterface := true }
    (.vScalar (.i 1)) _
    (by decide) (by decide) (by decide) (by decide)
    (Or.inr ⟨by decide, by decide⟩) (by decide) (by decide)⟩

/-- One field that passes the three skip checks, whose since/until checks
both return a visibility boolean: the value walker runs on the dereferenced
field value from the pushed parents state, and an error from it aborts the
whole walk (after the balancing pop), whatever the visibility outcome was. -/
theorem marshalFields_step_err
    (o : Options) (meta : FieldMeta) (fval : Value) (rest : Fields)
    (groups parents : groupSet) (emb : Bool) (dest : Entries)
    (b1 b2 : Bool) (p2 : groupSet) (e : Err)
    (hjt : fieldJsonTag meta ≠ "-")
    (hoe : (meta.jsonOpts.contains "omitempty" && isEmptyValue fval) = false)
    (hval : fval.isValid = true) (hci : meta.canInterface = true)
    (hs : sinceCheck o.ApiVersion meta.sinceTag = .pass b1)
    (hu : untilCheck o.ApiVersion meta.untilTag = .pass b2)
    (hrec : marshalValue o (deref1 fval) groups
        (if o.InheritGroups || fieldIsEmbedded meta fval
         then parents.incrementGroups (fieldGroupNames o parents meta.groupsTag)
         else parents)
        (fieldIsEmbedded meta fval) = (p2, .err e)) :
    marshalFields o (.cons meta fval rest) groups parents emb dest =
      ((if o.InheritGroups || fieldIsEmbedded meta fval
        then p2.decrementGroups (fieldGroupNames o parents meta.groupsTag)
        else p2), .err e) := by
  simp only [marshalFields]
  rw [if_neg hjt,
     if_neg (show ¬((meta.jsonOpts.contains "omitempty" && isEmptyValue fval)
       = true) by rw [hoe]; exact Bool.false_ne_true),
     if_neg (by simp [hval, hci])]
  simp only [hs, hu]
  rw [hrec]

/-- The successful variant of the field step: the walk continues on the rest
of the fields with the popped parents state, keeping the recursed value only
when all three visibility checks passed. -/
theorem marshalFields_step_ok
    (o : Options) (meta : FieldMeta) (fval : Value) (rest : Fields)
    (groups parents : groupSet) (emb : Bool) (dest : Entries)
    (b1 b2 : Bool) (p2 : groupSet) (rv : Value)
    (hjt : fieldJsonTag meta ≠ "-")
    (hoe : (meta.jsonOpts.contains "omitempty" && isEmptyValue fval) = false)
    (hval : fval.isValid = true) (hci : meta.canInterface = true)
    (hs : sinceCheck o.ApiVersion meta.sinceTag = .pass b1)
    (hu : untilCheck o.ApiVersion meta.untilTag = .pass b2)
    (hrec : marshalValue o (deref1 fval) groups
        (if o.InheritGroups || fieldIsEmbedded meta fval
         then parents.incrementGroups (fieldGroupNames o parents meta.groupsTag)
         else parents)
        (fieldIsEmbedded meta fval) = (p2, .ok rv)) :
    marshalFields o (.cons meta fval rest) groups parents emb dest =
      marshalFields o rest groups
        (if o.InheritGroups || fieldIsEmbedded meta fval
         then p2.decrementGroups (fieldGroupNames o parents meta.groupsTag)
         else p2) emb
        (if (groupVisibility o groups parents emb meta.groupsTag
               (fieldIsEmbedded meta fval) && b1 && b2) = true then
           storeField dest (fieldJsonTag meta) rv (fieldIsEmbedded meta fval)
         else dest) := by
  simp only [marshalFields]
  rw [if_neg hjt,
     if_neg (show ¬((meta.jsonOpts.contains "omitempty" && isEmptyValue fval)
       = true) by rw [hoe]; exact Bool.false_ne_true),
     if_neg (by simp [hval, hci])]
  simp only [hs, hu]
  rw [hrec]

/-- C2: a field that reaches the recursion step (not skipped by the `-`
sentinel, the omit-empty check, or the unexported check) has the value walker
invoked on its value no matter what the group/since/until visibility booleans
came out as — visibility only gates whether the result lands in `dest` — and
an error from that recursion aborts the whole call even for a hidden field. -/
theorem claim2_recursion_regardless :
    (∀ (o : Options) (meta : FieldMeta) (fval : Value) (rest : Fields)
       (groups parents : groupSet) (emb : Bool) (dest : Entries)
       (b1 b2 : Bool) (p2 : groupSet) (e : Err),
       fieldJsonTag meta ≠ "-" →
       (meta.jsonOpts.contains "omitempty" && isEmptyValue fval) = false →
       fval.isValid = true → meta.canInterface = true →
       sinceCheck o.ApiVersion meta.sinceTag = .pass b1 →
       untilCheck o.ApiVersion meta.untilTag = .pass b2 →
       marshalValue o (deref1 fval) groups
         (if o.InheritGroups || fieldIsEmbedded meta fval
          then parents.incrementGroups (fieldGroupNames o parents meta.groupsTag)
          else parents)
         (fieldIsEmbedded meta fval) = (p2, .err e) →
       marshalFields o (.cons meta fval rest) groups parents emb dest =
         ((if o.InheritGroups || fieldIsEmbedded meta fval
           then p2.decrementGroups (fieldGroupNames o parents meta.groupsTag)
           else p2), .err e)) ∧
    (∀ (o : Options) (meta : FieldMeta) (fval : Value) (rest : Fields)
       (groups parents : groupSet) (emb : Bool) (dest : Entries)
       (b1 b2 : Bool) (p2 : groupSet) (rv : Value),
       fieldJsonTag meta ≠ "-" →
       (meta.jsonOpts.contains "omitempty" && isEmptyValue fval) = false →
       fval.isValid = true → meta.canInterface = true →
       sinceCheck o.ApiVersion meta.sinceTag = .pass b1 →
       untilCheck o.ApiVersion meta.untilTag = .pass b2 →
       marshalValue o (deref1 fval) groups
         (if o.InheritGroups || fieldIsEmbedded meta fval
          then parents.incrementGroups (fieldGroupNames o parents meta.groupsTag)
          else parents)
         (fieldIsEmbedded meta fval) = (p2, .ok rv) →
       marshalFields o (.cons meta fval rest) groups parents emb dest =
         marshalFields o rest groups
           (if o.InheritGroups || fieldIsEmbedded meta fval
            then p2.decrementGroups (fieldGroupNames o parents meta.groupsTag)
            else p2) emb
           (if (groupVisibility o groups parents emb meta.groupsTag
                  (fieldIsEmbedded meta fval) && b1 && b2) = true then
              storeField dest (fieldJsonTag meta) rv (fieldIsEmbedded meta fval)
            else dest)) :=
  ⟨marshalFields_step_err, marshalFields_step_ok⟩

/-- Witness for C2: a group-hidden field whose custom marshaller errors still
aborts the whole walk with that error. -/
theorem claim2_witness :
    marshalFields oAdmin
      (.cons metaSecret (.vMarshaller true "boom" .vNil) .nil)
      (groupSet.incrementGroups [] ["admin"]) [] false .nil =
      ([], .err (.marshallerErr "boom")) := by
  have h := claim2_recursion_regardless.1 oAdmin metaSecret
    (.vMarshaller true "boom" .vNil) .nil
    (groupSet.incrementGroups [] ["admin"]) [] false .nil
    true true [] (.marshallerErr "boom")
    (by decide) (by decide) (by decide) (by decide) (by decide) (by decide)
    (by simp [marshalValue, deref1, oAdmin, metaSecret, fieldIsEmbedded,
              Value.isStructKind])
  simpa [oAdmin, metaSecret, fieldIsEmbedded, deref1, Value.isStructKind,
         fieldGroupNames, groupSet.decrementGroups] using h

/-! ### Induction principles for the list-like mutual inductives -/

theorem entriesInd {motive : Entries → Prop} (hnil : motive .nil)
    (hcons : ∀ k v t, motive t → motive (.cons k v t)) : ∀ es, motive es
  | .nil => hnil
  | .cons k v t => hcons k v t (entriesInd hnil hcons t)

theorem fieldsInd {motive : Fields → Prop} (hnil : motive .nil)
    (hcons : ∀ m v t, motive t → motive (.cons m v t)) : ∀ fs, motive fs
  | .nil => hnil
  | .cons m v t => hcons m v t (fieldsInd hnil hcons t)

theorem valuesInd {motive : Values → Prop} (hnil : motive .nil)
    (hcons : ∀ v t, motive t → motive (.cons v t)) : ∀ vs, motive vs
  | .nil => hnil
  | .cons v t => hcons v t (valuesInd hnil hcons t)

/-! ### Output-map entry lemmas -/

theorem entLookup_entInsert_self (d : Entries) (k : String) (v : Value) :
    entLookup (entInsert d k v) k = some v := by
  induction d using entriesInd with
  | hnil => simp [entInsert, entLookup]
  | hcons k0 v0 r ih =>
    by_cases hk : k0 = k
    · simp [entInsert, entLookup, hk]
    · simp [entInsert, entLookup, hk, ih]

theorem entLookup_entInsert_other (d : Entries) {k k' : String} (v : Value)
    (h : k' ≠ k) : entLookup (entInsert d k v) k' = entLookup d k' := by
  induction d using entriesInd with
  | hnil => simp [entInsert, entLookup, Ne.symm h]
  | hcons k0 v0 r ih =>
    by_cases hk : k0 = k
    · subst hk
      simp [entInsert, entLookup, Ne.symm h]
    · simp [entInsert, entLookup, hk, ih]

theorem entLookup_eq_none (es : Entries) (k : String)
    (h : entHasKey es k = false) : entLookup es k = none := by
  induction es using entriesInd with
  | hnil => simp [entLookup]
  | hcons k0 v0 r ih =>
    simp [entHasKey] at h
    simp [entLookup, h.1, ih h.2]

/-- Merging overwrites: a key found in the merged-in map wins, every other key
keeps the value it had. -/
theorem entLookup_entMerge (dest nested : Entries) (k : String)
    (hnd : entKeysNodup nested = true) :
    entLookup (entMerge dest nested) k =
      (match entLookup nested k with
       | some v => some v
       | none => entLookup dest k) := by
  induction nested using entriesInd generalizing dest with
  | hnil => simp [entMerge, entLookup]
  | hcons k0 v0 r ih =>
    simp [entKeysNodup] at hnd
    show entLookup (entMerge (entInsert dest k0 v0) r) k = _
    rw [ih _ hnd.2]
    by_cases hk : k0 = k
    · subst hk
      rw [entLookup_eq_none r k0 (by simpa using hnd.1)]
      simp [entLookup, entLookup_entInsert_self]
    · simp only [entLookup, if_neg hk]
      cases hlr : entLookup r k
      · simp [entLookup_entInsert_other dest v0 (fun h => hk h.symm)]
      · simp

/-- An embedded field passes the group check unconditionally. -/
theorem groupVisibility_embedded (o : Options) (groups parents : groupSet)
    (emb : Bool) (tag : String) :
    groupVisibility o groups parents emb tag true = true := by
  simp [groupVisibility]

/-- A non-embedded field's kept value is always stored under its key. -/
theorem storeField_not_embedded (dest : Entries) (k : String) (rv : Value) :
    storeField dest k rv false = entInsert dest k rv := by
  cases rv <;> rfl

/-- C4: an embedded/anonymous record field (after one pointer dereference) is
always group-visible; when all three checks pass and its recursed value is a
`map[string]interface{}` the entries are merged into the parent mapping with
no wrapper key, overwriting the parent's entries on key collision; otherwise
the value is stored under the derived output key. -/
theorem claim4_embedded_flattening :
    (∀ (o : Options) (groups parents : groupSet) (emb : Bool) (tag : String),
       groupVisibility o groups parents emb tag true = true) ∧
    (∀ (dest : Entries) (k : String) (nested : Entries),
       storeField dest k (.vOutMap nested) true = entMerge dest nested) ∧
    (∀ (dest : Entries) (k : String) (rv : Value),
       storeField dest k rv false = entInsert dest k rv) ∧
    (∀ (dest : Entries) (k : String) (rv : Value),
       (∀ es, rv ≠ .vOutMap es) →
       storeField dest k rv true = entInsert dest k rv) ∧
    (∀ (dest nested : Entries) (k : String),
       entKeysNodup nested = true →
       entLookup (entMerge dest nested) k =
         (match entLookup nested k with
          | some v => some v
          | none => entLookup dest k)) ∧
    (∀ (o : Options) (meta : FieldMeta) (fval : Value) (rest : Fields)
       (groups parents : groupSet) (emb : Bool) (dest : Entries)
       (p2 : groupSet) (rv : Value),
       fieldJsonTag meta ≠ "-" →
       (meta.jsonOpts.contains "omitempty" && isEmptyValue fval) = false →
       fval.isValid = true → meta.canInterface = true →
       fieldIsEmbedded meta fval = true →
       sinceCheck o.ApiVersion meta.sinceTag = .pass true →
       untilCheck o.ApiVersion meta.untilTag = .pass true →
       marshalValue o (deref1 fval) groups
         (if o.InheritGroups || fieldIsEmbedded meta fval
          then parents.incrementGroups (fieldGroupNames o parents meta.groupsTag)
          else parents)
         (fieldIsEmbedded meta fval) = (p2, .ok rv) →
       marshalFields o (.cons meta fval rest) groups parents emb dest =
         marshalFields o rest groups
           (if o.InheritGroups || fieldIsEmbedded meta fval
            then p2.decrementGroups (fieldGroupNames o parents meta.groupsTag)
            else p2) emb
           (storeField dest (fieldJsonTag meta) rv true)) := by
  refine ⟨groupVisibility_embedded, fun _ _ _ => rfl, storeField_not_embedded,
    ?_, entLookup_entMerge, ?_⟩
  · intro dest k rv hne
    cases rv <;> first
      | rfl
      | (exact absurd rfl (hne _))
  · intro o meta fval rest groups parents emb dest p2 rv
      hjt hoe hval hci hemb hs hu hrec
    have h := marshalFields_step_ok o meta fval rest groups parents emb dest
      true true p2 rv hjt hoe hval hci hs hu hrec
    rw [h, hemb]
    simp [groupVisibility_embedded]

/-- Witness for C4: an embedded struct field flattens its field X into the
parent mapping with no wrapper key. -/
theorem claim4_witness :
    marshalFields oEmpty (.cons metaInner innerX .nil) [] [] false .nil =
      ([], .ok (.vOutMap (.cons "X" (.vScalar (.i 1)) .nil))) := by
  have hrec : marshalValue oEmpty (deref1 innerX) []
      (if oEmpty.InheritGroups || fieldIsEmbedded metaInner innerX
       then groupSet.incrementGroups []
         (fieldGroupNames oEmpty [] metaInner.groupsTag)
       else [])
      (fieldIsEmbedded metaInner innerX) =
      ([], .ok (.vOutMap (.cons "X" (.vScalar (.i 1)) .nil))) := by
    simp [marshalValue, marshalValueDeref, marshalObject, marshalFields,
          structFieldsOf, deref1, innerX, metaInner, metaX, oEmpty,
          fieldIsEmbedded, Value.isStructKind, fieldJsonTag, fieldGroupNames,
          checkGroupsFlag, groupSet.size, isEmptyValue, Value.isValid,
          sinceCheck, untilCheck, groupVisibility, storeField, entInsert,
          entMerge, groupSet.incrementGroups, groupSet.decrementGroups]
  have h := claim4_embedded_flattening.2.2.2.2.2 oEmpty metaInner innerX .nil
    [] [] false .nil [] (.vOutMap (.cons "X" (.vScalar (.i 1)) .nil))
    (by decide) (by decide) (by decide) (by decide) (by decide)
    (by decide) (by decide) hrec
  rw [h]
  simp [marshalFields, storeField, entMerge, entInsert, oEmpty, metaInner,
        fieldIsEmbedded, innerX, Value.isStructKind, deref1, fieldGroupNames,
        checkGroupsFlag, groupSet.size, groupSet.decrementGroups,
        fieldJsonTag]



/-- C9 counterexample: with a null ApiVersion and a field carrying the
non-empty (but malformed) since tag "x", the call *does* have a defined
result — the version-parse error is returned before the nil pointer is ever
dereferenced — contradicting the claim that any non-empty since/until tag
under a null ApiVersion leaves the call with no defined result. -/
theorem claim9_counterexample :
    Marshal oEmpty (.vStruct (.cons metaSinceX (.vScalar (.i 1)) .nil)) =
      .err (.versionParse "x") := by
  simp [Marshal, marshalObject, marshalFields, structFieldsOf, deref1,
        metaSinceX, oEmpty, fieldJsonTag, isEmptyValue, Value.isValid,
        sinceCheck, parseVersion, splitOnChar]

/-- C9 (amended): the target version must be non-null whenever a field with a
since or until tag *that parses as a version* is actually processed: under a
non-null ApiVersion the comparison checks never panic, while with ApiVersion
null a processed field with a parsing since (or until) tag makes the call
panic — no node and no proper error. -/
theorem claim9_amended :
    (∀ (V : Version) (tag : String),
       sinceCheck (some V) tag ≠ .vpanic ∧ untilCheck (some V) tag ≠ .vpanic) ∧
    (∀ (o : Options) (meta : FieldMeta) (fval : Value) (rest : Fields)
       (groups parents : groupSet) (emb : Bool) (dest : Entries) (S : Version),
       fieldJsonTag meta ≠ "-" →
       (meta.jsonOpts.contains "omitempty" && isEmptyValue fval) = false →
       fval.isValid = true → meta.canInterface = true →
       o.ApiVersion = none → parseVersion meta.sinceTag = some S →
       marshalFields o (.cons meta fval rest) groups parents emb dest =
         (parents, .panic)) ∧
    (∀ (o : Options) (meta : FieldMeta) (fval : Value) (rest : Fields)
       (groups parents : groupSet) (emb : Bool) (dest : Entries) (U : Version),
       fieldJsonTag meta ≠ "-" →
       (meta.jsonOpts.contains "omitempty" && isEmptyValue fval) = false →
       fval.isValid = true → meta.canInterface = true →
       o.ApiVersion = none → meta.sinceTag = "" →
       parseVersion meta.untilTag = some U →
       marshalFields o (.cons meta fval rest) groups parents emb dest =
         (parents, .panic)) ∧
    (∀ (o : Options) (meta : FieldMeta) (fval : Value) (rest : Fields)
       (S : Version),
       fieldJsonTag meta ≠ "-" →
       (meta.jsonOpts.contains "omitempty" && isEmptyValue fval) = false →
       fval.isValid = true → meta.canInterface = true →
       o.ApiVersion = none → parseVersion meta.sinceTag = some S →
       Marshal o (.vStruct (.cons meta fval rest)) = .panic) := by
  have hempty : ∀ S : Version, parseVersion "" ≠ some S := by
    intro S
    simp [parseVersion, splitOnChar]
  have step : ∀ (o : Options) (meta : FieldMeta) (fval : Value) (rest : Fields)
       (groups parents : groupSet) (emb : Bool) (dest : Entries) (S : Version),
       fieldJsonTag meta ≠ "-" →
       (meta.jsonOpts.contains "omitempty" && isEmptyValue fval) = false →
       fval.isValid = true → meta.canInterface = true →
       o.ApiVersion = none → parseVersion meta.sinceTag = some S →
       marshalFields o (.cons meta fval rest) groups parents emb dest =
         (parents, .panic) := by
    intro o meta fval rest groups parents emb dest S hjt hoe hval hci hapi hparse
    have htag : meta.sinceTag ≠ "" := by
      intro h
      exact hempty S (h ▸ hparse)
    simp only [marshalFields]
    rw [if_neg hjt,
       if_neg (show ¬((meta.jsonOpts.contains "omitempty" && isEmptyValue fval)
         = true) by rw [hoe]; exact Bool.false_ne_true),
       if_neg (by simp [hval, hci])]
    simp [sinceCheck, htag, hparse, hapi]
  refine ⟨?_, step, ?_, ?_⟩
  · intro V tag
    constructor <;>
      (simp only [sinceCheck, untilCheck]
       by_cases htag : tag = ""
       · simp [htag]
       · simp only [htag, if_neg htag]
         cases parseVersion tag <;> simp)
  · intro o meta fval rest groups parents emb dest U hjt hoe hval hci hapi hst hparse
    have htag : meta.untilTag ≠ "" := by
      intro h
      exact hempty U (h ▸ hparse)
    simp only [marshalFields]
    rw [if_neg hjt,
       if_neg (show ¬((meta.jsonOpts.contains "omitempty" && isEmptyValue fval)
         = true) by rw [hoe]; exact Bool.false_ne_true),
       if_neg (by simp [hval, hci])]
    simp [sinceCheck, untilCheck, hst, htag, hparse, hapi]
  · intro o meta fval rest S hjt hoe hval hci hapi hparse
    have h := step o meta fval rest (groupSet.incrementGroups [] o.Groups) []
      false .nil S hjt hoe hval hci hapi hparse
    simp [Marshal, marshalObject, structFieldsOf, deref1, h]

/-- Witness for the amended C9: null ApiVersion plus the parseable tag
`since:"1.0.0"` on a processed field panics. -/
theorem claim9_witness :
    Marshal oEmpty (.vStruct (.cons metaSinceV (.vScalar (.i 1)) .nil)) =
      .panic :=
  claim9_amended.2.2.2 oEmpty metaSinceV (.vScalar (.i 1)) .nil [1, 0, 0]
    (by decide) (by decide) (by decide) (by decide) (by decide) (by decide)



theorem eqnO_nil (o : Options) (groups parents : groupSet) (emb : Bool) :
    marshalObject o .vNil groups parents emb = (parents, .panic) := by
  simp [marshalObject]

theorem eqnO_struct (o : Options) {data : Value} (groups parents : groupSet)
    (emb : Bool) {fs : Fields} (hnn : data ≠ .vNil)
    (hsf : structFieldsOf (deref1 data) = some fs) :
    marshalObject o data groups parents emb =
      marshalFields o fs groups parents emb .nil := by
  simp only [marshalObject, if_neg hnn]
  split
  · next fs2 hfs2 =>
      rw [hsf] at hfs2
      cases hfs2
      rfl
  · next hfs2 =>
      rw [hsf] at hfs2
      cases hfs2

theorem eqnO_nonstruct (o : Options) {data : Value} (groups parents : groupSet)
    (emb : Bool) (hnn : data ≠ .vNil)
    (hsf : structFieldsOf (deref1 data) = none) :
    marshalObject o data groups parents emb =
      marshalValue o (deref1 data) groups parents false := by
  simp only [marshalObject, if_neg hnn]
  split
  · next fs2 hfs2 =>
      rw [hsf] at hfs2
      cases hfs2
  · next hfs2 => rfl

theorem eqnV_nil (o : Options) (groups parents : groupSet) (emb : Bool) :
    marshalValue o .vNil groups parents emb = (parents, .ok .vNil) := by
  simp [marshalValue]

theorem eqnV_marshaller (o : Options) (groups parents : groupSet) (emb : Bool)
    (isErr : Bool) (msg : String) (res : Value) :
    marshalValue o (.vMarshaller isErr msg res) groups parents emb =
      (parents, if isErr then .err (.marshallerErr msg) else .ok res) := by
  simp [marshalValue]

theorem eqnV_selfDesc (o : Options) (groups parents : groupSet) (emb : Bool)
    (s : String) :
    marshalValue o (.vSelfDescribing s) groups parents emb =
      (parents, .ok (.vSelfDescribing s)) := by
  simp [marshalValue]

theorem eqnV_ptrNil (o : Options) (groups parents : groupSet) (emb : Bool) :
    marshalValue o (.vPtr .vNil) groups parents emb = (parents, .panic) := by
  simp [marshalValue]

theorem eqnV_ptr (o : Options) {inner : Value} (groups parents : groupSet)
    (emb : Bool) (h : inner ≠ .vNil) :
    marshalValue o (.vPtr inner) groups parents emb =
      marshalValueDeref o inner groups parents emb := by
  simp only [marshalValue]
  rw [if_neg h]

theorem eqnV_scalar (o : Options) (groups parents : groupSet) (emb : Bool)
    (s : Scal) :
    marshalValue o (.vScalar s) groups parents emb =
      marshalValueDeref o (.vScalar s) groups parents emb := by
  simp only [marshalValue]

theorem eqnV_struct (o : Options) (groups parents : groupSet) (emb : Bool)
    (fs : Fields) :
    marshalValue o (.vStruct fs) groups parents emb =
      marshalValueDeref o (.vStruct fs) groups parents emb := by
  simp only [marshalValue]

theorem eqnV_slice (o : Options) (groups parents : groupSet) (emb : Bool)
    (es : Values) :
    marshalValue o (.vSlice es) groups parents emb =
      marshalValueDeref o (.vSlice es) groups parents emb := by
  simp only [marshalValue]

theorem eqnV_map (o : Options) (groups parents : groupSet) (emb : Bool)
    (kk : Kind) (es : Entries) :
    marshalValue o (.vMap kk es) groups parents emb =
      marshalValueDeref o (.vMap kk es) groups parents emb := by
  simp only [marshalValue]

theorem eqnV_outMap (o : Options) (groups parents : groupSet) (emb : Bool)
    (es : Entries) :
    marshalValue o (.vOutMap es) groups parents emb =
      marshalValueDeref o (.vOutMap es) groups parents emb := by
  simp only [marshalValue]

theorem eqnD_struct (o : Options) (groups parents : groupSet) (emb : Bool)
    (fs : Fields) :
    marshalValueDeref o (.vStruct fs) groups parents emb =
      marshalObject o (.vStruct fs) groups parents emb := by
  simp only [marshalValueDeref]

theorem eqnD_slice (o : Options) (groups parents : groupSet) (emb : Bool)
    (es : Values) :
    marshalValueDeref o (.vSlice es) groups parents emb =
      marshalSlice o es groups parents emb := by
  simp only [marshalValueDeref]

theorem eqnD_mapNil (o : Options) (groups parents : groupSet) (emb : Bool)
    (kk : Kind) :
    marshalValueDeref o (.vMap kk .nil) groups parents emb =
      (parents, .ok .vNil) := by
  simp [marshalValueDeref]

theorem eqnD_mapBadKey (o : Options) (groups parents : groupSet) (emb : Bool)
    {kk : Kind} (k0 : String) (v0 : Value) (r0 : Entries)
    (h : kk ≠ .kString) :
    marshalValueDeref o (.vMap kk (.cons k0 v0 r0)) groups parents emb =
      (parents, .err (.marshalInvalidType kk (.vMap kk (.cons k0 v0 r0)))) := by
  simp [marshalValueDeref, h]

theorem eqnD_mapGood (o : Options) (groups parents : groupSet) (emb : Bool)
    (k0 : String) (v0 : Value) (r0 : Entries) :
    marshalValueDeref o (.vMap .kString (.cons k0 v0 r0)) groups parents emb =
      marshalMap o (.cons k0 v0 r0) groups parents emb .nil := by
  simp [marshalValueDeref]

theorem eqnD_outMapNil (o : Options) (groups parents : groupSet) (emb : Bool) :
    marshalValueDeref o (.vOutMap .nil) groups parents emb =
      (parents, .ok .vNil) := by
  simp [marshalValueDeref]

theorem eqnD_outMapCons (o : Options) (groups parents : groupSet) (emb : Bool)
    (k0 : String) (v0 : Value) (r0 : Entries) :
    marshalValueDeref o (.vOutMap (.cons k0 v0 r0)) groups parents emb =
      marshalMap o (.cons k0 v0 r0) groups parents emb .nil := by
  simp [marshalValueDeref]

theorem eqnD_other (o : Options) {v : Value} (groups parents : groupSet)
    (emb : Bool)
    (h1 : ∀ fs, v ≠ .vStruct fs) (h2 : ∀ es, v ≠ .vSlice es)
    (h3 : ∀ kk es, v ≠ .vMap kk es) (h4 : ∀ es, v ≠ .vOutMap es) :
    marshalValueDeref o v groups parents emb = (parents, .ok v) := by
  cases v with
  | vStruct fs => exact absurd rfl (h1 fs)
  | vSlice es => exact absurd rfl (h2 es)
  | vMap kk es => exact absurd rfl (h3 kk es)
  | vOutMap es => exact absurd rfl (h4 es)
  | _ => simp [marshalValueDeref]

theorem eqnM_nil (o : Options) (groups parents : groupSet) (emb : Bool)
    (dest : Entries) :
    marshalMap o .nil groups parents emb dest =
      (parents, .ok (.vOutMap dest)) := by
  simp [marshalMap]

theorem eqnM_err (o : Options) (groups parents : groupSet) (emb : Bool)
    (dest : Entries) {k : String} {v : Value} {rest : Entries}
    {p2 : groupSet} {e : Err}
    (h : marshalValue o v groups parents emb = (p2, .err e)) :
    marshalMap o (.cons k v rest) groups parents emb dest = (p2, .err e) := by
  simp only [marshalMap]
  rw [h]

theorem eqnM_panic (o : Options) (groups parents : groupSet) (emb : Bool)
    (dest : Entries) {k : String} {v : Value} {rest : Entries} {p2 : groupSet}
    (h : marshalValue o v groups parents emb = (p2, .panic)) :
    marshalMap o (.cons k v rest) groups parents emb dest = (p2, .panic) := by
  simp only [marshalMap]
  rw [h]

theorem eqnM_ok (o : Options) (groups parents : groupSet) (emb : Bool)
    (dest : Entries) {k : String} {v : Value} {rest : Entries} {p2 : groupSet}
    {d : Value}
    (h : marshalValue o v groups parents emb = (p2, .ok d)) :
    marshalMap o (.cons k v rest) groups parents emb dest =
      marshalMap o rest groups p2 emb (entInsert dest k d) := by
  simp only [marshalMap]
  rw [h]

theorem eqnS_nil (o : Options) (groups parents : groupSet) (emb : Bool) :
    marshalSlice o .nil groups parents emb =
      (parents, .ok (.vSlice .nil)) := by
  simp [marshalSlice]

theorem eqnS_err (o : Options) (groups parents : groupSet) (emb : Bool)
    {v : Value} {rest : Values} {p2 : groupSet} {e : Err}
    (h : marshalValue o v groups parents emb = (p2, .err e)) :
    marshalSlice o (.cons v rest) groups parents emb = (p2, .err e) := by
  simp only [marshalSlice]
  rw [h]

theorem eqnS_panic (o : Options) (groups parents : groupSet) (emb : Bool)
    {v : Value} {rest : Values} {p2 : groupSet}
    (h : marshalValue o v groups parents emb = (p2, .panic)) :
    marshalSlice o (.cons v rest) groups parents emb = (p2, .panic) := by
  simp only [marshalSlice]
  rw [h]

theorem eqnS_restErr (o : Options) (groups parents : groupSet) (emb : Bool)
    {v : Value} {rest : Values} {p2 p3 : groupSet} {d : Value} {e : Err}
    (h : marshalValue o v groups parents emb = (p2, .ok d))
    (h2 : marshalSlice o rest groups p2 emb = (p3, .err e)) :
    marshalSlice o (.cons v rest) groups parents emb = (p3, .err e) := by
  have base : marshalSlice o (.cons v rest) groups parents emb =
      (match marshalSlice o rest groups p2 emb with
       | (p3, .err e) => (p3, .err e)
       | (p3, .panic) => (p3, .panic)
       | (p3, .ok ds) => (p3, .ok (slicePrepend d ds))) := by
    simp only [marshalSlice, h]
  rw [base, h2]

theorem eqnS_restPanic (o : Options) (groups parents : groupSet) (emb : Bool)
    {v : Value} {rest : Values} {p2 p3 : groupSet} {d : Value}
    (h : marshalValue o v groups parents emb = (p2, .ok d))
    (h2 : marshalSlice o rest groups p2 emb = (p3, .panic)) :
    marshalSlice o (.cons v rest) groups parents emb = (p3, .panic) := by
  have base : marshalSlice o (.cons v rest) groups parents emb =
      (match marshalSlice o rest groups p2 emb with
       | (p3, .err e) => (p3, .err e)
       | (p3, .panic) => (p3, .panic)
       | (p3, .ok ds) => (p3, .ok (slicePrepend d ds))) := by
    simp only [marshalSlice, h]
  rw [base, h2]

theorem eqnS_restOk (o : Options) (groups parents : groupSet) (emb : Bool)
    {v : Value} {rest : Values} {p2 p3 : groupSet} {d ds : Value}
    (h : marshalValue o v groups parents emb = (p2, .ok d))
    (h2 : marshalSlice o rest groups p2 emb = (p3, .ok ds)) :
    marshalSlice o (.cons v rest) groups parents emb =
      (p3, .ok (slicePrepend d ds)) := by
  have base : marshalSlice o (.cons v rest) groups parents emb =
      (match marshalSlice o rest groups p2 emb with
       | (p3, .err e) => (p3, .err e)
       | (p3, .panic) => (p3, .panic)
       | (p3, .ok ds) => (p3, .ok (slicePrepend d ds))) := by
    simp only [marshalSlice, h]
  rw [base, h2]



theorem eqnF_nil (o : Options) (groups parents : groupSet) (emb : Bool)
    (dest : Entries) :
    marshalFields o .nil groups parents emb dest =
      (parents, .ok (.vOutMap dest)) := by
  simp [marshalFields]

theorem eqnF_dash (o : Options) {meta : FieldMeta} (fval : Value)
    (rest : Fields) (groups parents : groupSet) (emb : Bool) (dest : Entries)
    (h : fieldJsonTag meta = "-") :
    marshalFields o (.cons meta fval rest) groups parents emb dest =
      marshalFields o rest groups parents emb dest := by
  simp only [marshalFields]
  rw [if_pos h]

theorem eqnF_omitempty (o : Options) {meta : FieldMeta} {fval : Value}
    (rest : Fields) (groups parents : groupSet) (emb : Bool) (dest : Entries)
    (h1 : fieldJsonTag meta ≠ "-")
    (h2 : (meta.jsonOpts.contains "omitempty" && isEmptyValue fval) = true) :
    marshalFields o (.cons meta fval rest) groups parents emb dest =
      marshalFields o rest groups parents emb dest := by
  simp only [marshalFields]
  rw [if_neg h1, if_pos h2]

theorem eqnF_unexported (o : Options) {meta : FieldMeta} {fval : Value}
    (rest : Fields) (groups parents : groupSet) (emb : Bool) (dest : Entries)
    (h1 : fieldJsonTag meta ≠ "-")
    (h2 : (meta.jsonOpts.contains "omitempty" && isEmptyValue fval) = false)
    (h3 : (!fval.isValid || !meta.canInterface) = true) :
    marshalFields o (.cons meta fval rest) groups parents emb dest =
      marshalFields o rest groups parents emb dest := by
  simp only [marshalFields]
  rw [if_neg h1,
     if_neg (show ¬((meta.jsonOpts.contains "omitempty" && isEmptyValue fval)
       = true) by rw [h2]; exact Bool.false_ne_true),
     if_pos h3]

theorem eqnF_sinceErr (o : Options) {meta : FieldMeta} {fval : Value}
    (rest : Fields) (groups parents : groupSet) (emb : Bool) (dest : Entries)
    {e : Err}
    (h1 : fieldJsonTag meta ≠ "-")
    (h2 : (meta.jsonOpts.contains "omitempty" && isEmptyValue fval) = false)
    (h3 : (!fval.isValid || !meta.canInterface) = false)
    (hs : sinceCheck o.ApiVersion meta.sinceTag = .verr e) :
    marshalFields o (.cons meta fval rest) groups parents emb dest =
      (parents, .err e) := by
  simp only [marshalFields]
  rw [if_neg h1,
     if_neg (show ¬((meta.jsonOpts.contains "omitempty" && isEmptyValue fval)
       = true) by rw [h2]; exact Bool.false_ne_true),
     if_neg (show ¬((!fval.isValid || !meta.canInterface) = true) by
       rw [h3]; exact Bool.false_ne_true)]
  simp only [hs]

theorem eqnF_sincePanic (o : Options) {meta : FieldMeta} {fval : Value}
    (rest : Fields) (groups parents : groupSet) (emb : Bool) (dest : Entries)
    (h1 : fieldJsonTag meta ≠ "-")
    (h2 : (meta.jsonOpts.contains "omitempty" && isEmptyValue fval) = false)
    (h3 : (!fval.isValid || !meta.canInterface) = false)
    (hs : sinceCheck o.ApiVersion meta.sinceTag = .vpanic) :
    marshalFields o (.cons meta fval rest) groups parents emb dest =
      (parents, .panic) := by
  simp only [marshalFields]
  rw [if_neg h1,
     if_neg (show ¬((meta.jsonOpts.contains "omitempty" && isEmptyValue fval)
       = true) by rw [h2]; exact Bool.false_ne_true),
     if_neg (show ¬((!fval.isValid || !meta.canInterface) = true) by
       rw [h3]; exact Bool.false_ne_true)]
  simp only [hs]

theorem eqnF_untilErr (o : Options) {meta : FieldMeta} {fval : Value}
    (rest : Fields) (groups parents : groupSet) (emb : Bool) (dest : Entries)
    {b1 : Bool} {e : Err}
    (h1 : fieldJsonTag meta ≠ "-")
    (h2 : (meta.jsonOpts.contains "omitempty" && isEmptyValue fval) = false)
    (h3 : (!fval.isValid || !meta.canInterface) = false)
    (hs : sinceCheck o.ApiVersion meta.sinceTag = .pass b1)
    (hu : untilCheck o.ApiVersion meta.untilTag = .verr e) :
    marshalFields o (.cons meta fval rest) groups parents emb dest =
      (parents, .err e) := by
  simp only [marshalFields]
  rw [if_neg h1,
     if_neg (show ¬((meta.jsonOpts.contains "omitempty" && isEmptyValue fval)
       = true) by rw [h2]; exact Bool.false_ne_true),
     if_neg (show ¬((!fval.isValid || !meta.canInterface) = true) by
       rw [h3]; exact Bool.false_ne_true)]
  simp only [hs, hu]

theorem eqnF_untilPanic (o : Options) {meta : FieldMeta} {fval : Value}
    (rest : Fields) (groups parents : groupSet) (emb : Bool) (dest : Entries)
    {b1 : Bool}
    (h1 : fieldJsonTag meta ≠ "-")
    (h2 : (meta.jsonOpts.contains "omitempty" && isEmptyValue fval) = false)
    (h3 : (!fval.isValid || !meta.canInterface) = false)
    (hs : sinceCheck o.ApiVersion meta.sinceTag = .pass b1)
    (hu : untilCheck o.ApiVersion meta.untilTag = .vpanic) :
    marshalFields o (.cons meta fval rest) groups parents emb dest =
      (parents, .panic) := by
  simp only [marshalFields]
  rw [if_neg h1,
     if_neg (show ¬((meta.jsonOpts.contains "omitempty" && isEmptyValue fval)
       = true) by rw [h2]; exact Bool.false_ne_true),
     if_neg (show ¬((!fval.isValid || !meta.canInterface) = true) by
       rw [h3]; exact Bool.false_ne_true)]
  simp only [hs, hu]

theorem eqnF_valPanic (o : Options) {meta : FieldMeta} {fval : Value}
    (rest : Fields) (groups parents : groupSet) (emb : Bool) (dest : Entries)
    {b1 b2 : Bool} {p2 : groupSet}
    (h1 : fieldJsonTag meta ≠ "-")
    (h2 : (meta.jsonOpts.contains "omitempty" && isEmptyValue fval) = false)
    (h3 : (!fval.isValid || !meta.canInterface) = false)
    (hs : sinceCheck o.ApiVersion meta.sinceTag = .pass b1)
    (hu : untilCheck o.ApiVersion meta.untilTag = .pass b2)
    (hrec : marshalValue o (deref1 fval) groups
        (if o.InheritGroups || fieldIsEmbedded meta fval
         then parents.incrementGroups (fieldGroupNames o parents meta.groupsTag)
         else parents)
        (fieldIsEmbedded meta fval) = (p2, .panic)) :
    marshalFields o (.cons meta fval rest) groups parents emb dest =
      (p2, .panic) := by
  simp only [marshalFields]
  rw [if_neg h1,
     if_neg (show ¬((meta.jsonOpts.contains "omitempty" && isEmptyValue fval)
       = true) by rw [h2]; exact Bool.false_ne_true),
     if_neg (show ¬((!fval.isValid || !meta.canInterface) = true) by
       rw [h3]; exact Bool.false_ne_true)]
  simp only [hs, hu]
  rw [hrec]



theorem bool_eq_false {b : Bool} (h : ¬b = true) : b = false := by
  cases b with
  | false => rfl
  | true => exact absurd rfl h

theorem balance_all (o : Options) :
    (∀ (data : Value) (groups parents : groupSet) (emb : Bool),
       ∀ p' r, marshalObject o data groups parents emb = (p', r) →
         r ≠ .panic → ∀ x, p'.get x = parents.get x) ∧
    (∀ (v : Value) (groups parents : groupSet) (emb : Bool),
       ∀ p' r, marshalValue o v groups parents emb = (p', r) →
         r ≠ .panic → ∀ x, p'.get x = parents.get x) ∧
    (∀ (v : Value) (groups parents : groupSet) (emb : Bool),
       ∀ p' r, marshalValueDeref o v groups parents emb = (p', r) →
         r ≠ .panic → ∀ x, p'.get x = parents.get x) ∧
    (∀ (es : Entries) (groups parents : groupSet) (emb : Bool) (dest : Entries),
       ∀ p' r, marshalMap o es groups parents emb dest = (p', r) →
         r ≠ .panic → ∀ x, p'.get x = parents.get x) ∧
    (∀ (es : Values) (groups parents : groupSet) (emb : Bool),
       ∀ p' r, marshalSlice o es groups parents emb = (p', r) →
         r ≠ .panic → ∀ x, p'.get x = parents.get x) ∧
    (∀ (fs : Fields) (groups parents : groupSet) (emb : Bool) (dest : Entries),
       ∀ p' r, marshalFields o fs groups parents emb dest = (p', r) →
         r ≠ .panic → ∀ x, p'.get x = parents.get x) := by
  apply marshalObject.mutual_induct o
    (fun data groups parents emb => ∀ p' r,
      marshalObject o data groups parents emb = (p', r) →
        r ≠ .panic → ∀ x, p'.get x = parents.get x)
    (fun v groups parents emb => ∀ p' r,
      marshalValue o v groups parents emb = (p', r) →
        r ≠ .panic → ∀ x, p'.get x = parents.get x)
    (fun v groups parents emb => ∀ p' r,
      marshalValueDeref o v groups parents emb = (p', r) →
        r ≠ .panic → ∀ x, p'.get x = parents.get x)
    (fun es groups parents emb dest => ∀ p' r,
      marshalMap o es groups parents emb dest = (p', r) →
        r ≠ .panic → ∀ x, p'.get x = parents.get x)
    (fun es groups parents emb => ∀ p' r,
      marshalSlice o es groups parents emb = (p', r) →
        r ≠ .panic → ∀ x, p'.get x = parents.get x)
    (fun fs groups parents emb dest => ∀ p' r,
      marshalFields o fs groups parents emb dest = (p', r) →
        r ≠ .panic → ∀ x, p'.get x = parents.get x)
  case case1 =>
    intro groups parents emb p' r heq hr
    rw [eqnO_nil] at heq
    cases heq
    exact absurd rfl hr
  case case2 =>
    intro data groups parents emb hnn fs hsf IH p' r heq hr
    rw [eqnO_struct o groups parents emb hnn hsf] at heq
    exact IH p' r heq hr
  case case3 =>
    intro data groups parents emb hnn hsf IH p' r heq hr
    rw [eqnO_nonstruct o groups parents emb hnn hsf] at heq
    exact IH p' r heq hr
  case case4 =>
    intro groups parents emb p' r heq hr
    rw [eqnV_nil] at heq
    cases heq
    intro x
    rfl
  case case5 =>
    intro groups parents emb isErr msg res p' r heq hr
    rw [eqnV_marshaller] at heq
    cases heq
    intro x
    rfl
  case case6 =>
    intro groups parents emb s p' r heq hr
    rw [eqnV_selfDesc] at heq
    cases heq
    intro x
    rfl
  case case7 =>
    intro groups parents emb p' r heq hr
    rw [eqnV_ptrNil] at heq
    cases heq
    exact absurd rfl hr
  case case8 =>
    intro groups parents emb inner hinner IH p' r heq hr
    rw [eqnV_ptr o groups parents emb hinner] at heq
    exact IH p' r heq hr
  case case9 =>
    intro groups parents emb s IH p' r heq hr
    rw [eqnV_scalar] at heq
    exact IH p' r heq hr
  case case10 =>
    intro groups parents emb fs IH p' r heq hr
    rw [eqnV_struct] at heq
    exact IH p' r heq hr
  case case11 =>
    intro groups parents emb es IH p' r heq hr
    rw [eqnV_slice] at heq
    exact IH p' r heq hr
  case case12 =>
    intro groups parents emb kk es IH p' r heq hr
    rw [eqnV_map] at heq
    exact IH p' r heq hr
  case case13 =>
    intro groups parents emb es IH p' r heq hr
    rw [eqnV_outMap] at heq
    exact IH p' r heq hr
  case case14 =>
    intro groups parents emb fs IH p' r heq hr
    rw [eqnD_struct] at heq
    exact IH p' r heq hr
  case case15 =>
    intro groups parents emb es IH p' r heq hr
    rw [eqnD_slice] at heq
    exact IH p' r heq hr
  case case16 =>
    intro groups parents emb kk p' r heq hr
    rw [eqnD_mapNil] at heq
    cases heq
    intro x
    rfl
  case case17 =>
    intro groups parents emb kk k0 v0 r0 hkk p' r heq hr
    rw [eqnD_mapBadKey o groups parents emb k0 v0 r0 hkk] at heq
    cases heq
    intro x
    rfl
  case case18 =>
    intro groups parents emb kk k0 v0 r0 hkk IH p' r heq hr
    have hk : kk = .kString := not_not.mp hkk
    subst hk
    rw [eqnD_mapGood] at heq
    exact IH p' r heq hr
  case case19 =>
    intro groups parents emb p' r heq hr
    rw [eqnD_outMapNil] at heq
    cases heq
    intro x
    rfl
  case case20 =>
    intro groups parents emb k0 v0 r0 IH p' r heq hr
    rw [eqnD_outMapCons] at heq
    exact IH p' r heq hr
  case case21 =>
    intro v groups parents emb h1 h2 h3 h4 p' r heq hr
    rw [eqnD_other o groups parents emb h1 h2 h3 h4] at heq
    cases heq
    intro x
    rfl
  case case22 =>
    intro groups parents emb dest p' r heq hr
    rw [eqnM_nil] at heq
    cases heq
    intro x
    rfl
  case case23 =>
    intro groups parents emb dest k0 v0 r0 p3 e hm IHval p' r heq hr
    rw [eqnM_err o groups parents emb dest hm] at heq
    cases heq
    exact IHval p3 (.err e) hm (by simp)
  case case24 =>
    intro groups parents emb dest k0 v0 r0 p3 hm IHval p' r heq hr
    rw [eqnM_panic o groups parents emb dest hm] at heq
    cases heq
    exact absurd rfl hr
  case case25 =>
    intro groups parents emb dest k0 v0 r0 p3 d hm IHval IHrest p' r heq hr
    rw [eqnM_ok o groups parents emb dest hm] at heq
    intro x
    exact (IHrest p' r heq hr x).trans (IHval p3 (.ok d) hm (by simp) x)
  case case26 =>
    intro groups parents emb p' r heq hr
    rw [eqnS_nil] at heq
    cases heq
    intro x
    rfl
  case case27 =>
    intro groups parents emb v0 r0 p3 e hm IHval p' r heq hr
    rw [eqnS_err o groups parents emb hm] at heq
    cases heq
    exact IHval p3 (.err e) hm (by simp)
  case case28 =>
    intro groups parents emb v0 r0 p3 hm IHval p' r heq hr
    rw [eqnS_panic o groups parents emb hm] at heq
    cases heq
    exact absurd rfl hr
  case case29 =>
    intro groups parents emb v0 r0 p3 d hm p4 e hrest IHval IHrest p' r heq hr
    rw [eqnS_restErr o groups parents emb hm hrest] at heq
    cases heq
    intro x
    exact (IHrest p4 (.err e) hrest (by simp) x).trans
      (IHval p3 (.ok d) hm (by simp) x)
  case case30 =>
    intro groups parents emb v0 r0 p3 d hm p4 hrest IHval IHrest p' r heq hr
    rw [eqnS_restPanic o groups parents emb hm hrest] at heq
    cases heq
    exact absurd rfl hr
  case case31 =>
    intro groups parents emb v0 r0 p3 d hm p4 ds hrest IHval IHrest p' r heq hr
    rw [eqnS_restOk o groups parents emb hm hrest] at heq
    cases heq
    intro x
    exact (IHrest p4 (.ok ds) hrest (by simp) x).trans
      (IHval p3 (.ok d) hm (by simp) x)
  case case32 =>
    intro groups parents emb dest p' r heq hr
    rw [eqnF_nil] at heq
    cases heq
    intro x
    rfl
  case case33 =>
    intro groups parents emb dest meta fval rest jt hdash IH p' r heq hr
    rw [eqnF_dash o fval rest groups parents emb dest hdash] at heq
    exact IH p' r heq hr
  case case34 =>
    intro groups parents emb dest meta fval rest jt h1 h2 IH p' r heq hr
    rw [eqnF_omitempty o rest groups parents emb dest h1 h2] at heq
    exact IH p' r heq hr
  case case35 =>
    intro groups parents emb dest meta fval rest jt h1 h2 h3 IH p' r heq hr
    rw [eqnF_unexported o rest groups parents emb dest h1
          (bool_eq_false h2) h3] at heq
    exact IH p' r heq hr
  case case36 =>
    intro groups parents emb dest meta fval rest jt h1 h2 h3 e hs p' r heq hr
    rw [eqnF_sinceErr o rest groups parents emb dest h1
          (bool_eq_false h2) (bool_eq_false h3) hs] at heq
    cases heq
    intro x
    rfl
  case case37 =>
    intro groups parents emb dest meta fval rest jt h1 h2 h3 hs p' r heq hr
    rw [eqnF_sincePanic o rest groups parents emb dest h1
          (bool_eq_false h2) (bool_eq_false h3) hs] at heq
    cases heq
    exact absurd rfl hr
  case case38 =>
    intro groups parents emb dest meta fval rest jt h1 h2 h3 b1 hs e hu p' r heq hr
    rw [eqnF_untilErr o rest groups parents emb dest h1
          (bool_eq_false h2) (bool_eq_false h3) hs hu] at heq
    cases heq
    intro x
    rfl
  case case39 =>
    intro groups parents emb dest meta fval rest jt h1 h2 h3 b1 hs hu p' r heq hr
    rw [eqnF_untilPanic o rest groups parents emb dest h1
          (bool_eq_false h2) (bool_eq_false h3) hs hu] at heq
    cases heq
    exact absurd rfl hr
  case case40 =>
    intro groups parents emb dest meta fval rest jt h1 h2 h3 val isEmb gN b1
      hs b2 hu doPush parents1 parents2 hm IHval p' r heq hr
    rw [eqnF_valPanic o rest groups parents emb dest h1
          (bool_eq_false h2) (bool_eq_false h3) hs hu hm] at heq
    cases heq
    exact absurd rfl hr
  case case41 =>
    intro groups parents emb dest meta fval rest jt h1 h2 h3 val isEmb gN b1
      hs b2 hu doPush parents1 parents2 e hm IHval p' r heq hr
    have hvc := bool_eq_false h3
    simp only [Bool.or_eq_false_iff, Bool.not_eq_false'] at hvc
    rw [marshalFields_step_err o meta fval rest groups parents emb dest
          b1 b2 parents2 e h1 (bool_eq_false h2) hvc.1 hvc.2 hs hu hm] at heq
    cases heq
    intro x
    have hval := IHval parents2 (.err e) hm (by simp) x
    have hp1 : parents1 =
        (if o.InheritGroups || fieldIsEmbedded meta fval
         then parents.incrementGroups (fieldGroupNames o parents meta.groupsTag)
         else parents) := rfl
    rw [hp1] at hval
    by_cases hd : (o.InheritGroups || fieldIsEmbedded meta fval) = true
    · rw [if_pos hd] at hval ⊢
      rw [groupSet.get_decrementGroups, hval, groupSet.get_incrementGroups]
      ring
    · rw [if_neg hd] at hval ⊢
      exact hval
  case case42 =>
    intro groups parents emb dest meta fval rest jt h1 h2 h3 val isEmb gN svis b1
      hs b2 hu doPush parents1 parents2 rv hm parents3 dest2 IHval IHrest p' r heq hr
    have hvc := bool_eq_false h3
    simp only [Bool.or_eq_false_iff, Bool.not_eq_false'] at hvc
    rw [marshalFields_step_ok o meta fval rest groups parents emb dest
          b1 b2 parents2 rv h1 (bool_eq_false h2) hvc.1 hvc.2 hs hu hm] at heq
    have hrest := IHrest p' r heq hr
    intro x
    have hval := IHval parents2 (.ok rv) hm (by simp) x
    have hp1 : parents1 =
        (if o.InheritGroups || fieldIsEmbedded meta fval
         then parents.incrementGroups (fieldGroupNames o parents meta.groupsTag)
         else parents) := rfl
    rw [hp1] at hval
    have hp3 : parents3 =
        (if o.InheritGroups || fieldIsEmbedded meta fval
         then parents2.decrementGroups (fieldGroupNames o parents meta.groupsTag)
         else parents2) := rfl
    rw [hrest x, hp3]
    by_cases hd : (o.InheritGroups || fieldIsEmbedded meta fval) = true
    · rw [if_pos hd] at hval ⊢
      rw [groupSet.get_decrementGroups, hval, groupSet.get_incrementGroups]
      ring
    · rw [if_neg hd] at hval ⊢
      exact hval



/-- C3: every `marshalObject` call that returns (normally or with an error)
hands back a parents set whose count for every group name equals the count it
had on entry — pushes before recursion are popped after it, error paths
included. -/
theorem claim3_parents_balance (o : Options) (data : Value)
    (groups parents p' : groupSet) (emb : Bool) (r : Res)
    (heq : marshalObject o data groups parents emb = (p', r))
    (hr : r ≠ .panic) :
    ∀ g, p'.get g = parents.get g :=
  (balance_all o).1 data groups parents emb p' r heq hr

/-- Witness for C3: with inheritance on, a field tagged `groups:"secret"`
pushes and pops that name around its recursion; on return the count of every
name — `admin` at 2, `secret` at 0 — is what it was on entry (the popped key
lingers at count 0, exactly like the Go map). -/
theorem claim3_witness :
    marshalObject oInherit
        (.vStruct (.cons metaSecret (.vScalar (.i 1)) .nil))
        (groupSet.incrementGroups [] ["admin"]) [("admin", 2)] false =
      ([("admin", 2), ("secret", 0)],
        .ok (.vOutMap (.cons "A" (.vScalar (.i 1)) .nil))) ∧
    ∀ g, groupSet.get [("admin", 2), ("secret", 0)] g =
      groupSet.get [("admin", 2)] g := by
  have heq : marshalObject oInherit
      (.vStruct (.cons metaSecret (.vScalar (.i 1)) .nil))
      (groupSet.incrementGroups [] ["admin"]) [("admin", 2)] false =
      ([("admin", 2), ("secret", 0)],
        .ok (.vOutMap (.cons "A" (.vScalar (.i 1)) .nil))) := by
    simp [marshalObject, marshalFields, structFieldsOf, deref1, metaSecret,
          oInherit, fieldJsonTag, fieldIsEmbedded, Value.isStructKind,
          isEmptyValue, Value.isValid, sinceCheck, untilCheck, fieldGroupNames,
          checkGroupsFlag, groupSet.size, splitOnChar, groupVisibility,
          groupSet.containsAny, groupSet.containsG, groupSet.get,
          groupSet.incrementGroups, groupSet.decrementGroups, groupSet.bump,
          marshalValue, marshalValueDeref, storeField, entInsert]
  exact ⟨heq,
    claim3_parents_balance oInherit _ _ _ _ _ _ heq (by simp)⟩

/-! ### Entry-list lemmas for order-insensitivity -/

theorem entHasKey_iff_lookup (es : Entries) (k : String) :
    entHasKey es k = true ↔ ∃ v, entLookup es k = some v := by
  induction es using entriesInd with
  | hnil => simp [entHasKey, entLookup]
  | hcons k0 v0 r ih =>
    by_cases hk : k0 = k
    · simp [entHasKey, entLookup, hk]
    · simp [entHasKey, entLookup, hk, ih]

theorem entNil_of_noKeys (es : Entries) (h : ∀ k, entHasKey es k = false) :
    es = .nil := by
  cases es with
  | nil => rfl
  | cons k v t =>
    have := h k
    simp [entHasKey] at this

theorem entLookup_head (k : String) (v : Value) (t : Entries) :
    entLookup (.cons k v t) k = some v := by
  simp [entLookup]

theorem entHasKey_entErase_other (es : Entries) {k k' : String} (h : k' ≠ k) :
    entHasKey (entErase es k) k' = entHasKey es k' := by
  induction es using entriesInd with
  | hnil => simp [entErase]
  | hcons k0 v0 r ih =>
    by_cases hk : k0 = k
    · subst hk
      simp [entErase, entHasKey, Ne.symm h]
    · simp [entErase, hk, entHasKey, ih]

theorem entLookup_entErase_other (es : Entries) {k k' : String} (h : k' ≠ k) :
    entLookup (entErase es k) k' = entLookup es k' := by
  induction es using entriesInd with
  | hnil => simp [entErase]
  | hcons k0 v0 r ih =>
    by_cases hk : k0 = k
    · subst hk
      simp [entErase, entLookup, Ne.symm h]
    · simp [entErase, hk, entLookup, ih]

theorem entHasKey_entErase_self (es : Entries) (k : String)
    (hnd : entKeysNodup es = true) : entHasKey (entErase es k) k = false := by
  induction es using entriesInd with
  | hnil => simp [entErase, entHasKey]
  | hcons k0 v0 r ih =>
    simp [entKeysNodup] at hnd
    by_cases hk : k0 = k
    · subst hk
      simpa [entErase] using hnd.1
    · simp [entErase, hk, entHasKey, ih hnd.2]

theorem entKeysNodup_entErase (es : Entries) (k : String)
    (hnd : entKeysNodup es = true) : entKeysNodup (entErase es k) = true := by
  induction es using entriesInd with
  | hnil => simpa [entErase] using hnd
  | hcons k0 v0 r ih =>
    simp [entKeysNodup] at hnd
    by_cases hk : k0 = k
    · simp [entErase, hk, hnd.2]
    · simp [entErase, hk, entKeysNodup, ih hnd.2]
      rw [entHasKey_entErase_other r hk]
      exact hnd.1

theorem sizeE_entErase (es : Entries) (k : String) (v : Value)
    (hlk : entLookup es k = some v) :
    sizeE es = sizeV v + sizeE (entErase es k) + 1 := by
  induction es using entriesInd with
  | hnil => simp [entLookup] at hlk
  | hcons k0 v0 r ih =>
    simp only [entLookup] at hlk
    by_cases hk : k0 = k
    · rw [if_pos hk] at hlk
      cases hlk
      simp [entErase, hk, sizeE]
    · rw [if_neg hk] at hlk
      simp [entErase, hk, sizeE, ih hlk]
      omega

theorem sizeE_entErase_le (es : Entries) (k : String) :
    sizeE (entErase es k) ≤ sizeE es := by
  induction es using entriesInd with
  | hnil => simp [entErase]
  | hcons k0 v0 r ih =>
    by_cases hk : k0 = k
    · simp [entErase, hk, sizeE]
      have := sizeV_pos v0
      omega
    · simp [entErase, hk, sizeE]
      omega

theorem entHasKey_entInsert (d : Entries) (k v' k') :
    entHasKey (entInsert d k v') k' = (entHasKey d k' || decide (k = k')) := by
  induction d using entriesInd with
  | hnil => simp [entInsert, entHasKey]
  | hcons k0 v0 r ih =>
    by_cases h1 : k0 = k
    · subst h1
      simp [entInsert, entHasKey]
      by_cases h2 : k0 = k' <;> simp [h2]
    · simp [entInsert, entHasKey, h1, ih]
      by_cases h2 : k0 = k' <;> simp [h2]

theorem entKeysNodup_entInsert (d : Entries) (k : String) (v' : Value)
    (hnd : entKeysNodup d = true) : entKeysNodup (entInsert d k v') = true := by
  induction d using entriesInd with
  | hnil => simp [entInsert, entKeysNodup, entHasKey]
  | hcons k0 v0 r ih =>
    simp [entKeysNodup] at hnd
    by_cases h1 : k0 = k
    · simp [entInsert, h1, entKeysNodup, hnd.2]
      rw [← h1]
      exact hnd.1
    · simp [entInsert, h1, entKeysNodup, ih hnd.2, entHasKey_entInsert]
      exact ⟨hnd.1, fun he => h1 he.symm⟩

theorem entKeysNodup_entMerge (dest nested : Entries)
    (hnd : entKeysNodup dest = true) :
    entKeysNodup (entMerge dest nested) = true := by
  induction nested using entriesInd generalizing dest with
  | hnil => exact hnd
  | hcons k0 v0 r ih =>
    exact ih (entInsert dest k0 v0) (entKeysNodup_entInsert dest k0 v0 hnd)

theorem entHasKey_entMerge (dest nested : Entries) (k : String) :
    entHasKey (entMerge dest nested) k =
      (entHasKey dest k || entHasKey nested k) := by
  induction nested using entriesInd generalizing dest with
  | hnil => simp [entMerge, entHasKey]
  | hcons k0 v0 r ih =>
    show entHasKey (entMerge (entInsert dest k0 v0) r) k = _
    rw [ih, entHasKey_entInsert]
    simp [entHasKey]
    by_cases h2 : k0 = k <;> simp [h2]

/-! ### Group-multiset lemmas for policy-flag preservation -/

theorem groupSet.size_bump_le (s : groupSet) (g : String) (d : Int) :
    s.size ≤ (s.bump g d).size := by
  induction s with
  | nil => simp [groupSet.bump, groupSet.size]
  | cons p t ih =>
    obtain ⟨k, n⟩ := p
    by_cases hk : k = g
    · simp [groupSet.bump, hk, groupSet.size]
    · simp only [groupSet.bump, if_neg hk]
      simp [groupSet.size] at ih ⊢
      omega

theorem groupSet.hasKey_bump (s : groupSet) (g : String) (d : Int)
    (g' : String) :
    (s.bump g d).hasKey g' = (s.hasKey g' || decide (g = g')) := by
  induction s with
  | nil => simp [groupSet.bump, groupSet.hasKey]
  | cons p t ih =>
    obtain ⟨k, n⟩ := p
    by_cases hk : k = g
    · subst hk
      simp [groupSet.bump, groupSet.hasKey]
      by_cases h2 : k = g' <;> simp [h2]
    · simp [groupSet.bump, hk, groupSet.hasKey, ih]
      by_cases h2 : k = g' <;> simp [h2]

theorem groupSet.size_pos_of_hasKey (s : groupSet) (g : String)
    (h : s.hasKey g = true) : 0 < s.size := by
  cases s with
  | nil => simp [groupSet.hasKey] at h
  | cons p t => simp [groupSet.size]

theorem groupSet.hasKey_foldl_bump (L : List String) (s : groupSet) (d : Int)
    (g : String) (h : s.hasKey g = true) :
    (L.foldl (fun acc x => acc.bump x d) s).hasKey g = true := by
  induction L generalizing s with
  | nil => exact h
  | cons x t ih =>
    exact ih (s.bump x d) (by rw [groupSet.hasKey_bump, h]; rfl)

theorem groupSet.size_foldl_bump_le (L : List String) (s : groupSet)
    (d : Int) :
    s.size ≤ (L.foldl (fun acc x => acc.bump x d) s).size := by
  induction L generalizing s with
  | nil => exact le_refl _
  | cons x t ih =>
    exact le_trans (groupSet.size_bump_le s x d) (ih (s.bump x d))

theorem groupSet.size_foldl_bump_pos (L : List String) (s : groupSet)
    (d : Int) (hL : L ≠ []) :
    0 < (L.foldl (fun acc x => acc.bump x d) s).size := by
  cases L with
  | nil => exact absurd rfl hL
  | cons x t =>
    have h1 : (s.bump x d).hasKey x = true := by
      rw [groupSet.hasKey_bump]
      simp
    exact groupSet.size_pos_of_hasKey _ x
      (groupSet.hasKey_foldl_bump t (s.bump x d) d x h1)

theorem groupSet.size_incrementGroups_le (s : groupSet) (L : List String) :
    s.size ≤ (s.incrementGroups L).size :=
  groupSet.size_foldl_bump_le L s 1

theorem groupSet.size_decrementGroups_le (s : groupSet) (L : List String) :
    s.size ≤ (s.decrementGroups L).size :=
  groupSet.size_foldl_bump_le L s (-1)

theorem groupSet.size_incrementGroups_pos (s : groupSet) (L : List String)
    (hL : L ≠ []) : 0 < (s.incrementGroups L).size :=
  groupSet.size_foldl_bump_pos L s 1 hL

theorem groupSet.size_decrementGroups_pos (s : groupSet) (L : List String)
    (hL : L ≠ []) : 0 < (s.decrementGroups L).size :=
  groupSet.size_foldl_bump_pos L s (-1) hL

theorem groupSet.containsAny_congr {p1 p2 : groupSet}
    (h : ∀ g, p1.get g = p2.get g) (L : List String) :
    p1.containsAny L = p2.containsAny L := by
  induction L with
  | nil => rfl
  | cons x t ih =>
    simp only [groupSet.containsAny] at ih ⊢
    simp only [List.any_cons, ih, groupSet.containsG, h x]

/-! ### The mapping-order equivalence is symmetric, transitive, and
size-preserving -/

theorem sizeE_congr : ∀ (xs ys : Entries),
    entKeysNodup xs = true → entKeysNodup ys = true →
    (∀ k, entHasKey xs k = entHasKey ys k) →
    (∀ k v v2, entLookup xs k = some v → entLookup ys k = some v2 →
      sizeV v = sizeV v2) →
    sizeE xs = sizeE ys := by
  intro xs
  induction xs using entriesInd with
  | hnil =>
    intro ys _ _ hkeys _
    have : ys = .nil := entNil_of_noKeys ys (fun k => (hkeys k).symm)
    rw [this]
  | hcons k0 v0 t ih =>
    intro ys hnd1 hnd2 hkeys hvals
    simp [entKeysNodup] at hnd1
    have hk0 : entHasKey ys k0 = true := by
      rw [← hkeys k0]
      simp [entHasKey]
    obtain ⟨v2, l2⟩ := (entHasKey_iff_lookup ys k0).mp hk0
    have hsz : sizeE ys = sizeV v2 + sizeE (entErase ys k0) + 1 :=
      sizeE_entErase ys k0 v2 l2
    have hv02 : sizeV v0 = sizeV v2 :=
      hvals k0 v0 v2 (entLookup_head k0 v0 t) l2
    have htail : sizeE t = sizeE (entErase ys k0) := by
      apply ih (entErase ys k0) hnd1.2 (entKeysNodup_entErase ys k0 hnd2)
      · intro k'
        by_cases hk' : k' = k0
        · subst hk'
          rw [entHasKey_entErase_self ys k' hnd2]
          cases hek : entHasKey t k'
          · rfl
          · rw [hek] at hnd1
            exact absurd hnd1.1 (by simp)
        · rw [entHasKey_entErase_other ys hk']
          rw [← hkeys k']
          simp [entHasKey, Ne.symm hk']
      · intro k' w w2 lw lw2
        by_cases hk' : k' = k0
        · subst hk'
          rw [entLookup_eq_none t k' (by
            cases hek : entHasKey t k'
            · rfl
            · rw [hek] at hnd1
              exact absurd hnd1.1 (by simp))] at lw
          cases lw
        · rw [entLookup_entErase_other ys hk'] at lw2
          exact hvals k' w w2 (by simp [entLookup, Ne.symm hk', lw]) lw2
    simp [sizeE]
    omega

theorem veqv_symm_all :
    (∀ a b, VEqv a b → VEqv b a) ∧ (∀ a b, VsEqv a b → VsEqv b a) ∧
      (∀ a b, FEqv a b → FEqv b a) := by
  apply VEqv.mutual_induct (fun a b => VEqv a b → VEqv b a)
    (fun a b => VsEqv a b → VsEqv b a) (fun a b => FEqv a b → FEqv b a)
  case case1 => exact id
  case case2 =>
    intro s s2 h
    simp only [VEqv] at h ⊢
    exact h.symm
  case case3 =>
    intro s s2 h
    simp only [VEqv] at h ⊢
    exact h.symm
  case case4 =>
    intro e m r e2 m2 r2 IH h
    simp only [VEqv] at h ⊢
    exact ⟨h.1.symm, h.2.1.symm, IH h.2.2⟩
  case case5 =>
    intro a b IH h
    simp only [VEqv] at h ⊢
    exact IH h
  case case6 =>
    intro fs gs IH h
    simp only [VEqv] at h ⊢
    exact IH h
  case case7 =>
    intro xs ys IH h
    simp only [VEqv] at h ⊢
    exact IH h
  case case8 =>
    intro kk xs kk2 ys IH h
    simp only [VEqv] at h ⊢
    obtain ⟨h1, h2, h3, h4, h5⟩ := h
    exact ⟨h1.symm, h3, h2, fun k => (h4 k).symm,
      fun k v v2 l1 l2 => IH k v2 v l2 (h5 k v2 v l2 l1)⟩
  case case9 =>
    intro xs ys IH h
    simp only [VEqv] at h ⊢
    obtain ⟨h2, h3, h4, h5⟩ := h
    exact ⟨h3, h2, fun k => (h4 k).symm,
      fun k v v2 l1 l2 => IH k v2 v l2 (h5 k v2 v l2 l1)⟩
  case case10 =>
    intro x y h1 h2 h3 h4 h5 h6 h7 h8 h9 h
    cases x <;> cases y <;>
      first
      | exact (h1 rfl rfl).elim
      | exact (h2 _ _ rfl rfl).elim
      | exact (h3 _ _ rfl rfl).elim
      | exact (h4 _ _ _ _ _ _ rfl rfl).elim
      | exact (h5 _ _ rfl rfl).elim
      | exact (h6 _ _ rfl rfl).elim
      | exact (h7 _ _ rfl rfl).elim
      | exact (h8 _ _ _ _ rfl rfl).elim
      | exact (h9 _ _ rfl rfl).elim
      | simp [VEqv] at h
  case case11 => exact id
  case case12 =>
    intro v xs v2 ys IHv IHs h
    simp only [VsEqv] at h ⊢
    exact ⟨IHv h.1, IHs h.2⟩
  case case13 =>
    intro x y h1 h2 h
    cases x <;> cases y <;>
      first
      | exact (h1 rfl rfl).elim
      | exact (h2 _ _ _ _ rfl rfl).elim
      | simp [VsEqv] at h
  case case14 => exact id
  case case15 =>
    intro m v fs m2 v2 gs IHv IHf h
    simp only [FEqv] at h ⊢
    exact ⟨h.1.symm, IHv h.2.1, IHf h.2.2⟩
  case case16 =>
    intro x y h1 h2 h
    cases x <;> cases y <;>
      first
      | exact (h1 rfl rfl).elim
      | exact (h2 _ _ _ _ _ _ rfl rfl).elim
      | simp [FEqv] at h

theorem VEqv_symm {a b : Value} (h : VEqv a b) : VEqv b a :=
  veqv_symm_all.1 a b h

theorem VsEqv_symm {a b : Values} (h : VsEqv a b) : VsEqv b a :=
  veqv_symm_all.2.1 a b h

theorem FEqv_symm {a b : Fields} (h : FEqv a b) : FEqv b a :=
  veqv_symm_all.2.2 a b h

theorem veqv_trans_all :
    (∀ a b, VEqv a b → ∀ c, VEqv b c → VEqv a c) ∧
      (∀ a b, VsEqv a b → ∀ c, VsEqv b c → VsEqv a c) ∧
      (∀ a b, FEqv a b → ∀ c, FEqv b c → FEqv a c) := by
  apply VEqv.mutual_induct
    (fun a b => VEqv a b → ∀ c, VEqv b c → VEqv a c)
    (fun a b => VsEqv a b → ∀ c, VsEqv b c → VsEqv a c)
    (fun a b => FEqv a b → ∀ c, FEqv b c → FEqv a c)
  case case1 =>
    intro _ c hc
    exact hc
  case case2 =>
    intro s s2 h c hc
    cases c <;> simp [VEqv] at h hc ⊢ <;> simp [h, hc]
  case case3 =>
    intro s s2 h c hc
    cases c <;> simp [VEqv] at h hc ⊢ <;> simp [h, hc]
  case case4 =>
    intro e m r e2 m2 r2 IH h c hc
    cases c <;> simp [VEqv] at h hc ⊢
    obtain ⟨he, hm, hr⟩ := h
    obtain ⟨he2, hm2, hr2⟩ := hc
    exact ⟨he.trans he2, hm.trans hm2, IH hr _ hr2⟩
  case case5 =>
    intro a b IH h c hc
    cases c <;> simp [VEqv] at h hc ⊢
    exact IH h _ hc
  case case6 =>
    intro fs gs IH h c hc
    cases c <;> simp [VEqv] at h hc ⊢
    exact IH h _ hc
  case case7 =>
    intro xs ys IH h c hc
    cases c <;> simp [VEqv] at h hc ⊢
    exact IH h _ hc
  case case8 =>
    intro kk xs kk2 ys IH h c hc
    cases c with
    | vMap kk3 zs =>
      simp only [VEqv] at h hc ⊢
      obtain ⟨e1, n1, n2, hk12, hv12⟩ := h
      obtain ⟨e2, _, n3, hk23, hv23⟩ := hc
      refine ⟨e1.trans e2, n1, n3, fun k => (hk12 k).trans (hk23 k), ?_⟩
      intro k v v3 l1 l3
      have hkey : entHasKey ys k = true := by
        rw [← hk12 k]
        exact (entHasKey_iff_lookup xs k).mpr ⟨v, l1⟩
      obtain ⟨v2, l2⟩ := (entHasKey_iff_lookup ys k).mp hkey
      exact IH k v v2 l1 (hv12 k v v2 l1 l2) v3 (hv23 k v2 v3 l2 l3)
    | _ => simp [VEqv] at hc
  case case9 =>
    intro xs ys IH h c hc
    cases c with
    | vOutMap zs =>
      simp only [VEqv] at h hc ⊢
      obtain ⟨n1, n2, hk12, hv12⟩ := h
      obtain ⟨_, n3, hk23, hv23⟩ := hc
      refine ⟨n1, n3, fun k => (hk12 k).trans (hk23 k), ?_⟩
      intro k v v3 l1 l3
      have hkey : entHasKey ys k = true := by
        rw [← hk12 k]
        exact (entHasKey_iff_lookup xs k).mpr ⟨v, l1⟩
      obtain ⟨v2, l2⟩ := (entHasKey_iff_lookup ys k).mp hkey
      exact IH k v v2 l1 (hv12 k v v2 l1 l2) v3 (hv23 k v2 v3 l2 l3)
    | _ => simp [VEqv] at hc
  case case10 =>
    intro x y h1 h2 h3 h4 h5 h6 h7 h8 h9 h c hc
    cases x <;> cases y <;>
      first
      | exact (h1 rfl rfl).elim
      | exact (h2 _ _ rfl rfl).elim
      | exact (h3 _ _ rfl rfl).elim
      | exact (h4 _ _ _ _ _ _ rfl rfl).elim
      | exact (h5 _ _ rfl rfl).elim
      | exact (h6 _ _ rfl rfl).elim
      | exact (h7 _ _ rfl rfl).elim
      | exact (h8 _ _ _ _ rfl rfl).elim
      | exact (h9 _ _ rfl rfl).elim
      | simp [VEqv] at h
  case case11 =>
    intro _ c hc
    exact hc
  case case12 =>
    intro v xs v2 ys IHv IHs h c hc
    cases c <;> simp [VsEqv] at h hc ⊢
    exact ⟨IHv h.1 _ hc.1, IHs h.2 _ hc.2⟩
  case case13 =>
    intro x y h1 h2 h c hc
    cases x <;> cases y <;>
      first
      | exact (h1 rfl rfl).elim
      | exact (h2 _ _ _ _ rfl rfl).elim
      | simp [VsEqv] at h
  case case14 =>
    intro _ c hc
    exact hc
  case case15 =>
    intro m v fs m2 v2 gs IHv IHf h c hc
    cases c <;> simp [FEqv] at h hc ⊢
    exact ⟨h.1.trans hc.1, IHv h.2.1 _ hc.2.1, IHf h.2.2 _ hc.2.2⟩
  case case16 =>
    intro x y h1 h2 h c hc
    cases x <;> cases y <;>
      first
      | exact (h1 rfl rfl).elim
      | exact (h2 _ _ _ _ _ _ rfl rfl).elim
      | simp [FEqv] at h

theorem VEqv_trans {a b c : Value} (h1 : VEqv a b) (h2 : VEqv b c) :
    VEqv a c :=
  veqv_trans_all.1 a b h1 c h2

theorem VsEqv_trans {a b c : Values} (h1 : VsEqv a b) (h2 : VsEqv b c) :
    VsEqv a c :=
  veqv_trans_all.2.1 a b h1 c h2

theorem FEqv_trans {a b c : Fields} (h1 : FEqv a b) (h2 : FEqv b c) :
    FEqv a c :=
  veqv_trans_all.2.2 a b h1 c h2

theorem veqv_size_all :
    (∀ a b, VEqv a b → sizeV a = sizeV b) ∧
      (∀ a b, VsEqv a b → sizeVs a = sizeVs b) ∧
      (∀ a b, FEqv a b → sizeF a = sizeF b) := by
  apply VEqv.mutual_induct (fun a b => VEqv a b → sizeV a = sizeV b)
    (fun a b => VsEqv a b → sizeVs a = sizeVs b)
    (fun a b => FEqv a b → sizeF a = sizeF b)
  case case1 => intro _; rfl
  case case2 => intro s s2 h; rfl
  case case3 => intro s s2 h; rfl
  case case4 =>
    intro e m r e2 m2 r2 IH h
    simp only [VEqv] at h
    simp [sizeV, IH h.2.2]
  case case5 =>
    intro a b IH h
    simp only [VEqv] at h
    simp [sizeV, IH h]
  case case6 =>
    intro fs gs IH h
    simp only [VEqv] at h
    simp [sizeV, IH h]
  case case7 =>
    intro xs ys IH h
    simp only [VEqv] at h
    simp [sizeV, IH h]
  case case8 =>
    intro kk xs kk2 ys IH h
    simp only [VEqv] at h
    obtain ⟨e1, n1, n2, hk, hv⟩ := h
    simp only [sizeV]
    have := sizeE_congr xs ys n1 n2 hk
      (fun k v v2 l1 l2 => IH k v v2 l1 (hv k v v2 l1 l2))
    omega
  case case9 =>
    intro xs ys IH h
    simp only [VEqv] at h
    obtain ⟨n1, n2, hk, hv⟩ := h
    simp only [sizeV]
    have := sizeE_congr xs ys n1 n2 hk
      (fun k v v2 l1 l2 => IH k v v2 l1 (hv k v v2 l1 l2))
    omega
  case case10 =>
    intro x y h1 h2 h3 h4 h5 h6 h7 h8 h9 h
    cases x <;> cases y <;>
      first
      | exact (h1 rfl rfl).elim
      | exact (h2 _ _ rfl rfl).elim
      | exact (h3 _ _ rfl rfl).elim
      | exact (h4 _ _ _ _ _ _ rfl rfl).elim
      | exact (h5 _ _ rfl rfl).elim
      | exact (h6 _ _ rfl rfl).elim
      | exact (h7 _ _ rfl rfl).elim
      | exact (h8 _ _ _ _ rfl rfl).elim
      | exact (h9 _ _ rfl rfl).elim
      | simp [VEqv] at h
  case case11 => intro _; rfl
  case case12 =>
    intro v xs v2 ys IHv IHs h
    simp only [VsEqv] at h
    simp [sizeVs, IHv h.1, IHs h.2]
  case case13 =>
    intro x y h1 h2 h
    cases x <;> cases y <;>
      first
      | exact (h1 rfl rfl).elim
      | exact (h2 _ _ _ _ rfl rfl).elim
      | simp [VsEqv] at h
  case case14 => intro _; rfl
  case case15 =>
    intro m v fs m2 v2 gs IHv IHf h
    simp only [FEqv] at h
    simp [sizeF, IHv h.2.1, IHf h.2.2]
  case case16 =>
    intro x y h1 h2 h
    cases x <;> cases y <;>
      first
      | exact (h1 rfl rfl).elim
      | exact (h2 _ _ _ _ _ _ rfl rfl).elim
      | simp [FEqv] at h

theorem VEqv_sizeV {a b : Value} (h : VEqv a b) : sizeV a = sizeV b :=
  veqv_size_all.1 a b h

/-! ### What the walker observes of a value is invariant under the
mapping-order equivalence -/

theorem isValid_false_iff (v : Value) : v.isValid = false ↔ v = .vNil := by
  cases v <;> simp [Value.isValid]

theorem VEqv_isValid {a b : Value} (h : VEqv a b) :
    a.isValid = b.isValid := by
  cases a <;> cases b <;> first | rfl | (simp only [VEqv] at h; done)

theorem VEqv_vNil_iff {a b : Value} (h : VEqv a b) :
    a = .vNil ↔ b = .vNil := by
  rw [← isValid_false_iff, ← isValid_false_iff, VEqv_isValid h]

theorem VEqv_isStructKind {a b : Value} (h : VEqv a b) :
    a.isStructKind = b.isStructKind := by
  cases a <;> cases b <;> first | rfl | (simp only [VEqv] at h; done)

theorem VEqv_deref1 {a b : Value} (h : VEqv a b) :
    VEqv (deref1 a) (deref1 b) := by
  cases a <;> cases b <;> first
    | (simp only [VEqv] at h; done)
    | simpa [deref1, VEqv] using h

theorem VEqv_isEmptyValue {a b : Value} (h : VEqv a b) :
    isEmptyValue a = isEmptyValue b := by
  cases a <;> cases b <;> first | (simp only [VEqv] at h; done) | skip
  case vNil.vNil => rfl
  case vSelfDescribing.vSelfDescribing => rfl
  case vMarshaller.vMarshaller => rfl
  case vStruct.vStruct => rfl
  case vScalar.vScalar s s2 =>
    have hs : s = s2 := by simpa [VEqv] using h
    rw [hs]
  case vPtr.vPtr i1 i2 =>
    have hi : VEqv i1 i2 := by simpa [VEqv] using h
    simp [isEmptyValue, VEqv_isValid hi]
  case vSlice.vSlice xs ys =>
    have hv : VsEqv xs ys := by simpa [VEqv] using h
    cases xs <;> cases ys <;> first | rfl | (simp only [VsEqv] at hv; done)
  case vMap.vMap kk xs kk2 ys =>
    simp only [VEqv] at h
    obtain ⟨_, _, _, hk, _⟩ := h
    cases xs with
    | nil =>
      cases ys with
      | nil => rfl
      | cons k2 w2 t2 =>
        have := hk k2
        simp [entHasKey] at this
    | cons k1 w1 t1 =>
      cases ys with
      | nil =>
        have := hk k1
        simp [entHasKey] at this
      | cons k2 w2 t2 => rfl
  case vOutMap.vOutMap xs ys =>
    simp only [VEqv] at h
    obtain ⟨_, _, hk, _⟩ := h
    cases xs with
    | nil =>
      cases ys with
      | nil => rfl
      | cons k2 w2 t2 =>
        have := hk k2
        simp [entHasKey] at this
    | cons k1 w1 t1 =>
      cases ys with
      | nil =>
        have := hk k1
        simp [entHasKey] at this
      | cons k2 w2 t2 => rfl

theorem VEqv_structFieldsOf_none {a b : Value} (h : VEqv a b)
    (hn : structFieldsOf a = none) : structFieldsOf b = none := by
  cases a <;> cases b <;>
    first
    | rfl
    | (simp only [VEqv] at h; done)
    | (simp only [structFieldsOf] at hn; cases hn)

theorem VEqv_structFieldsOf_some {a b : Value} {fs : Fields} (h : VEqv a b)
    (hs : structFieldsOf a = some fs) :
    ∃ gs, structFieldsOf b = some gs ∧ FEqv fs gs := by
  cases a with
  | vStruct fs1 =>
    cases b <;> first | (simp only [VEqv] at h; done) | skip
    case vStruct gs =>
      rw [show structFieldsOf (Value.vStruct fs1) = some fs1 from rfl] at hs
      cases hs
      exact ⟨gs, rfl, by simpa [VEqv] using h⟩
  | vNil => exact absurd hs (by simp [structFieldsOf])
  | vScalar s => exact absurd hs (by simp [structFieldsOf])
  | vSelfDescribing s => exact absurd hs (by simp [structFieldsOf])
  | vMarshaller e m r => exact absurd hs (by simp [structFieldsOf])
  | vPtr inner => exact absurd hs (by simp [structFieldsOf])
  | vSlice es => exact absurd hs (by simp [structFieldsOf])
  | vMap kk es => exact absurd hs (by simp [structFieldsOf])
  | vOutMap es => exact absurd hs (by simp [structFieldsOf])

theorem VEqv_slicePrepend {d1 d2 ds1 ds2 : Value} (hd : VEqv d1 d2)
    (hds : VEqv ds1 ds2) :
    VEqv (slicePrepend d1 ds1) (slicePrepend d2 ds2) := by
  cases ds1 <;> cases ds2 <;>
    first
    | (simp only [VEqv] at hds; done)
    | simpa [slicePrepend] using hds
    | skip
  case vSlice.vSlice l1 l2 =>
    simp only [slicePrepend, VEqv, VsEqv] at hds ⊢
    exact ⟨hd, hds⟩

/-! ### The entry-level relation: equivalence laws and congruence of the
output-map operations -/

theorem EntRel_nil : EntRel .nil .nil := by
  refine ⟨rfl, rfl, fun k => rfl, ?_⟩
  intro k v v2 l1 _
  simp [entLookup] at l1

theorem EntRel_symm {xs ys : Entries} (h : EntRel xs ys) : EntRel ys xs :=
  ⟨h.2.1, h.1, fun k => (h.2.2.1 k).symm,
    fun k v v2 l1 l2 => VEqv_symm (h.2.2.2 k v2 v l2 l1)⟩

theorem EntRel_trans {xs ys zs : Entries} (h1 : EntRel xs ys)
    (h2 : EntRel ys zs) : EntRel xs zs := by
  refine ⟨h1.1, h2.2.1, fun k => (h1.2.2.1 k).trans (h2.2.2.1 k), ?_⟩
  intro k v v3 l1 l3
  have hkey : entHasKey ys k = true := by
    rw [← h1.2.2.1 k]
    exact (entHasKey_iff_lookup xs k).mpr ⟨v, l1⟩
  obtain ⟨v2, l2⟩ := (entHasKey_iff_lookup ys k).mp hkey
  exact VEqv_trans (h1.2.2.2 k v v2 l1 l2) (h2.2.2.2 k v2 v3 l2 l3)

theorem EntRel_self_right {xs ys : Entries} (h : EntRel xs ys) :
    EntRel ys ys :=
  EntRel_trans (EntRel_symm h) h

theorem EntRel_self_left {xs ys : Entries} (h : EntRel xs ys) :
    EntRel xs xs :=
  EntRel_trans h (EntRel_symm h)

theorem EntRel_sizeE {xs ys : Entries} (h : EntRel xs ys) :
    sizeE xs = sizeE ys :=
  sizeE_congr xs ys h.1 h.2.1 h.2.2.1
    (fun k v v2 l1 l2 => VEqv_sizeV (h.2.2.2 k v v2 l1 l2))

theorem EntRel_entInsert {d1 d2 : Entries} {v1 v2 : Value} (k : String)
    (hd : EntRel d1 d2) (hv : VEqv v1 v2) :
    EntRel (entInsert d1 k v1) (entInsert d2 k v2) := by
  refine ⟨entKeysNodup_entInsert d1 k v1 hd.1,
    entKeysNodup_entInsert d2 k v2 hd.2.1, ?_, ?_⟩
  · intro k'
    rw [entHasKey_entInsert, entHasKey_entInsert, hd.2.2.1 k']
  · intro k' w1 w2 l1 l2
    by_cases hk : k' = k
    · subst hk
      rw [entLookup_entInsert_self] at l1 l2
      cases l1
      cases l2
      exact hv
    · rw [entLookup_entInsert_other d1 v1 hk] at l1
      rw [entLookup_entInsert_other d2 v2 hk] at l2
      exact hd.2.2.2 k' w1 w2 l1 l2

theorem EntRel_entMerge {d1 d2 n1 n2 : Entries} (hd : EntRel d1 d2)
    (hn : EntRel n1 n2) : EntRel (entMerge d1 n1) (entMerge d2 n2) := by
  refine ⟨entKeysNodup_entMerge d1 n1 hd.1, entKeysNodup_entMerge d2 n2 hd.2.1,
    ?_, ?_⟩
  · intro k
    rw [entHasKey_entMerge, entHasKey_entMerge, hd.2.2.1 k, hn.2.2.1 k]
  · intro k w1 w2 l1 l2
    rw [entLookup_entMerge d1 n1 k hn.1] at l1
    rw [entLookup_entMerge d2 n2 k hn.2.1] at l2
    cases hn1 : entLookup n1 k with
    | some w =>
      have hkey : entHasKey n2 k = true := by
        rw [← hn.2.2.1 k]
        exact (entHasKey_iff_lookup n1 k).mpr ⟨w, hn1⟩
      obtain ⟨w', hn2⟩ := (entHasKey_iff_lookup n2 k).mp hkey
      rw [hn1] at l1
      rw [hn2] at l2
      cases l1
      cases l2
      exact hn.2.2.2 k w1 w2 hn1 hn2
    | none =>
      have hkey : entHasKey n2 k = false := by
        rw [← hn.2.2.1 k]
        cases hh : entHasKey n1 k
        · rfl
        · obtain ⟨w, hw⟩ := (entHasKey_iff_lookup n1 k).mp hh
          rw [hw] at hn1
          cases hn1
      rw [hn1] at l1
      rw [entLookup_eq_none n2 k hkey] at l2
      exact hd.2.2.2 k w1 w2 l1 l2

theorem EntRel_storeField {d1 d2 : Entries} {rv1 rv2 : Value} (k : String)
    (isEmb : Bool) (hd : EntRel d1 d2) (hrv : VEqv rv1 rv2) :
    EntRel (storeField d1 k rv1 isEmb) (storeField d2 k rv2 isEmb) := by
  cases isEmb with
  | false =>
    rw [storeField_not_embedded, storeField_not_embedded]
    exact EntRel_entInsert k hd hrv
  | true =>
    cases rv1 <;> cases rv2 <;>
      first
      | (simp only [VEqv] at hrv; done)
      | (exact EntRel_entInsert k hd hrv)
      | skip
    case vOutMap.vOutMap n1 n2 =>
      have hn : EntRel n1 n2 := by simpa [VEqv, EntRel] using hrv
      show EntRel (entMerge d1 n1) (entMerge d2 n2)
      exact EntRel_entMerge hd hn

theorem EntRel_tail_self {k0 : String} {v0 : Value} {t : Entries}
    (h : EntRel (.cons k0 v0 t) (.cons k0 v0 t)) : EntRel t t := by
  have hnd : entKeysNodup (Entries.cons k0 v0 t) = true := h.1
  simp [entKeysNodup] at hnd
  refine ⟨hnd.2, hnd.2, fun k => rfl, ?_⟩
  intro k v v2 l1 l2
  by_cases hk : k = k0
  · subst hk
    rw [entLookup_eq_none t k (by
      cases hh : entHasKey t k
      · rfl
      · rw [hh] at hnd
        exact absurd hnd.1 (by simp))] at l1
    cases l1
  · have lc : entLookup (Entries.cons k0 v0 t) k = some v := by
      simp [entLookup, Ne.symm hk, l1]
    have lc2 : entLookup (Entries.cons k0 v0 t) k = some v2 := by
      simp [entLookup, Ne.symm hk, l2]
    exact h.2.2.2 k v v2 lc lc2

theorem EntRel_entErase_self {t : Entries} (k : String)
    (h : EntRel t t) : EntRel (entErase t k) (entErase t k) := by
  refine ⟨entKeysNodup_entErase t k h.1, entKeysNodup_entErase t k h.1,
    fun k' => rfl, ?_⟩
  intro k' v v2 l1 l2
  by_cases hk : k' = k
  · subst hk
    rw [entLookup_eq_none _ k' (entHasKey_entErase_self t k' h.1)] at l1
    cases l1
  · rw [entLookup_entErase_other t hk] at l1 l2
    exact h.2.2.2 k' v v2 l1 l2

theorem EntRel_cons_self_lookup {bs : Entries} {k : String} {v : Value}
    (h : EntRel bs bs) (hlk : entLookup bs k = some v) : VEqv v v :=
  h.2.2.2 k v v hlk hlk

/-- Swapping the order of two distinct-keyed insertions gives related
output maps. -/
theorem EntRel_insert_swap {dest : Entries} {k1 k2 : String}
    {d1A d1B d2A d2B : Value} (hne : k1 ≠ k2) (hd : EntRel dest dest)
    (h1 : VEqv d1A d1B) (h2 : VEqv d2A d2B) :
    EntRel (entInsert (entInsert dest k1 d1A) k2 d2A)
      (entInsert (entInsert dest k2 d2B) k1 d1B) := by
  refine ⟨entKeysNodup_entInsert _ k2 d2A (entKeysNodup_entInsert _ k1 d1A hd.1),
    entKeysNodup_entInsert _ k1 d1B (entKeysNodup_entInsert _ k2 d2B hd.1),
    ?_, ?_⟩
  · intro k'
    rw [entHasKey_entInsert, entHasKey_entInsert, entHasKey_entInsert,
      entHasKey_entInsert]
    cases hh1 : decide (k1 = k') <;> cases hh2 : decide (k2 = k') <;> simp
  · intro k' w1 w2 l1 l2
    by_cases hk2 : k' = k2
    · subst hk2
      rw [entLookup_entInsert_self] at l1
      rw [entLookup_entInsert_other _ d1B (fun hh => hne hh.symm)] at l2
      rw [entLookup_entInsert_self] at l2
      cases l1
      cases l2
      exact h2
    · rw [entLookup_entInsert_other _ d2A hk2] at l1
      by_cases hk1 : k' = k1
      · subst hk1
        rw [entLookup_entInsert_self] at l1
        rw [entLookup_entInsert_self] at l2
        cases l1
        cases l2
        exact h1
      · rw [entLookup_entInsert_other _ d1A hk1] at l1
        rw [entLookup_entInsert_other _ d1B hk1] at l2
        rw [entLookup_entInsert_other _ d2B hk2] at l2
        exact hd.2.2.2 k' w1 w2 l1 l2

/-! ### States the walker cannot distinguish: equivalence laws and
preservation by the push/pop operations -/

theorem StateRel_refl (o : Options) (p : groupSet) : StateRel o p p :=
  ⟨fun _ => rfl, rfl⟩

theorem StateRel_symm {o : Options} {p1 p2 : groupSet}
    (h : StateRel o p1 p2) : StateRel o p2 p1 :=
  ⟨fun g => (h.1 g).symm, h.2.symm⟩

theorem StateRel_trans {o : Options} {p1 p2 p3 : groupSet}
    (h1 : StateRel o p1 p2) (h2 : StateRel o p2 p3) : StateRel o p1 p3 :=
  ⟨fun g => (h1.1 g).trans (h2.1 g), h1.2.trans h2.2⟩

theorem StateRel_incrementGroups {o : Options} {p1 p2 : groupSet}
    (h : StateRel o p1 p2) (L : List String) :
    StateRel o (p1.incrementGroups L) (p2.incrementGroups L) := by
  constructor
  · intro g
    rw [groupSet.get_incrementGroups, groupSet.get_incrementGroups, h.1 g]
  · cases L with
    | nil => exact h.2
    | cons x t =>
      have h1 : 0 < (p1.incrementGroups (x :: t)).size :=
        groupSet.size_incrementGroups_pos p1 (x :: t) (by simp)
      have h2 : 0 < (p2.incrementGroups (x :: t)).size :=
        groupSet.size_incrementGroups_pos p2 (x :: t) (by simp)
      simp [checkGroupsFlag, h1, h2]

theorem StateRel_decrementGroups {o : Options} {p1 p2 : groupSet}
    (h : StateRel o p1 p2) (L : List String) :
    StateRel o (p1.decrementGroups L) (p2.decrementGroups L) := by
  constructor
  · intro g
    rw [groupSet.get_decrementGroups, groupSet.get_decrementGroups, h.1 g]
  · cases L with
    | nil => exact h.2
    | cons x t =>
      have h1 : 0 < (p1.decrementGroups (x :: t)).size :=
        groupSet.size_decrementGroups_pos p1 (x :: t) (by simp)
      have h2 : 0 < (p2.decrementGroups (x :: t)).size :=
        groupSet.size_decrementGroups_pos p2 (x :: t) (by simp)
      simp [checkGroupsFlag, h1, h2]

theorem fieldGroupNames_congr {o : Options} {p1 p2 : groupSet}
    (h : StateRel o p1 p2) (tag : String) :
    fieldGroupNames o p1 tag = fieldGroupNames o p2 tag := by
  simp [fieldGroupNames, h.2]

theorem groupVisibility_congr {o : Options} {p1 p2 : groupSet}
    (h : StateRel o p1 p2) (groups : groupSet) (emb : Bool) (tag : String)
    (ie : Bool) :
    groupVisibility o groups p1 emb tag ie =
      groupVisibility o groups p2 emb tag ie := by
  simp only [groupVisibility, h.2, groupSet.containsAny_congr h.1]

/-! ### A single walker run never removes group keys and never turns the
`checkGroups` policy off  -/

theorem mono_all (o : Options) :
    (∀ (data : Value) (groups parents : groupSet) (emb : Bool),
       ∀ p' r, marshalObject o data groups parents emb = (p', r) →
         r ≠ .panic →
         parents.size ≤ p'.size ∧
           (checkGroupsFlag o parents = false → p' = parents)) ∧
    (∀ (v : Value) (groups parents : groupSet) (emb : Bool),
       ∀ p' r, marshalValue o v groups parents emb = (p', r) →
         r ≠ .panic →
         parents.size ≤ p'.size ∧
           (checkGroupsFlag o parents = false → p' = parents)) ∧
    (∀ (v : Value) (groups parents : groupSet) (emb : Bool),
       ∀ p' r, marshalValueDeref o v groups parents emb = (p', r) →
         r ≠ .panic →
         parents.size ≤ p'.size ∧
           (checkGroupsFlag o parents = false → p' = parents)) ∧
    (∀ (es : Entries) (groups parents : groupSet) (emb : Bool) (dest : Entries),
       ∀ p' r, marshalMap o es groups parents emb dest = (p', r) →
         r ≠ .panic →
         parents.size ≤ p'.size ∧
           (checkGroupsFlag o parents = false → p' = parents)) ∧
    (∀ (es : Values) (groups parents : groupSet) (emb : Bool),
       ∀ p' r, marshalSlice o es groups parents emb = (p', r) →
         r ≠ .panic →
         parents.size ≤ p'.size ∧
           (checkGroupsFlag o parents = false → p' = parents)) ∧
    (∀ (fs : Fields) (groups parents : groupSet) (emb : Bool) (dest : Entries),
       ∀ p' r, marshalFields o fs groups parents emb dest = (p', r) →
         r ≠ .panic →
         parents.size ≤ p'.size ∧
           (checkGroupsFlag o parents = false → p' = parents)) := by
  apply marshalObject.mutual_induct o
    (fun data groups parents emb => ∀ p' r,
      marshalObject o data groups parents emb = (p', r) →
        r ≠ .panic →
        parents.size ≤ p'.size ∧
          (checkGroupsFlag o parents = false → p' = parents))
    (fun v groups parents emb => ∀ p' r,
      marshalValue o v groups parents emb = (p', r) →
        r ≠ .panic →
        parents.size ≤ p'.size ∧
          (checkGroupsFlag o parents = false → p' = parents))
    (fun v groups parents emb => ∀ p' r,
      marshalValueDeref o v groups parents emb = (p', r) →
        r ≠ .panic →
        parents.size ≤ p'.size ∧
          (checkGroupsFlag o parents = false → p' = parents))
    (fun es groups parents emb dest => ∀ p' r,
      marshalMap o es groups parents emb dest = (p', r) →
        r ≠ .panic →
        parents.size ≤ p'.size ∧
          (checkGroupsFlag o parents = false → p' = parents))
    (fun es groups parents emb => ∀ p' r,
      marshalSlice o es groups parents emb = (p', r) →
        r ≠ .panic →
        parents.size ≤ p'.size ∧
          (checkGroupsFlag o parents = false → p' = parents))
    (fun fs groups parents emb dest => ∀ p' r,
      marshalFields o fs groups parents emb dest = (p', r) →
        r ≠ .panic →
        parents.size ≤ p'.size ∧
          (checkGroupsFlag o parents = false → p' = parents))
  case case1 =>
    intro groups parents emb p' r heq hr
    rw [eqnO_nil] at heq
    cases heq
    exact absurd rfl hr
  case case2 =>
    intro data groups parents emb hnn fs hsf IH p' r heq hr
    rw [eqnO_struct o groups parents emb hnn hsf] at heq
    exact IH p' r heq hr
  case case3 =>
    intro data groups parents emb hnn hsf IH p' r heq hr
    rw [eqnO_nonstruct o groups parents emb hnn hsf] at heq
    exact IH p' r heq hr
  case case4 =>
    intro groups parents emb p' r heq hr
    rw [eqnV_nil] at heq
    cases heq
    exact ⟨le_refl _, fun _ => rfl⟩
  case case5 =>
    intro groups parents emb isErr msg res p' r heq hr
    rw [eqnV_marshaller] at heq
    cases heq
    exact ⟨le_refl _, fun _ => rfl⟩
  case case6 =>
    intro groups parents emb s p' r heq hr
    rw [eqnV_selfDesc] at heq
    cases heq
    exact ⟨le_refl _, fun _ => rfl⟩
  case case7 =>
    intro groups parents emb p' r heq hr
    rw [eqnV_ptrNil] at heq
    cases heq
    exact absurd rfl hr
  case case8 =>
    intro groups parents emb inner hinner IH p' r heq hr
    rw [eqnV_ptr o groups parents emb hinner] at heq
    exact IH p' r heq hr
  case case9 =>
    intro groups parents emb s IH p' r heq hr
    rw [eqnV_scalar] at heq
    exact IH p' r heq hr
  case case10 =>
    intro groups parents emb fs IH p' r heq hr
    rw [eqnV_struct] at heq
    exact IH p' r heq hr
  case case11 =>
    intro groups parents emb es IH p' r heq hr
    rw [eqnV_slice] at heq
    exact IH p' r heq hr
  case case12 =>
    intro groups parents emb kk es IH p' r heq hr
    rw [eqnV_map] at heq
    exact IH p' r heq hr
  case case13 =>
    intro groups parents emb es IH p' r heq hr
    rw [eqnV_outMap] at heq
    exact IH p' r heq hr
  case case14 =>
    intro groups parents emb fs IH p' r heq hr
    rw [eqnD_struct] at heq
    exact IH p' r heq hr
  case case15 =>
    intro groups parents emb es IH p' r heq hr
    rw [eqnD_slice] at heq
    exact IH p' r heq hr
  case case16 =>
    intro groups parents emb kk p' r heq hr
    rw [eqnD_mapNil] at heq
    cases heq
    exact ⟨le_refl _, fun _ => rfl⟩
  case case17 =>
    intro groups parents emb kk k0 v0 r0 hkk p' r heq hr
    rw [eqnD_mapBadKey o groups parents emb k0 v0 r0 hkk] at heq
    cases heq
    exact ⟨le_refl _, fun _ => rfl⟩
  case case18 =>
    intro groups parents emb kk k0 v0 r0 hkk IH p' r heq hr
    have hk : kk = .kString := not_not.mp hkk
    subst hk
    rw [eqnD_mapGood] at heq
    exact IH p' r heq hr
  case case19 =>
    intro groups parents emb p' r heq hr
    rw [eqnD_outMapNil] at heq
    cases heq
    exact ⟨le_refl _, fun _ => rfl⟩
  case case20 =>
    intro groups parents emb k0 v0 r0 IH p' r heq hr
    rw [eqnD_outMapCons] at heq
    exact IH p' r heq hr
  case case21 =>
    intro v groups parents emb h1 h2 h3 h4 p' r heq hr
    rw [eqnD_other o groups parents emb h1 h2 h3 h4] at heq
    cases heq
    exact ⟨le_refl _, fun _ => rfl⟩
  case case22 =>
    intro groups parents emb dest p' r heq hr
    rw [eqnM_nil] at heq
    cases heq
    exact ⟨le_refl _, fun _ => rfl⟩
  case case23 =>
    intro groups parents emb dest k0 v0 r0 p3 e hm IHval p' r heq hr
    rw [eqnM_err o groups parents emb dest hm] at heq
    cases heq
    exact IHval p3 (.err e) hm (by simp)
  case case24 =>
    intro groups parents emb dest k0 v0 r0 p3 hm IHval p' r heq hr
    rw [eqnM_panic o groups parents emb dest hm] at heq
    cases heq
    exact absurd rfl hr
  case case25 =>
    intro groups parents emb dest k0 v0 r0 p3 d hm IHval IHrest p' r heq hr
    rw [eqnM_ok o groups parents emb dest hm] at heq
    have A := IHval p3 (.ok d) hm (by simp)
    have B := IHrest p' r heq hr
    constructor
    · exact le_trans A.1 B.1
    · intro hf
      have e1 := A.2 hf
      have e2 := B.2 (by rw [e1]; exact hf)
      exact e2.trans e1
  case case26 =>
    intro groups parents emb p' r heq hr
    rw [eqnS_nil] at heq
    cases heq
    exact ⟨le_refl _, fun _ => rfl⟩
  case case27 =>
    intro groups parents emb v0 r0 p3 e hm IHval p' r heq hr
    rw [eqnS_err o groups parents emb hm] at heq
    cases heq
    exact IHval p3 (.err e) hm (by simp)
  case case28 =>
    intro groups parents emb v0 r0 p3 hm IHval p' r heq hr
    rw [eqnS_panic o groups parents emb hm] at heq
    cases heq
    exact absurd rfl hr
  case case29 =>
    intro groups parents emb v0 r0 p3 d hm p4 e hrest IHval IHrest p' r heq hr
    rw [eqnS_restErr o groups parents emb hm hrest] at heq
    cases heq
    have A := IHval p3 (.ok d) hm (by simp)
    have B := IHrest p4 (.err e) hrest (by simp)
    constructor
    · exact le_trans A.1 B.1
    · intro hf
      have e1 := A.2 hf
      have e2 := B.2 (by rw [e1]; exact hf)
      exact e2.trans e1
  case case30 =>
    intro groups parents emb v0 r0 p3 d hm p4 hrest IHval IHrest p' r heq hr
    rw [eqnS_restPanic o groups parents emb hm hrest] at heq
    cases heq
    exact absurd rfl hr
  case case31 =>
    intro groups parents emb v0 r0 p3 d hm p4 ds hrest IHval IHrest p' r heq hr
    rw [eqnS_restOk o groups parents emb hm hrest] at heq
    cases heq
    have A := IHval p3 (.ok d) hm (by simp)
    have B := IHrest p4 (.ok ds) hrest (by simp)
    constructor
    · exact le_trans A.1 B.1
    · intro hf
      have e1 := A.2 hf
      have e2 := B.2 (by rw [e1]; exact hf)
      exact e2.trans e1
  case case32 =>
    intro groups parents emb dest p' r heq hr
    rw [eqnF_nil] at heq
    cases heq
    exact ⟨le_refl _, fun _ => rfl⟩
  case case33 =>
    intro groups parents emb dest meta fval rest jt hdash IH p' r heq hr
    rw [eqnF_dash o fval rest groups parents emb dest hdash] at heq
    exact IH p' r heq hr
  case case34 =>
    intro groups parents emb dest meta fval rest jt h1 h2 IH p' r heq hr
    rw [eqnF_omitempty o rest groups parents emb dest h1 h2] at heq
    exact IH p' r heq hr
  case case35 =>
    intro groups parents emb dest meta fval rest jt h1 h2 h3 IH p' r heq hr
    rw [eqnF_unexported o rest groups parents emb dest h1
          (bool_eq_false h2) h3] at heq
    exact IH p' r heq hr
  case case36 =>
    intro groups parents emb dest meta fval rest jt h1 h2 h3 e hs p' r heq hr
    rw [eqnF_sinceErr o rest groups parents emb dest h1
          (bool_eq_false h2) (bool_eq_false h3) hs] at heq
    cases heq
    exact ⟨le_refl _, fun _ => rfl⟩
  case case37 =>
    intro groups parents emb dest meta fval rest jt h1 h2 h3 hs p' r heq hr
    rw [eqnF_sincePanic o rest groups parents emb dest h1
          (bool_eq_false h2) (bool_eq_false h3) hs] at heq
    cases heq
    exact absurd rfl hr
  case case38 =>
    intro groups parents emb dest meta fval rest jt h1 h2 h3 b1 hs e hu p' r heq hr
    rw [eqnF_untilErr o rest groups parents emb dest h1
          (bool_eq_false h2) (bool_eq_false h3) hs hu] at heq
    cases heq
    exact ⟨le_refl _, fun _ => rfl⟩
  case case39 =>
    intro groups parents emb dest meta fval rest jt h1 h2 h3 b1 hs hu p' r heq hr
    rw [eqnF_untilPanic o rest groups parents emb dest h1
          (bool_eq_false h2) (bool_eq_false h3) hs hu] at heq
    cases heq
    exact absurd rfl hr
  case case40 =>
    intro groups parents emb dest meta fval rest jt h1 h2 h3 val isEmb gN b1
      hs b2 hu doPush parents1 parents2 hm IHval p' r heq hr
    rw [eqnF_valPanic o rest groups parents emb dest h1
          (bool_eq_false h2) (bool_eq_false h3) hs hu hm] at heq
    cases heq
    exact absurd rfl hr
  case case41 =>
    intro groups parents emb dest meta fval rest jt h1 h2 h3 val isEmb gN b1
      hs b2 hu doPush parents1 parents2 e hm IHval p' r heq hr
    have hvc := bool_eq_false h3
    simp only [Bool.or_eq_false_iff, Bool.not_eq_false'] at hvc
    rw [marshalFields_step_err o meta fval rest groups parents emb dest
          b1 b2 parents2 e h1 (bool_eq_false h2) hvc.1 hvc.2 hs hu hm] at heq
    cases heq
    have A := IHval parents2 (.err e) hm (by simp)
    have hp1 : parents1 =
        (if o.InheritGroups || fieldIsEmbedded meta fval
         then parents.incrementGroups (fieldGroupNames o parents meta.groupsTag)
         else parents) := rfl
    constructor
    · have s1 : parents.size ≤ parents1.size := by
        rw [hp1]
        by_cases hd : (o.InheritGroups || fieldIsEmbedded meta fval) = true
        · rw [if_pos hd]
          exact groupSet.size_incrementGroups_le _ _
        · rw [if_neg hd]
      have s3 : parents2.size ≤
          (if o.InheritGroups || fieldIsEmbedded meta fval
           then parents2.decrementGroups
             (fieldGroupNames o parents meta.groupsTag)
           else parents2).size := by
        by_cases hd : (o.InheritGroups || fieldIsEmbedded meta fval) = true
        · rw [if_pos hd]
          exact groupSet.size_decrementGroups_le _ _
        · rw [if_neg hd]
      have s2 := A.1
      omega
    · intro hf
      have hgN : fieldGroupNames o parents meta.groupsTag = [] := by
        simp [fieldGroupNames, hf]
      have hp1e : parents1 = parents := by
        rw [hp1, hgN]
        by_cases hd : (o.InheritGroups || fieldIsEmbedded meta fval) = true
        · rw [if_pos hd]
          rfl
        · rw [if_neg hd]
      have h2e : parents2 = parents := by
        rw [A.2 (by rw [hp1e]; exact hf), hp1e]
      rw [hgN, h2e]
      by_cases hd : (o.InheritGroups || fieldIsEmbedded meta fval) = true
      · rw [if_pos hd]
        rfl
      · rw [if_neg hd]
  case case42 =>
    intro groups parents emb dest meta fval rest jt h1 h2 h3 val isEmb gN svis b1
      hs b2 hu doPush parents1 parents2 rv hm parents3 dest2 IHval IHrest p' r heq hr
    have hvc := bool_eq_false h3
    simp only [Bool.or_eq_false_iff, Bool.not_eq_false'] at hvc
    rw [marshalFields_step_ok o meta fval rest groups parents emb dest
          b1 b2 parents2 rv h1 (bool_eq_false h2) hvc.1 hvc.2 hs hu hm] at heq
    have A := IHval parents2 (.ok rv) hm (by simp)
    have B := IHrest p' r heq hr
    have hp1 : parents1 =
        (if o.InheritGroups || fieldIsEmbedded meta fval
         then parents.incrementGroups (fieldGroupNames o parents meta.groupsTag)
         else parents) := rfl
    have hp3 : parents3 =
        (if o.InheritGroups || fieldIsEmbedded meta fval
         then parents2.decrementGroups (fieldGroupNames o parents meta.groupsTag)
         else parents2) := rfl
    constructor
    · have s1 : parents.size ≤ parents1.size := by
        rw [hp1]
        by_cases hd : (o.InheritGroups || fieldIsEmbedded meta fval) = true
        · rw [if_pos hd]
          exact groupSet.size_incrementGroups_le _ _
        · rw [if_neg hd]
      have s3 : parents2.size ≤ parents3.size := by
        rw [hp3]
        by_cases hd : (o.InheritGroups || fieldIsEmbedded meta fval) = true
        · rw [if_pos hd]
          exact groupSet.size_decrementGroups_le _ _
        · rw [if_neg hd]
      have s2 := A.1
      have s4 := B.1
      omega
    · intro hf
      have hgN : fieldGroupNames o parents meta.groupsTag = [] := by
        simp [fieldGroupNames, hf]
      have hp1e : parents1 = parents := by
        rw [hp1, hgN]
        by_cases hd : (o.InheritGroups || fieldIsEmbedded meta fval) = true
        · rw [if_pos hd]
          rfl
        · rw [if_neg hd]
      have h2e : parents2 = parents := by
        rw [A.2 (by rw [hp1e]; exact hf), hp1e]
      have h3e : parents3 = parents := by
        rw [hp3, hgN, h2e]
        by_cases hd : (o.InheritGroups || fieldIsEmbedded meta fval) = true
        · rw [if_pos hd]
          rfl
        · rw [if_neg hd]
      have e2 := B.2 (by rw [h3e]; exact hf)
      exact e2.trans h3e

/-- The `checkGroups` policy outcome is unchanged by any state transformation
that keeps all keys and is the identity when the policy was off. -/
theorem checkGroupsFlag_mono {o : Options} {pin pout : groupSet}
    (hsz : pin.size ≤ pout.size)
    (hunch : checkGroupsFlag o pin = false → pout = pin) :
    checkGroupsFlag o pout = checkGroupsFlag o pin := by
  cases hf : checkGroupsFlag o pin
  · rw [hunch hf]
    exact hf
  · have hh := (checkGroupsFlag_iff o pin).mp hf
    rw [checkGroupsFlag_iff]
    rcases hh with h | ⟨hig, hpos⟩ | h
    · exact Or.inl h
    · exact Or.inr (Or.inl ⟨hig, lt_of_lt_of_le hpos hsz⟩)
    · exact Or.inr (Or.inr h)

/-- After a non-panicking `marshalValue` run the final state is
indistinguishable from the initial one: same counts (balance) and the same
policy outcome. -/
theorem StateRel_after_value (o : Options) {v : Value}
    {groups p p2 : groupSet} {emb : Bool} {r : Res}
    (h : marshalValue o v groups p emb = (p2, r)) (hr : r ≠ .panic) :
    StateRel o p2 p := by
  have hb := (balance_all o).2.1 v groups p emb p2 r h hr
  have hm := (mono_all o).2.1 v groups p emb p2 r h hr
  exact ⟨hb, checkGroupsFlag_mono hm.1 hm.2⟩

/-! ### Outcome-relation toolkit -/

theorem Res.isAbnormal_err (e : Err) : (Res.err e).isAbnormal := trivial

theorem Res.isAbnormal_panic : Res.panic.isAbnormal := trivial

theorem CallRel_abn {o : Options} {p1 p2 : groupSet} {r1 r2 : Res}
    (h1 : r1.isAbnormal) (h2 : r2.isAbnormal) : CallRel o (p1, r1) (p2, r2) :=
  Or.inr ⟨h1, h2⟩

theorem CallRel_ok {o : Options} {p1 p2 : groupSet} {v1 v2 : Value}
    (hv : VEqv v1 v2) (hst : StateRel o p1 p2) :
    CallRel o (p1, .ok v1) (p2, .ok v2) :=
  Or.inl ⟨v1, v2, rfl, rfl, hv, hst⟩

theorem CallRel_ok_ok {o : Options} {q1 q2 : groupSet} {d1 : Value} {r2 : Res}
    (h : CallRel o (q1, .ok d1) (q2, r2)) :
    ∃ d2, r2 = .ok d2 ∧ VEqv d1 d2 ∧ StateRel o q1 q2 := by
  rcases h with ⟨w1, w2, hw1, hw2, hvv, hst⟩ | ⟨ha, hb⟩
  · simp at hw1
    subst hw1
    exact ⟨w2, hw2, hvv, hst⟩
  · exact absurd ha (by simp [Res.isAbnormal])

theorem CallRel_abn_right {o : Options} {a b : groupSet × Res}
    (h : CallRel o a b) (ha : a.2.isAbnormal) : b.2.isAbnormal := by
  rcases h with ⟨w1, w2, hw1, hw2, hvv, hst⟩ | ⟨_, hb⟩
  · rw [hw1] at ha
    exact absurd ha (by simp [Res.isAbnormal])
  · exact hb

theorem CallRel_abn_left {o : Options} {a b : groupSet × Res}
    (h : CallRel o a b) (hb : b.2.isAbnormal) : a.2.isAbnormal := by
  rcases h with ⟨w1, w2, hw1, hw2, hvv, hst⟩ | ⟨ha, _⟩
  · rw [hw2] at hb
    exact absurd hb (by simp [Res.isAbnormal])
  · exact ha

theorem CallRel_symm {o : Options} {a b : groupSet × Res}
    (h : CallRel o a b) : CallRel o b a := by
  rcases h with ⟨w1, w2, hw1, hw2, hvv, hst⟩ | ⟨ha, hb⟩
  · exact Or.inl ⟨w2, w1, hw2, hw1, VEqv_symm hvv, StateRel_symm hst⟩
  · exact Or.inr ⟨hb, ha⟩

theorem CallRel_trans {o : Options} {a b c : groupSet × Res}
    (h1 : CallRel o a b) (h2 : CallRel o b c) : CallRel o a c := by
  rcases h1 with ⟨w1, w2, hw1, hw2, hvv, hst⟩ | ⟨ha, hb⟩
  · rcases h2 with ⟨u2, u3, hu2, hu3, hvv2, hst2⟩ | ⟨hb2, hc⟩
    · rw [hw2] at hu2
      simp at hu2
      subst hu2
      exact Or.inl ⟨w1, u3, hw1, hu3, VEqv_trans hvv hvv2, StateRel_trans hst hst2⟩
    · rw [hw2] at hb2
      exact absurd hb2 (by simp [Res.isAbnormal])
  · rcases h2 with ⟨u2, u3, hu2, hu3, hvv2, hst2⟩ | ⟨hb2, hc⟩
    · rw [hu2] at hb
      exact absurd hb (by simp [Res.isAbnormal])
    · exact Or.inr ⟨ha, hc⟩

theorem CallRel_self_ok {o : Options} {q : groupSet} {d : Value}
    (h : CallRel o (q, .ok d) (q, .ok d)) : VEqv d d := by
  obtain ⟨d2, hd2, hvv, _⟩ := CallRel_ok_ok h
  simp at hd2
  rw [← hd2] at hvv
  exact hvv

/-- Composing the map loop from a related head step and a related
continuation. -/
theorem congM_compose (o : Options) {k1 k2 : String} {v1 v2 : Value}
    {t1 t2 : Entries} {groups p1 p2 : groupSet} {emb : Bool}
    {dest1 dest2 : Entries}
    (hval : CallRel o (marshalValue o v1 groups p1 emb)
      (marshalValue o v2 groups p2 emb))
    (hcont : ∀ q1 q2 d1 d2,
      marshalValue o v1 groups p1 emb = (q1, .ok d1) →
      marshalValue o v2 groups p2 emb = (q2, .ok d2) →
      CallRel o (marshalMap o t1 groups q1 emb (entInsert dest1 k1 d1))
        (marshalMap o t2 groups q2 emb (entInsert dest2 k2 d2))) :
    CallRel o (marshalMap o (.cons k1 v1 t1) groups p1 emb dest1)
      (marshalMap o (.cons k2 v2 t2) groups p2 emb dest2) := by
  cases hrun1 : marshalValue o v1 groups p1 emb with
  | mk q1 r1 =>
  cases hrun2 : marshalValue o v2 groups p2 emb with
  | mk q2 r2 =>
  rw [hrun1, hrun2] at hval
  cases r1 with
  | ok d1 =>
    obtain ⟨d2, hd2, hvv, hst⟩ := CallRel_ok_ok hval
    subst hd2
    rw [eqnM_ok o groups p1 emb dest1 hrun1, eqnM_ok o groups p2 emb dest2 hrun2]
    exact hcont q1 q2 d1 d2 hrun1 hrun2
  | err e =>
    have hb : r2.isAbnormal :=
      CallRel_abn_right hval (by simp [Res.isAbnormal])
    rw [eqnM_err o groups p1 emb dest1 hrun1]
    cases r2 with
    | ok d2 => exact absurd hb (by simp [Res.isAbnormal])
    | err e2 =>
      rw [eqnM_err o groups p2 emb dest2 hrun2]
      exact CallRel_abn trivial trivial
    | panic =>
      rw [eqnM_panic o groups p2 emb dest2 hrun2]
      exact CallRel_abn trivial trivial
  | panic =>
    have hb : r2.isAbnormal :=
      CallRel_abn_right hval (by simp [Res.isAbnormal])
    rw [eqnM_panic o groups p1 emb dest1 hrun1]
    cases r2 with
    | ok d2 => exact absurd hb (by simp [Res.isAbnormal])
    | err e2 =>
      rw [eqnM_err o groups p2 emb dest2 hrun2]
      exact CallRel_abn trivial trivial
    | panic =>
      rw [eqnM_panic o groups p2 emb dest2 hrun2]
      exact CallRel_abn trivial trivial

theorem StateRel_push {o : Options} {p1 p2 : groupSet} (hst : StateRel o p1 p2)
    (c : Bool) (tag : String) :
    StateRel o
      (if c then p1.incrementGroups (fieldGroupNames o p1 tag) else p1)
      (if c then p2.incrementGroups (fieldGroupNames o p2 tag) else p2) := by
  cases c with
  | false => simpa using hst
  | true =>
    simp only [if_pos]
    rw [fieldGroupNames_congr hst tag]
    exact StateRel_incrementGroups hst _

theorem StateRel_pop {o : Options} {q1 q2 p1 p2 : groupSet}
    (hst : StateRel o q1 q2) (hst0 : StateRel o p1 p2) (c : Bool)
    (tag : String) :
    StateRel o
      (if c then q1.decrementGroups (fieldGroupNames o p1 tag) else q1)
      (if c then q2.decrementGroups (fieldGroupNames o p2 tag) else q2) := by
  cases c with
  | false => simpa using hst
  | true =>
    simp only [if_pos]
    rw [fieldGroupNames_congr hst0 tag]
    exact StateRel_decrementGroups hst _

/-! ### The two-run congruence, function by function -/

theorem congO_step (o : Options) (n : Nat) (IH : ∀ m, m < n → CongAll o m) :
    CongO o n := by
  intro d1 d2 groups p1 p2 emb hm hv hst
  by_cases hnil : d1 = .vNil
  · have hnil2 : d2 = .vNil := (VEqv_vNil_iff hv).mp hnil
    subst hnil
    subst hnil2
    rw [eqnO_nil, eqnO_nil]
    exact CallRel_abn trivial trivial
  · have hnil2 : d2 ≠ .vNil := fun hh => hnil ((VEqv_vNil_iff hv).mpr hh)
    have hder : VEqv (deref1 d1) (deref1 d2) := VEqv_deref1 hv
    cases hsf : structFieldsOf (deref1 d1) with
    | some fs1 =>
      obtain ⟨fs2, hsf2, hfe⟩ := VEqv_structFieldsOf_some hder hsf
      rw [eqnO_struct o groups p1 emb hnil hsf,
          eqnO_struct o groups p2 emb hnil2 hsf2]
      have hlt : measF fs1 < n := by
        simp only [measO, hsf] at hm
        have h1 := structFieldsOf_size hsf
        have h2 := sizeV_deref1_le d1
        simp only [measF]
        omega
      exact (IH (measF fs1) hlt).2.2.2.2.2 fs1 fs2 groups p1 p2 emb .nil .nil
        (le_refl _) hfe hst EntRel_nil
    | none =>
      have hsf2 := VEqv_structFieldsOf_none hder hsf
      rw [eqnO_nonstruct o groups p1 emb hnil hsf,
          eqnO_nonstruct o groups p2 emb hnil2 hsf2]
      have hlt : measV (deref1 d1) < n := by
        simp only [measO, hsf] at hm
        have h2 := sizeV_deref1_le d1
        simp only [measV]
        omega
      exact (IH (measV (deref1 d1)) hlt).2.1 (deref1 d1) (deref1 d2) groups
        p1 p2 false (le_refl _) hder hst

theorem congV_step (o : Options) (n : Nat) (IH : ∀ m, m < n → CongAll o m) :
    CongV o n := by
  intro v1 v2 groups p1 p2 emb hm hv hst
  cases v1 <;> cases v2 <;> first | (simp only [VEqv] at hv; done) | skip
  case vNil.vNil =>
    rw [eqnV_nil, eqnV_nil]
    exact CallRel_ok (by simp [VEqv]) hst
  case vScalar.vScalar s1 s2 =>
    have hs : s1 = s2 := by simpa [VEqv] using hv
    subst hs
    rw [eqnV_scalar, eqnV_scalar]
    have hlt : measD (.vScalar s1) < n := by
      simp only [measV] at hm
      simp only [measD]
      omega
    exact (IH _ hlt).2.2.1 _ _ groups p1 p2 emb (le_refl _) hv hst
  case vSelfDescribing.vSelfDescribing s1 s2 =>
    have hs : s1 = s2 := by simpa [VEqv] using hv
    subst hs
    rw [eqnV_selfDesc, eqnV_selfDesc]
    exact CallRel_ok (by simp [VEqv]) hst
  case vMarshaller.vMarshaller e1 m1 r1 e2 m2 r2 =>
    have hh : e1 = e2 ∧ m1 = m2 ∧ VEqv r1 r2 := by simpa [VEqv] using hv
    obtain ⟨he, hmm, hr⟩ := hh
    subst he
    subst hmm
    rw [eqnV_marshaller, eqnV_marshaller]
    cases e1 with
    | true => exact CallRel_abn (by simp [Res.isAbnormal]) (by simp [Res.isAbnormal])
    | false => exact CallRel_ok hr hst
  case vPtr.vPtr i1 i2 =>
    have hi : VEqv i1 i2 := by simpa [VEqv] using hv
    by_cases hn1 : i1 = .vNil
    · have hn2 : i2 = .vNil := (VEqv_vNil_iff hi).mp hn1
      subst hn1
      subst hn2
      rw [eqnV_ptrNil, eqnV_ptrNil]
      exact CallRel_abn trivial trivial
    · have hn2 : i2 ≠ .vNil := fun hh => hn1 ((VEqv_vNil_iff hi).mpr hh)
      rw [eqnV_ptr o groups p1 emb hn1, eqnV_ptr o groups p2 emb hn2]
      have hlt : measD i1 < n := by
        simp only [measV, sizeV] at hm
        simp only [measD]
        omega
      exact (IH _ hlt).2.2.1 i1 i2 groups p1 p2 emb (le_refl _) hi hst
  case vStruct.vStruct fs1 fs2 =>
    rw [eqnV_struct, eqnV_struct]
    have hlt : measD (.vStruct fs1) < n := by
      simp only [measV] at hm
      simp only [measD]
      omega
    exact (IH _ hlt).2.2.1 _ _ groups p1 p2 emb (le_refl _) hv hst
  case vSlice.vSlice es1 es2 =>
    rw [eqnV_slice, eqnV_slice]
    have hlt : measD (.vSlice es1) < n := by
      simp only [measV] at hm
      simp only [measD]
      omega
    exact (IH _ hlt).2.2.1 _ _ groups p1 p2 emb (le_refl _) hv hst
  case vMap.vMap kk1 es1 kk2 es2 =>
    rw [eqnV_map, eqnV_map]
    have hlt : measD (.vMap kk1 es1) < n := by
      simp only [measV] at hm
      simp only [measD]
      omega
    exact (IH _ hlt).2.2.1 _ _ groups p1 p2 emb (le_refl _) hv hst
  case vOutMap.vOutMap es1 es2 =>
    rw [eqnV_outMap, eqnV_outMap]
    have hlt : measD (.vOutMap es1) < n := by
      simp only [measV] at hm
      simp only [measD]
      omega
    exact (IH _ hlt).2.2.1 _ _ groups p1 p2 emb (le_refl _) hv hst

theorem congD_step (o : Options) (n : Nat) (IH : ∀ m, m < n → CongAll o m)
    (hM : CongM o n) :
    CongD o n := by
  intro v1 v2 groups p1 p2 emb hm hv hst
  cases v1 <;> cases v2 <;> first | (simp only [VEqv] at hv; done) | skip
  case vNil.vNil =>
    rw [eqnD_other o groups p1 emb (by simp) (by simp) (by simp) (by simp),
        eqnD_other o groups p2 emb (by simp) (by simp) (by simp) (by simp)]
    exact CallRel_ok hv hst
  case vScalar.vScalar s1 s2 =>
    rw [eqnD_other o groups p1 emb (by simp) (by simp) (by simp) (by simp),
        eqnD_other o groups p2 emb (by simp) (by simp) (by simp) (by simp)]
    exact CallRel_ok hv hst
  case vSelfDescribing.vSelfDescribing s1 s2 =>
    rw [eqnD_other o groups p1 emb (by simp) (by simp) (by simp) (by simp),
        eqnD_other o groups p2 emb (by simp) (by simp) (by simp) (by simp)]
    exact CallRel_ok hv hst
  case vMarshaller.vMarshaller e1 m1 r1 e2 m2 r2 =>
    rw [eqnD_other o groups p1 emb (by simp) (by simp) (by simp) (by simp),
        eqnD_other o groups p2 emb (by simp) (by simp) (by simp) (by simp)]
    exact CallRel_ok hv hst
  case vPtr.vPtr i1 i2 =>
    rw [eqnD_other o groups p1 emb (by simp) (by simp) (by simp) (by simp),
        eqnD_other o groups p2 emb (by simp) (by simp) (by simp) (by simp)]
    exact CallRel_ok hv hst
  case vStruct.vStruct fs1 fs2 =>
    rw [eqnD_struct, eqnD_struct]
    have hlt : measO (.vStruct fs1) < n := by
      simp only [measD] at hm
      simp only [measO, deref1, structFieldsOf]
      omega
    exact (IH _ hlt).1 _ _ groups p1 p2 emb (le_refl _) hv hst
  case vSlice.vSlice es1 es2 =>
    rw [eqnD_slice, eqnD_slice]
    have hvs : VsEqv es1 es2 := by simpa [VEqv] using hv
    have hlt : measS es1 < n := by
      simp only [measD, sizeV] at hm
      simp only [measS]
      omega
    exact (IH _ hlt).2.2.2.2.1 es1 es2 groups p1 p2 emb (le_refl _) hvs hst
  case vMap.vMap kk1 es1 kk2 es2 =>
    have hh : kk1 = kk2 ∧ entKeysNodup es1 = true ∧ entKeysNodup es2 = true ∧
        (∀ k, entHasKey es1 k = entHasKey es2 k) ∧
        (∀ k v v2, entLookup es1 k = some v → entLookup es2 k = some v2 →
          VEqv v v2) := by simpa [VEqv] using hv
    obtain ⟨hkk, n1, n2, hk, hlkp⟩ := hh
    subst hkk
    have her : EntRel es1 es2 := ⟨n1, n2, hk, hlkp⟩
    cases es1 with
    | nil =>
      have : es2 = .nil := entNil_of_noKeys es2 (fun k => (hk k).symm)
      subst this
      rw [eqnD_mapNil, eqnD_mapNil]
      exact CallRel_ok (by simp [VEqv]) hst
    | cons ka va ta =>
      cases es2 with
      | nil =>
        have := hk ka
        simp [entHasKey] at this
      | cons kb vb tb =>
        by_cases hks : kk1 = .kString
        · subst hks
          rw [eqnD_mapGood, eqnD_mapGood]
          have hle : measM (.cons ka va ta) ≤ n := by
            simp only [measD, sizeV] at hm
            simp only [measM]
            omega
          exact hM (.cons ka va ta) (.cons kb vb tb) groups p1 p2 emb .nil .nil
            hle her hst EntRel_nil
        · rw [eqnD_mapBadKey o groups p1 emb ka va ta hks,
              eqnD_mapBadKey o groups p2 emb kb vb tb hks]
          exact CallRel_abn trivial trivial
  case vOutMap.vOutMap es1 es2 =>
    have hh : entKeysNodup es1 = true ∧ entKeysNodup es2 = true ∧
        (∀ k, entHasKey es1 k = entHasKey es2 k) ∧
        (∀ k v v2, entLookup es1 k = some v → entLookup es2 k = some v2 →
          VEqv v v2) := by simpa [VEqv] using hv
    obtain ⟨n1, n2, hk, hlkp⟩ := hh
    have her : EntRel es1 es2 := ⟨n1, n2, hk, hlkp⟩
    cases es1 with
    | nil =>
      have : es2 = .nil := entNil_of_noKeys es2 (fun k => (hk k).symm)
      subst this
      rw [eqnD_outMapNil, eqnD_outMapNil]
      exact CallRel_ok (by simp [VEqv]) hst
    | cons ka va ta =>
      cases es2 with
      | nil =>
        have := hk ka
        simp [entHasKey] at this
      | cons kb vb tb =>
        rw [eqnD_outMapCons, eqnD_outMapCons]
        have hle : measM (.cons ka va ta) ≤ n := by
          simp only [measD, sizeV] at hm
          simp only [measM]
          omega
        exact hM (.cons ka va ta) (.cons kb vb tb) groups p1 p2 emb .nil .nil
          hle her hst EntRel_nil

theorem congS_step (o : Options) (n : Nat) (IH : ∀ m, m < n → CongAll o m) :
    CongS o n := by
  intro vs1 vs2 groups p1 p2 emb hm hv hst
  cases vs1 <;> cases vs2 <;> first | (simp only [VsEqv] at hv; done) | skip
  case nil.nil =>
    rw [eqnS_nil, eqnS_nil]
    exact CallRel_ok (by simp [VEqv, VsEqv]) hst
  case cons.cons v1 t1 v2 t2 =>
    have hh : VEqv v1 v2 ∧ VsEqv t1 t2 := by simpa [VsEqv] using hv
    obtain ⟨hv12, ht12⟩ := hh
    have hltV : measV v1 < n := by
      simp only [measS, sizeVs] at hm
      simp only [measV]
      omega
    have hval : CallRel o (marshalValue o v1 groups p1 emb)
        (marshalValue o v2 groups p2 emb) :=
      (IH _ hltV).2.1 v1 v2 groups p1 p2 emb (le_refl _) hv12 hst
    cases hrun1 : marshalValue o v1 groups p1 emb with
    | mk q1 r1 =>
    cases hrun2 : marshalValue o v2 groups p2 emb with
    | mk q2 r2 =>
    rw [hrun1, hrun2] at hval
    cases r1 with
    | ok d1 =>
      obtain ⟨d2, hd2, hvv, hstq⟩ := CallRel_ok_ok hval
      subst hd2
      have hltS : measS t1 < n := by
        simp only [measS, sizeVs] at hm ⊢
        have := sizeV_pos v1
        omega
      have hrest : CallRel o (marshalSlice o t1 groups q1 emb)
          (marshalSlice o t2 groups q2 emb) :=
        (IH _ hltS).2.2.2.2.1 t1 t2 groups q1 q2 emb (le_refl _) ht12 hstq
      cases hrrun1 : marshalSlice o t1 groups q1 emb with
      | mk s1 u1 =>
      cases hrrun2 : marshalSlice o t2 groups q2 emb with
      | mk s2 u2 =>
      rw [hrrun1, hrrun2] at hrest
      cases u1 with
      | ok ds1 =>
        obtain ⟨ds2, hds2, hdvv, hsts⟩ := CallRel_ok_ok hrest
        subst hds2
        rw [eqnS_restOk o groups p1 emb hrun1 hrrun1,
            eqnS_restOk o groups p2 emb hrun2 hrrun2]
        exact CallRel_ok (VEqv_slicePrepend hvv hdvv) hsts
      | err e1 =>
        have hb : u2.isAbnormal := CallRel_abn_right hrest trivial
        rw [eqnS_restErr o groups p1 emb hrun1 hrrun1]
        cases u2 with
        | ok _ => exact absurd hb (by simp [Res.isAbnormal])
        | err e2 =>
          rw [eqnS_restErr o groups p2 emb hrun2 hrrun2]
          exact CallRel_abn trivial trivial
        | panic =>
          rw [eqnS_restPanic o groups p2 emb hrun2 hrrun2]
          exact CallRel_abn trivial trivial
      | panic =>
        have hb : u2.isAbnormal := CallRel_abn_right hrest trivial
        rw [eqnS_restPanic o groups p1 emb hrun1 hrrun1]
        cases u2 with
        | ok _ => exact absurd hb (by simp [Res.isAbnormal])
        | err e2 =>
          rw [eqnS_restErr o groups p2 emb hrun2 hrrun2]
          exact CallRel_abn trivial trivial
        | panic =>
          rw [eqnS_restPanic o groups p2 emb hrun2 hrrun2]
          exact CallRel_abn trivial trivial
    | err e1 =>
      have hb : r2.isAbnormal := CallRel_abn_right hval trivial
      rw [eqnS_err o groups p1 emb hrun1]
      cases r2 with
      | ok _ => exact absurd hb (by simp [Res.isAbnormal])
      | err e2 =>
        rw [eqnS_err o groups p2 emb hrun2]
        exact CallRel_abn trivial trivial
      | panic =>
        rw [eqnS_panic o groups p2 emb hrun2]
        exact CallRel_abn trivial trivial
    | panic =>
      have hb : r2.isAbnormal := CallRel_abn_right hval trivial
      rw [eqnS_panic o groups p1 emb hrun1]
      cases r2 with
      | ok _ => exact absurd hb (by simp [Res.isAbnormal])
      | err e2 =>
        rw [eqnS_err o groups p2 emb hrun2]
        exact CallRel_abn trivial trivial
      | panic =>
        rw [eqnS_panic o groups p2 emb hrun2]
        exact CallRel_abn trivial trivial

/-! ### Reordering the map loop: adjacent swap and move-to-front -/

theorem sw_step (o : Options) (n : Nat) (IH : ∀ m, m < n → CongAll o m) :
    SWprop o n := by
  intro k1 k2 v1 v2 t groups p emb dest hm hne hv1 hv2 ht hdest
  have hmV1 : measV v1 < n := by
    simp only [measM, sizeE, measV] at hm ⊢
    have := sizeV_pos v2
    omega
  have hmV2 : measV v2 < n := by
    simp only [measM, sizeE, measV] at hm ⊢
    have := sizeV_pos v1
    omega
  cases hrun1 : marshalValue o v1 groups p emb with
  | mk a1 r1 =>
  cases hrun2 : marshalValue o v2 groups p emb with
  | mk b1 s1 =>
  cases r1 with
  | ok d1A =>
    rw [eqnM_ok o groups p emb dest hrun1]
    have hsta1 : StateRel o a1 p := StateRel_after_value o hrun1 (by simp)
    have hy : CallRel o (marshalValue o v2 groups a1 emb)
        (marshalValue o v2 groups p emb) :=
      (IH _ hmV2).2.1 v2 v2 groups a1 p emb (le_refl _) hv2 hsta1
    cases hrun2a : marshalValue o v2 groups a1 emb with
    | mk a2 r2 =>
    rw [hrun2a, hrun2] at hy
    cases s1 with
    | ok d2B =>
      rw [eqnM_ok o groups p emb dest hrun2]
      obtain ⟨d2A, hr2, hv2BA, hst_b1a2⟩ := CallRel_ok_ok (CallRel_symm hy)
      subst hr2
      rw [eqnM_ok o groups a1 emb (entInsert dest k1 d1A) hrun2a]
      have hstb1 : StateRel o b1 p := StateRel_after_value o hrun2 (by simp)
      have hx : CallRel o (marshalValue o v1 groups p emb)
          (marshalValue o v1 groups b1 emb) :=
        (IH _ hmV1).2.1 v1 v1 groups p b1 emb (le_refl _) hv1
          (StateRel_symm hstb1)
      cases hrun1b : marshalValue o v1 groups b1 emb with
      | mk b2 r1b =>
      rw [hrun1, hrun1b] at hx
      obtain ⟨d1B, hr1b, hv1AB, hst_a1b2⟩ := CallRel_ok_ok hx
      subst hr1b
      rw [eqnM_ok o groups b1 emb (entInsert dest k2 d2B) hrun1b]
      have hsta2 : StateRel o a2 a1 := StateRel_after_value o hrun2a (by simp)
      have hstb2 : StateRel o b2 b1 := StateRel_after_value o hrun1b (by simp)
      have hstab : StateRel o a2 b2 :=
        StateRel_trans (StateRel_trans hsta2 hsta1)
          (StateRel_symm (StateRel_trans hstb2 hstb1))
      have hdd : EntRel (entInsert (entInsert dest k1 d1A) k2 d2A)
          (entInsert (entInsert dest k2 d2B) k1 d1B) :=
        EntRel_insert_swap hne hdest hv1AB (VEqv_symm hv2BA)
      have hmT : measM t < n := by
        simp only [measM, sizeE] at hm ⊢
        have := sizeV_pos v1
        have := sizeV_pos v2
        omega
      exact (IH _ hmT).2.2.2.1 t t groups a2 b2 emb _ _ (le_refl _) ht hstab hdd
    | err e2 =>
      rw [eqnM_err o groups p emb dest hrun2]
      have hr2 : r2.isAbnormal := CallRel_abn_left hy trivial
      cases r2 with
      | ok _ => exact absurd hr2 (by simp [Res.isAbnormal])
      | err e2' =>
        rw [eqnM_err o groups a1 emb (entInsert dest k1 d1A) hrun2a]
        exact CallRel_abn trivial trivial
      | panic =>
        rw [eqnM_panic o groups a1 emb (entInsert dest k1 d1A) hrun2a]
        exact CallRel_abn trivial trivial
    | panic =>
      rw [eqnM_panic o groups p emb dest hrun2]
      have hr2 : r2.isAbnormal := CallRel_abn_left hy trivial
      cases r2 with
      | ok _ => exact absurd hr2 (by simp [Res.isAbnormal])
      | err e2' =>
        rw [eqnM_err o groups a1 emb (entInsert dest k1 d1A) hrun2a]
        exact CallRel_abn trivial trivial
      | panic =>
        rw [eqnM_panic o groups a1 emb (entInsert dest k1 d1A) hrun2a]
        exact CallRel_abn trivial trivial
  | err e1 =>
    rw [eqnM_err o groups p emb dest hrun1]
    cases s1 with
    | ok d2B =>
      rw [eqnM_ok o groups p emb dest hrun2]
      have hstb1 : StateRel o b1 p := StateRel_after_value o hrun2 (by simp)
      have hx : CallRel o (marshalValue o v1 groups b1 emb)
          (marshalValue o v1 groups p emb) :=
        (IH _ hmV1).2.1 v1 v1 groups b1 p emb (le_refl _) hv1 hstb1
      cases hrun1b : marshalValue o v1 groups b1 emb with
      | mk b2 r1b =>
      rw [hrun1b, hrun1] at hx
      have hab : r1b.isAbnormal := CallRel_abn_left hx trivial
      cases r1b with
      | ok _ => exact absurd hab (by simp [Res.isAbnormal])
      | err e1' =>
        rw [eqnM_err o groups b1 emb (entInsert dest k2 d2B) hrun1b]
        exact CallRel_abn trivial trivial
      | panic =>
        rw [eqnM_panic o groups b1 emb (entInsert dest k2 d2B) hrun1b]
        exact CallRel_abn trivial trivial
    | err e2 =>
      rw [eqnM_err o groups p emb dest hrun2]
      exact CallRel_abn trivial trivial
    | panic =>
      rw [eqnM_panic o groups p emb dest hrun2]
      exact CallRel_abn trivial trivial
  | panic =>
    rw [eqnM_panic o groups p emb dest hrun1]
    cases s1 with
    | ok d2B =>
      rw [eqnM_ok o groups p emb dest hrun2]
      have hstb1 : StateRel o b1 p := StateRel_after_value o hrun2 (by simp)
      have hx : CallRel o (marshalValue o v1 groups b1 emb)
          (marshalValue o v1 groups p emb) :=
        (IH _ hmV1).2.1 v1 v1 groups b1 p emb (le_refl _) hv1 hstb1
      cases hrun1b : marshalValue o v1 groups b1 emb with
      | mk b2 r1b =>
      rw [hrun1b, hrun1] at hx
      have hab : r1b.isAbnormal := CallRel_abn_left hx trivial
      cases r1b with
      | ok _ => exact absurd hab (by simp [Res.isAbnormal])
      | err e1' =>
        rw [eqnM_err o groups b1 emb (entInsert dest k2 d2B) hrun1b]
        exact CallRel_abn trivial trivial
      | panic =>
        rw [eqnM_panic o groups b1 emb (entInsert dest k2 d2B) hrun1b]
        exact CallRel_abn trivial trivial
    | err e2 =>
      rw [eqnM_err o groups p emb dest hrun2]
      exact CallRel_abn trivial trivial
    | panic =>
      rw [eqnM_panic o groups p emb dest hrun2]
      exact CallRel_abn trivial trivial

theorem mf_step (o : Options) (n : Nat) (IH : ∀ m, m < n → CongAll o m)
    (hSW : SWprop o n) : MFprop o n := by
  intro bs
  induction bs using entriesInd with
  | hnil =>
    intro k v' groups p emb dest hm hbs hdest hlk
    simp [entLookup] at hlk
  | hcons k0 v0 t ihb =>
    intro k v' groups p emb dest hm hbs hdest hlk
    have htt : EntRel t t := EntRel_tail_self hbs
    have hv0 : VEqv v0 v0 :=
      EntRel_cons_self_lookup hbs (entLookup_head k0 v0 t)
    have hmv0 : measV v0 < n := by
      simp only [measM, sizeE, measV] at hm ⊢
      omega
    have hval : CallRel o (marshalValue o v0 groups p emb)
        (marshalValue o v0 groups p emb) :=
      (IH _ hmv0).2.1 v0 v0 groups p p emb (le_refl _) hv0 (StateRel_refl o p)
    by_cases hk0 : k0 = k
    · subst hk0
      have hv' : v0 = v' := by simpa [entLookup] using hlk
      subst hv'
      have herase : entErase (.cons k0 v0 t) k0 = t := by simp [entErase]
      rw [herase]
      apply congM_compose o hval
      intro q1 q2 d1 d2 he1 he2
      rw [he1] at he2
      simp at he2
      obtain ⟨hq12, hd12⟩ := he2
      subst hq12
      subst hd12
      have hvd : VEqv d1 d1 := by
        rw [he1] at hval
        exact CallRel_self_ok hval
      have hid : EntRel (entInsert dest k0 d1) (entInsert dest k0 d1) :=
        EntRel_entInsert k0 hdest hvd
      have hmT : measM t < n := by
        simp only [measM, sizeE] at hm ⊢
        have := sizeV_pos v0
        omega
      exact (IH _ hmT).2.2.2.1 t t groups q1 q1 emb _ _ (le_refl _) htt
        (StateRel_refl o q1) hid
    · have hlkt : entLookup t k = some v' := by
        simpa [entLookup, hk0] using hlk
      have herase : entErase (.cons k0 v0 t) k = .cons k0 v0 (entErase t k) := by
        simp [entErase, hk0]
      rw [herase]
      have het : EntRel (entErase t k) (entErase t k) :=
        EntRel_entErase_self k htt
      have hv'' : VEqv v' v' := EntRel_cons_self_lookup hbs hlk
      have hsz : sizeE t = sizeV v' + sizeE (entErase t k) + 1 :=
        sizeE_entErase t k v' hlkt
      have leg1 : CallRel o
          (marshalMap o (.cons k0 v0 t) groups p emb dest)
          (marshalMap o (.cons k0 v0 (.cons k v' (entErase t k))) groups p emb
            dest) := by
        apply congM_compose o hval
        intro q1 q2 d1 d2 he1 he2
        rw [he1] at he2
        simp at he2
        obtain ⟨hq12, hd12⟩ := he2
        subst hq12
        subst hd12
        have hvd : VEqv d1 d1 := by
          rw [he1] at hval
          exact CallRel_self_ok hval
        have hid : EntRel (entInsert dest k0 d1) (entInsert dest k0 d1) :=
          EntRel_entInsert k0 hdest hvd
        have hmT : measM t ≤ n := by
          simp only [measM, sizeE] at hm ⊢
          omega
        exact ihb k v' groups q1 emb (entInsert dest k0 d1) hmT htt hid hlkt
      have leg2 : CallRel o
          (marshalMap o (.cons k0 v0 (.cons k v' (entErase t k))) groups p emb
            dest)
          (marshalMap o (.cons k v' (.cons k0 v0 (entErase t k))) groups p emb
            dest) := by
        refine hSW k0 k v0 v' (entErase t k) groups p emb dest ?_ hk0 hv0 hv''
          het hdest
        simp only [measM, sizeE] at hm ⊢
        omega
      exact CallRel_trans leg1 leg2

/-! ### The map-loop and field-loop congruences -/

theorem congM_main (o : Options) (n : Nat) (IH : ∀ m, m < n → CongAll o m)
    (hMF : MFprop o n) : CongM o n := by
  intro es1 es2 groups p1 p2 emb dest1 dest2 hm her hst hdest
  cases es1 with
  | nil =>
    have hn2 : es2 = .nil := entNil_of_noKeys es2 (fun k => (her.2.2.1 k).symm)
    subst hn2
    rw [eqnM_nil, eqnM_nil]
    refine CallRel_ok ?_ hst
    simp only [VEqv]
    exact ⟨hdest.1, hdest.2.1, hdest.2.2.1, hdest.2.2.2⟩
  | cons k v rest =>
    have hbk : entHasKey es2 k = true := by
      rw [← her.2.2.1 k]
      simp [entHasKey]
    obtain ⟨v', hlk2⟩ := (entHasKey_iff_lookup es2 k).mp hbk
    have hvv' : VEqv v v' := her.2.2.2 k v v' (entLookup_head k v rest) hlk2
    have hbs2 : EntRel es2 es2 := EntRel_self_right her
    have hdest2 : EntRel dest2 dest2 := EntRel_self_right hdest
    have hszE : sizeE (Entries.cons k v rest) = sizeE es2 := EntRel_sizeE her
    have hmf : CallRel o (marshalMap o es2 groups p2 emb dest2)
        (marshalMap o (.cons k v' (entErase es2 k)) groups p2 emb dest2) := by
      refine hMF es2 k v' groups p2 emb dest2 ?_ hbs2 hdest2 hlk2
      simp only [measM] at hm ⊢
      omega
    have hnd1 : entHasKey rest k = false ∧ entKeysNodup rest = true := by
      have hh := her.1
      simp [entKeysNodup] at hh
      exact hh
    have hmv : measV v < n := by
      simp only [measM, sizeE, measV] at hm ⊢
      omega
    have hheads : CallRel o (marshalValue o v groups p1 emb)
        (marshalValue o v' groups p2 emb) :=
      (IH _ hmv).2.1 v v' groups p1 p2 emb (le_refl _) hvv' hst
    have hdirect : CallRel o
        (marshalMap o (.cons k v rest) groups p1 emb dest1)
        (marshalMap o (.cons k v' (entErase es2 k)) groups p2 emb dest2) := by
      apply congM_compose o hheads
      intro q1 q2 d1 d2 he1 he2
      rw [he1, he2] at hheads
      obtain ⟨d2x, hd2x, hdd, hq⟩ := CallRel_ok_ok hheads
      simp at hd2x
      rw [← hd2x] at hdd
      have hrt : EntRel rest (entErase es2 k) := by
        refine ⟨hnd1.2, entKeysNodup_entErase es2 k her.2.1, ?_, ?_⟩
        · intro k'
          by_cases hk' : k' = k
          · subst hk'
            rw [entHasKey_entErase_self es2 k' her.2.1]
            exact hnd1.1
          · rw [entHasKey_entErase_other es2 hk', ← her.2.2.1 k']
            simp [entHasKey, Ne.symm hk']
        · intro k' w1 w2 l1 l2
          by_cases hk' : k' = k
          · subst hk'
            rw [entLookup_eq_none rest k' hnd1.1] at l1
            cases l1
          · rw [entLookup_entErase_other es2 hk'] at l2
            exact her.2.2.2 k' w1 w2 (by simp [entLookup, Ne.symm hk', l1]) l2
      have hdi : EntRel (entInsert dest1 k d1) (entInsert dest2 k d2) :=
        EntRel_entInsert k hdest hdd
      have hmR : measM rest < n := by
        simp only [measM, sizeE] at hm ⊢
        have := sizeV_pos v
        omega
      exact (IH _ hmR).2.2.2.1 rest (entErase es2 k) groups q1 q2 emb _ _
        (le_refl _) hrt hq hdi
    exact CallRel_trans hdirect (CallRel_symm hmf)

theorem congF_main (o : Options) (n : Nat) (IH : ∀ m, m < n → CongAll o m) :
    CongF o n := by
  intro fs1 fs2 groups p1 p2 emb dest1 dest2 hm hfe hst hdest
  cases fs1 <;> cases fs2 <;> first | (simp only [FEqv] at hfe; done) | skip
  case nil.nil =>
    rw [eqnF_nil, eqnF_nil]
    refine CallRel_ok ?_ hst
    simp only [VEqv]
    exact ⟨hdest.1, hdest.2.1, hdest.2.2.1, hdest.2.2.2⟩
  case cons.cons meta fval1 rest1 meta2 fval2 rest2 =>
    have hh : meta = meta2 ∧ VEqv fval1 fval2 ∧ FEqv rest1 rest2 := by
      simpa [FEqv] using hfe
    obtain ⟨hmeta, hv12, hrest⟩ := hh
    subst hmeta
    have hmR : measF rest1 < n := by
      simp only [measF, sizeF] at hm ⊢
      have := sizeV_pos fval1
      omega
    by_cases hdash : fieldJsonTag meta = "-"
    · rw [eqnF_dash o fval1 rest1 groups p1 emb dest1 hdash,
          eqnF_dash o fval2 rest2 groups p2 emb dest2 hdash]
      exact (IH _ hmR).2.2.2.2.2 rest1 rest2 groups p1 p2 emb dest1 dest2
        (le_refl _) hrest hst hdest
    · have hoeq : isEmptyValue fval1 = isEmptyValue fval2 :=
        VEqv_isEmptyValue hv12
      by_cases homit : (meta.jsonOpts.contains "omitempty" &&
          isEmptyValue fval1) = true
      · have homit2 : (meta.jsonOpts.contains "omitempty" &&
            isEmptyValue fval2) = true := by
          rw [← hoeq]
          exact homit
        rw [eqnF_omitempty o rest1 groups p1 emb dest1 hdash homit,
            eqnF_omitempty o rest2 groups p2 emb dest2 hdash homit2]
        exact (IH _ hmR).2.2.2.2.2 rest1 rest2 groups p1 p2 emb dest1 dest2
          (le_refl _) hrest hst hdest
      · have homitF := bool_eq_false homit
        have homit2F : (meta.jsonOpts.contains "omitempty" &&
            isEmptyValue fval2) = false := by
          rw [← hoeq]
          exact homitF
        have hvaleq : fval1.isValid = fval2.isValid := VEqv_isValid hv12
        by_cases hinv : (!fval1.isValid || !meta.canInterface) = true
        · have hinv2 : (!fval2.isValid || !meta.canInterface) = true := by
            rw [← hvaleq]
            exact hinv
          rw [eqnF_unexported o rest1 groups p1 emb dest1 hdash homitF hinv,
              eqnF_unexported o rest2 groups p2 emb dest2 hdash homit2F hinv2]
          exact (IH _ hmR).2.2.2.2.2 rest1 rest2 groups p1 p2 emb dest1 dest2
            (le_refl _) hrest hst hdest
        · have hinvF := bool_eq_false hinv
          have hinv2F : (!fval2.isValid || !meta.canInterface) = false := by
            rw [← hvaleq]
            exact hinvF
          have hd1 := hinvF
          simp only [Bool.or_eq_false_iff, Bool.not_eq_false'] at hd1
          have hd2 := hinv2F
          simp only [Bool.or_eq_false_iff, Bool.not_eq_false'] at hd2
          cases hs : sinceCheck o.ApiVersion meta.sinceTag with
          | verr e =>
            rw [eqnF_sinceErr o rest1 groups p1 emb dest1 hdash homitF hinvF hs,
                eqnF_sinceErr o rest2 groups p2 emb dest2 hdash homit2F hinv2F hs]
            exact CallRel_abn trivial trivial
          | vpanic =>
            rw [eqnF_sincePanic o rest1 groups p1 emb dest1 hdash homitF hinvF
                  hs,
                eqnF_sincePanic o rest2 groups p2 emb dest2 hdash homit2F
                  hinv2F hs]
            exact CallRel_abn trivial trivial
          | pass b1 =>
            cases hu : untilCheck o.ApiVersion meta.untilTag with
            | verr e =>
              rw [eqnF_untilErr o rest1 groups p1 emb dest1 hdash homitF hinvF
                    hs hu,
                  eqnF_untilErr o rest2 groups p2 emb dest2 hdash homit2F
                    hinv2F hs hu]
              exact CallRel_abn trivial trivial
            | vpanic =>
              rw [eqnF_untilPanic o rest1 groups p1 emb dest1 hdash homitF
                    hinvF hs hu,
                  eqnF_untilPanic o rest2 groups p2 emb dest2 hdash homit2F
                    hinv2F hs hu]
              exact CallRel_abn trivial trivial
            | pass b2 =>
              have hisEmb : fieldIsEmbedded meta fval1 =
                  fieldIsEmbedded meta fval2 := by
                simp only [fieldIsEmbedded,
                  VEqv_isStructKind (VEqv_deref1 hv12)]
              have hPrel : StateRel o
                  (if o.InheritGroups || fieldIsEmbedded meta fval1 then
                     p1.incrementGroups (fieldGroupNames o p1 meta.groupsTag)
                   else p1)
                  (if o.InheritGroups || fieldIsEmbedded meta fval1 then
                     p2.incrementGroups (fieldGroupNames o p2 meta.groupsTag)
                   else p2) := StateRel_push hst _ meta.groupsTag
              have hmv : measV (deref1 fval1) < n := by
                simp only [measF, sizeF, measV] at hm ⊢
                have := sizeV_deref1_le fval1
                omega
              have hvd : VEqv (deref1 fval1) (deref1 fval2) := VEqv_deref1 hv12
              have hrel := (IH _ hmv).2.1 (deref1 fval1) (deref1 fval2) groups
                _ _ (fieldIsEmbedded meta fval1) (le_refl _) hvd hPrel
              have hswap : marshalValue o (deref1 fval2) groups
                  (if o.InheritGroups || fieldIsEmbedded meta fval1 then
                     p2.incrementGroups (fieldGroupNames o p2 meta.groupsTag)
                   else p2) (fieldIsEmbedded meta fval1) =
                  marshalValue o (deref1 fval2) groups
                  (if o.InheritGroups || fieldIsEmbedded meta fval2 then
                     p2.incrementGroups (fieldGroupNames o p2 meta.groupsTag)
                   else p2) (fieldIsEmbedded meta fval2) := by
                rw [hisEmb]
              rw [hswap] at hrel
              cases hrun1 : marshalValue o (deref1 fval1) groups
                  (if o.InheritGroups || fieldIsEmbedded meta fval1 then
                     p1.incrementGroups (fieldGroupNames o p1 meta.groupsTag)
                   else p1) (fieldIsEmbedded meta fval1) with
              | mk q1 r1 =>
              cases hrun2 : marshalValue o (deref1 fval2) groups
                  (if o.InheritGroups || fieldIsEmbedded meta fval2 then
                     p2.incrementGroups (fieldGroupNames o p2 meta.groupsTag)
                   else p2) (fieldIsEmbedded meta fval2) with
              | mk q2 r2 =>
              rw [hrun1, hrun2] at hrel
              cases r1 with
              | ok rv1 =>
                obtain ⟨rv2, hr2, hrv, hq⟩ := CallRel_ok_ok hrel
                subst hr2
                rw [marshalFields_step_ok o meta fval1 rest1 groups p1 emb
                      dest1 b1 b2 q1 rv1 hdash homitF hd1.1 hd1.2 hs hu hrun1,
                    marshalFields_step_ok o meta fval2 rest2 groups p2 emb
                      dest2 b1 b2 q2 rv2 hdash homit2F hd2.1 hd2.2 hs hu hrun2,
                    ← hisEmb]
                have hpop : StateRel o
                    (if o.InheritGroups || fieldIsEmbedded meta fval1 then
                       q1.decrementGroups (fieldGroupNames o p1 meta.groupsTag)
                     else q1)
                    (if o.InheritGroups || fieldIsEmbedded meta fval1 then
                       q2.decrementGroups (fieldGroupNames o p2 meta.groupsTag)
                     else q2) := StateRel_pop hq hst _ meta.groupsTag
                have hvis : groupVisibility o groups p1 emb meta.groupsTag
                    (fieldIsEmbedded meta fval1) =
                    groupVisibility o groups p2 emb meta.groupsTag
                    (fieldIsEmbedded meta fval1) :=
                  groupVisibility_congr hst groups emb meta.groupsTag _
                rw [← hvis]
                have hdest' : EntRel
                    (if (groupVisibility o groups p1 emb meta.groupsTag
                           (fieldIsEmbedded meta fval1) && b1 && b2) = true then
                       storeField dest1 (fieldJsonTag meta) rv1
                         (fieldIsEmbedded meta fval1)
                     else dest1)
                    (if (groupVisibility o groups p1 emb meta.groupsTag
                           (fieldIsEmbedded meta fval1) && b1 && b2) = true then
                       storeField dest2 (fieldJsonTag meta) rv2
                         (fieldIsEmbedded meta fval1)
                     else dest2) := by
                  by_cases hc : (groupVisibility o groups p1 emb meta.groupsTag
                      (fieldIsEmbedded meta fval1) && b1 && b2) = true
                  · rw [if_pos hc, if_pos hc]
                    exact EntRel_storeField (fieldJsonTag meta) _ hdest hrv
                  · rw [if_neg hc, if_neg hc]
                    exact hdest
                exact (IH _ hmR).2.2.2.2.2 rest1 rest2 groups _ _ emb _ _
                  (le_refl _) hrest hpop hdest'
              | err e1 =>
                have hab : r2.isAbnormal := CallRel_abn_right hrel trivial
                rw [marshalFields_step_err o meta fval1 rest1 groups p1 emb
                      dest1 b1 b2 q1 e1 hdash homitF hd1.1 hd1.2 hs hu hrun1]
                cases r2 with
                | ok _ => exact absurd hab (by simp [Res.isAbnormal])
                | err e2 =>
                  rw [marshalFields_step_err o meta fval2 rest2 groups p2 emb
                        dest2 b1 b2 q2 e2 hdash homit2F hd2.1 hd2.2 hs hu hrun2]
                  exact CallRel_abn trivial trivial
                | panic =>
                  rw [eqnF_valPanic o rest2 groups p2 emb dest2 hdash homit2F
                        hinv2F hs hu hrun2]
                  exact CallRel_abn trivial trivial
              | panic =>
                have hab : r2.isAbnormal := CallRel_abn_right hrel trivial
                rw [eqnF_valPanic o rest1 groups p1 emb dest1 hdash homitF
                      hinvF hs hu hrun1]
                cases r2 with
                | ok _ => exact absurd hab (by simp [Res.isAbnormal])
                | err e2 =>
                  rw [marshalFields_step_err o meta fval2 rest2 groups p2 emb
                        dest2 b1 b2 q2 e2 hdash homit2F hd2.1 hd2.2 hs hu hrun2]
                  exact CallRel_abn trivial trivial
                | panic =>
                  rw [eqnF_valPanic o rest2 groups p2 emb dest2 hdash homit2F
                        hinv2F hs hu hrun2]
                  exact CallRel_abn trivial trivial

/-- All six congruences hold at every size: the full two-run congruence of
the walker under mapping-entry reordering. -/
theorem congAll_n (o : Options) : ∀ n, CongAll o n := by
  intro n
  induction n using Nat.strong_induction_on with
  | _ n IH =>
    have hSW := sw_step o n IH
    have hMF := mf_step o n IH hSW
    have hM := congM_main o n IH hMF
    exact ⟨congO_step o n IH, congV_step o n IH, congD_step o n IH hM,
      hM, congS_step o n IH, congF_main o n IH⟩

/-! ### C8: mapping-entry order and the outcome of Marshal -/

/-- The two enumeration orders denote the same Go map. -/
theorem VEqv_mapsAB : VEqv mapsA mapsB := by
  simp only [mapsA, mapsB, VEqv]
  refine ⟨by trivial, by decide, by decide, ?_, ?_⟩
  · intro k
    by_cases h1 : "a" = k <;> by_cases h2 : "b" = k <;>
      simp [entHasKey, h1, h2]
  · intro k v v2 l1 l2
    by_cases h1 : "a" = k
    · rw [← h1] at l1 l2
      simp [entLookup] at l1 l2
      rw [← l1, ← l2]
      simp [VEqv]
    · by_cases h2 : "b" = k
      · rw [← h2] at l1 l2
        simp [entLookup] at l1 l2
        rw [← l1, ← l2]
        simp [VEqv]
      · rw [entLookup_eq_none _ k (by simp [entHasKey, h1, h2])] at l1
        cases l1

/-- C8 is refuted as stated: a Go map has no entry order, so "identical
input" admits any enumeration order of the same map, and two calls of
`Marshal` on the same two-entry map can hit different failing entries first
and return different errors — the outcome is not "the same error". -/
theorem claim8_counterexample :
    VEqv mapsA mapsB ∧
    Marshal oEmpty mapsA = .err (.marshallerErr "e1") ∧
    Marshal oEmpty mapsB = .err (.marshallerErr "e2") ∧
    Err.marshallerErr "e1" ≠ Err.marshallerErr "e2" := by
  refine ⟨VEqv_mapsAB, ?_, ?_, by decide⟩
  · simp [Marshal, oEmpty, mapsA, groupSet.incrementGroups, marshalObject,
      structFieldsOf, deref1, marshalValue, marshalValueDeref, marshalMap]
  · simp [Marshal, oEmpty, mapsB, groupSet.incrementGroups, marshalObject,
      structFieldsOf, deref1, marshalValue, marshalValueDeref, marshalMap]

/-- C8 (amended): two `Marshal` calls with identical `Options` on the same
input — the same Go value, i.e. inputs equal up to keyed-mapping entry
order — produce the same outcome up to that order: either both fail
(possibly with different errors, the enumeration order decides which failing
entry is hit first), or both return structurally equal output trees, with
keyed-mapping nodes compared order-insensitively and sequence nodes
order-sensitively. -/
theorem claim8_amended (o : Options) (d1 d2 : Value) (h : VEqv d1 d2) :
    RRel (Marshal o d1) (Marshal o d2) := by
  have hc := (congAll_n o (measO d1)).1 d1 d2
    (groupSet.incrementGroups [] o.Groups) [] [] false (le_refl _) h
    (StateRel_refl o [])
  rcases hc with ⟨v1, v2, h1, h2, hv, _⟩ | ⟨ha, hb⟩
  · exact Or.inl ⟨v1, v2, h1, h2, hv⟩
  · exact Or.inr ⟨ha, hb⟩

/-- Witness for the amended C8 at a concrete input pair. -/
theorem claim8_witness : RRel (Marshal oEmpty mapsA) (Marshal oEmpty mapsB) :=
  claim8_amended oEmpty mapsA mapsB VEqv_mapsAB

end Sheriff
